import Mathlib

/-!
# Brute-force weighted job selection (`AED_T1/job_selection.c`)

A shallow embedding of the search procedure `recursive_sol` and of its driver
`solution`, together with the statements of the specification that concern them.

Conventions of the embedding.

* C `int` values are integers (`Int`); signed overflow is undefined behaviour in C
  and is outside the model.  The leaf counter `n_viable_sol` is an `unsigned long`,
  whose arithmetic is defined to wrap: it is incremented modulo `ULONG_MOD`.
* `task[0 .. T-1]` is a list and `T` is its length.
* `malloc` returns a block whose contents are not determined by the program: the
  contents of the two blocks that `solution` never fills are the `Heap` argument.
* The histogram block has exactly the number of cells that was requested from
  `malloc`; a leaf whose index falls outside the block leaves the block unchanged and
  is recorded in the ghost field `hist_oob`.
-/

namespace JobSelection

/-! # Definitions -/

/-! ## Data model -/

/-- Maximum number of programming tasks. -/
def MAX_T : Nat := 64

/-- Maximum number of programmers. -/
def MAX_P : Nat := 10

/-- Arithmetic on `unsigned long` is modulo this value (LP64). -/
def ULONG_MOD : Nat := 2 ^ 64

/-- Record `task_t`. -/
structure Task where
  starting_date : Int
  ending_date : Int
  profit : Int
  assigned_to : Int
deriving DecidableEq, Repr

/-- Record `problem_t`, restricted to the fields used by the search; `hist_oob` is
ghost state listing the histogram indices that fell outside the allocated block. -/
structure Problem where
  P : Nat
  total_profit : Int
  task : List Task
  busy : List Int
  opt_sol : List Int
  current_sol : List Int
  current_sol_profit : Int
  profit_limit : Int
  profit_occurrence_arr : List Int
  n_viable_sol : Nat
  hist_oob : List Int
deriving DecidableEq, Repr

/-- Number of tasks `T`. -/
def Problem.T (pr : Problem) : Nat := pr.task.length

/-- Contents of the blocks returned by `malloc` for `opt_sol` and for
`profit_occurrence_arr`, cell by cell. -/
structure Heap where
  opt_sol : Nat → Int
  profit_occurrence_arr : Nat → Int

/-- A heap whose fresh blocks happen to be zero-filled. -/
def Heap.zero : Heap := ⟨fun _ => 0, fun _ => 0⟩

/-- Block of `n` ints with contents `mem`. -/
def malloc_ints (mem : Nat → Int) (n : Nat) : List Int := (List.range n).map mem

/-! ## The program -/

/-- Function `compare_tasks`: order on `(starting_date, ending_date)`. -/
def compare_tasks (t1 t2 : Task) : Int :=
  if t1.starting_date ≠ t2.starting_date then
    (if t1.starting_date < t2.starting_date then -1 else 1)
  else if t1.ending_date ≠ t2.ending_date then
    (if t1.ending_date < t2.ending_date then -1 else 1)
  else 0

/-- Read of `task[t]`. -/
def task_at (pr : Problem) (t : Nat) : Task := pr.task.getD t ⟨0, 0, 0, -1⟩

/-- Assignment `task[t].assigned_to = w`. -/
def set_assigned (pr : Problem) (t : Nat) (w : Int) : Problem :=
  { pr with task := pr.task.set t { task_at pr t with assigned_to := w } }

/-- Statement `profit_occurrence_arr[i]++` on a block of `arr.length` cells. -/
def hist_incr (pr : Problem) (i : Int) : Problem :=
  if 0 ≤ i ∧ i < pr.profit_occurrence_arr.length then
    { pr with profit_occurrence_arr :=
        pr.profit_occurrence_arr.set i.toNat (pr.profit_occurrence_arr.getD i.toNat 0 + 1) }
  else { pr with hist_oob := pr.hist_oob ++ [i] }

/-- Base case of `recursive_sol` (`t == T`): count the leaf, bump the histogram,
and keep the assignment when it beats the best profit so far. -/
def leaf (pr : Problem) : Problem :=
  let pr1 := { pr with n_viable_sol := (pr.n_viable_sol + 1) % ULONG_MOD }
  let pr2 := hist_incr pr1 pr1.current_sol_profit
  if pr2.current_sol_profit > pr2.total_profit then
    { pr2 with
      total_profit := pr2.current_sol_profit
      opt_sol := pr2.current_sol.take pr2.T ++ pr2.opt_sol.drop pr2.T }
  else pr2

/-- The loop `while (busy[p] >= starting_date && p < P) p++;` started at `p`, with at
most `n` iterations.  The cell read when `p` is past the list is taken to be `0`;
the second conjunct makes that value irrelevant. -/
def scan_workers (busy : List Int) (starting_date : Int) (P : Nat) : Nat → Nat → Nat
  | 0, p => p
  | n + 1, p =>
    if busy.getD p 0 ≥ starting_date ∧ p < P then
      scan_workers busy starting_date P n (p + 1)
    else p

/-- The scan of `recursive_sol`, started at `p = 0`; the loop leaves after at most
`P + 1` evaluations of its condition. -/
def first_free (busy : List Int) (starting_date : Int) (P : Nat) : Nat :=
  scan_workers busy starting_date P (P + 1) 0

/-- Function `recursive_sol(problem, t)`; the first argument bounds the recursion
depth. -/
def recursive_sol : Nat → Problem → Nat → Problem
  | 0, pr, _ => pr
  | fuel + 1, pr, t =>
    if t = pr.T then leaf pr
    else
      let pr1 := recursive_sol fuel (set_assigned pr t (-1)) (t + 1)
      let p := first_free pr1.busy (task_at pr1 t).starting_date pr1.P
      if p < pr1.P then
        let tmp_busy := pr1.busy.getD p 0
        let tmp_profit := pr1.current_sol_profit
        let pr2 := { pr1 with busy := pr1.busy.set p (task_at pr1 t).ending_date }
        let pr3 := set_assigned pr2 t p
        let pr4 := { pr3 with
          current_sol_profit := pr3.current_sol_profit + (task_at pr3 t).profit
          current_sol := pr3.current_sol.set t 1 }
        let pr5 := recursive_sol fuel pr4 (t + 1)
        { pr5 with
          busy := pr5.busy.set p tmp_busy
          current_sol_profit := tmp_profit
          current_sol := pr5.current_sol.set t 0 }
      else pr1

/-- The loop `for (i = 0; i < P; i++) busy[i] = -1;`. -/
def reset_busy (busy : List Int) (P : Nat) : List Int :=
  (List.range P).foldl (fun b i => b.set i (-1)) busy

/-- The loop `for (i = 0; i < T; i++) profit_limit += task[i].profit;` started at
`profit_limit = 0`: sum of the profits of all tasks. -/
def profit_sum (ts : List Task) : Int := (ts.map Task.profit).foldl (fun s x => s + x) 0

/-- Function `solution(problem)`, run on a heap whose fresh blocks hold `heap`. -/
def solution (heap : Heap) (pr : Problem) : Problem :=
  let profit_limit := profit_sum pr.task
  let pr0 : Problem :=
    { pr with
      n_viable_sol := 0
      current_sol_profit := 0
      total_profit := 0
      profit_limit := profit_limit
      current_sol := List.replicate pr.T 0
      opt_sol := malloc_ints heap.opt_sol pr.T
      busy := reset_busy pr.busy pr.P
      profit_occurrence_arr := malloc_ints heap.profit_occurrence_arr profit_limit.toNat
      hist_oob := [] }
  recursive_sol (pr.T + 1) pr0 0

/-- A problem record with `P` programmers and the given tasks, as `init_problem`
fills it; the fields that `init_problem` leaves unset hold zeros. -/
def mk_problem (P : Nat) (tasks : List Task) : Problem :=
  { P := P, total_profit := 0, task := tasks, busy := List.replicate MAX_P 0,
    opt_sol := [], current_sol := [], current_sol_profit := 0, profit_limit := 0,
    profit_occurrence_arr := [], n_viable_sol := 0, hist_oob := [] }

/-- A task with the given dates and profit, not yet assigned. -/
def mk_task (s e profit : Int) : Task := ⟨s, e, profit, -1⟩

/-! ## Reference notions of the specification -/

/-- Two tasks overlap when their closed date ranges share a date. -/
def overlap (a b : Task) : Prop :=
  a.starting_date ≤ b.ending_date ∧ b.starting_date ≤ a.ending_date

instance (a b : Task) : Decidable (overlap a b) := by
  unfold overlap; infer_instance

/-- Tasks sorted ascending by `(starting_date, ending_date)`, as `qsort` with
`compare_tasks` leaves them. -/
def SortedTasks (ts : List Task) : Prop :=
  ts.Pairwise (fun a b => compare_tasks a b ≤ 0)

/-- Dates of every task satisfy `0 <= starting_date <= ending_date`. -/
def DatesOk (ts : List Task) : Prop :=
  ∀ tk ∈ ts, 0 ≤ tk.starting_date ∧ tk.starting_date ≤ tk.ending_date

/-- All subsets of `n` tasks as inclusion flags, task `0` first; the flag `false`
is tried before `true`. -/
def masks : Nat → List (List Bool)
  | 0 => [[]]
  | n + 1 => (masks n).map (List.cons false) ++ (masks n).map (List.cons true)

/-- Profit of the tasks selected by the flags `m`. -/
def profit_of : List Task → List Bool → Int
  | tk :: ts, b :: m => (if b then tk.profit else 0) + profit_of ts m
  | _, _ => 0

/-- Greedy first-fit over the selected tasks in index order, started from the busy
values `busy`: every selected task goes to the lowest-indexed worker whose busy
value is below its starting date; the result says whether every selected task
found a worker. -/
def first_fit_ok (P : Nat) : List Task → List Bool → List Int → Bool
  | tk :: ts, true :: m, busy =>
    if first_free busy tk.starting_date P < P then
      first_fit_ok P ts m (busy.set (first_free busy tk.starting_date P) tk.ending_date)
    else false
  | _ :: ts, false :: m, busy => first_fit_ok P ts m busy
  | _, _, _ => true

/-- An assignment `a` of task indices to workers is valid for the selection `m`:
every selected task has a worker below `P`, and two distinct selected tasks on the
same worker never overlap. -/
def ValidAssignment (P : Nat) (ts : List Task) (m : List Bool) (a : Nat → Nat) : Prop :=
  (∀ i, i < ts.length → m[i]? = some true → a i < P) ∧
  ∀ i j ti tj, i < j → ts[i]? = some ti → ts[j]? = some tj →
    m[i]? = some true → m[j]? = some true → a i = a j → ¬ overlap ti tj

/-- The selection `m` admits some valid assignment to `P` workers. -/
def Feasible (P : Nat) (ts : List Task) (m : List Bool) : Prop :=
  m.length = ts.length ∧ ∃ a : Nat → Nat, ValidAssignment P ts m a

/-! ## Trace of the search -/

/-- The part of a task that the search reads. -/
def Task.key (tk : Task) : Int × Int × Int :=
  (tk.starting_date, tk.ending_date, tk.profit)

/-- Inclusion flags as stored in `current_sol`. -/
def flags (m : List Bool) : List Int := m.map (fun b => if b then 1 else 0)

/-- Leaves reached by the search below a node with remaining tasks `ts` and busy
values `busy`, in the order in which they are reached. -/
def search (P : Nat) : List Task → List Int → List (List Bool)
  | [], _ => [[]]
  | tk :: ts, busy =>
    (search P ts busy).map (List.cons false) ++
      (if first_free busy tk.starting_date P < P then
        (search P ts (busy.set (first_free busy tk.starting_date P) tk.ending_date)).map
          (List.cons true)
      else [])

/-- The result fields of a problem record. -/
structure Result where
  total_profit : Int
  opt_sol : List Int
  profit_occurrence_arr : List Int
  hist_oob : List Int
  n_viable_sol : Nat
deriving DecidableEq, Repr

/-- Result fields of `pr`. -/
def Problem.result (pr : Problem) : Result :=
  ⟨pr.total_profit, pr.opt_sol, pr.profit_occurrence_arr, pr.hist_oob, pr.n_viable_sol⟩

/-- Histogram update of a leaf with profit `i`, on the block `arr`. -/
def bump (arr : List Int) (i : Int) : List Int :=
  if 0 ≤ i ∧ i < arr.length then arr.set i.toNat (arr.getD i.toNat 0 + 1) else arr

/-- Effect of one leaf with profit `x` and flags `sol` on the result fields. -/
def leaf_result (T : Nat) (r : Result) (x : Int) (sol : List Int) : Result :=
  { total_profit := if x > r.total_profit then x else r.total_profit
    opt_sol := if x > r.total_profit then sol.take T ++ r.opt_sol.drop T else r.opt_sol
    profit_occurrence_arr := bump r.profit_occurrence_arr x
    hist_oob :=
      if 0 ≤ x ∧ x < r.profit_occurrence_arr.length then r.hist_oob else r.hist_oob ++ [x]
    n_viable_sol := (r.n_viable_sol + 1) % ULONG_MOD }

/-! ## The search against its trace -/

/-- What a call of `recursive_sol` leaves untouched, up to `assigned_to`. -/
def Frame (pr pr' : Problem) : Prop :=
  pr'.busy = pr.busy ∧ pr'.current_sol = pr.current_sol ∧
  pr'.current_sol_profit = pr.current_sol_profit ∧ pr'.P = pr.P ∧
  pr'.task.map Task.key = pr.task.map Task.key ∧ pr'.profit_limit = pr.profit_limit

/-- State in which the include branch of `recursive_sol` makes its recursive call,
from the state `pr1` left by the exclude branch and the selected worker `p`. -/
def include_state (pr1 : Problem) (t p : Nat) : Problem :=
  let pr3 := set_assigned { pr1 with busy := pr1.busy.set p (task_at pr1 t).ending_date } t p
  { pr3 with
    current_sol_profit := pr3.current_sol_profit + (task_at pr3 t).profit
    current_sol := pr3.current_sol.set t 1 }

/-- Restoration made by the include branch after its recursive call returned `pr5`. -/
def restore_state (pr1 pr5 : Problem) (t p : Nat) : Problem :=
  { pr5 with
    busy := pr5.busy.set p (pr1.busy.getD p 0)
    current_sol_profit := pr1.current_sol_profit
    current_sol := pr5.current_sol.set t 0 }

/-! ## First-fit against arbitrary assignments -/

/-- A valid assignment that moreover respects the busy values `busy`: every selected
task starts after the busy value of its worker. -/
def Fits (P : Nat) (ts : List Task) (m : List Bool) (busy : List Int) (a : Nat → Nat) : Prop :=
  ValidAssignment P ts m a ∧
  ∀ i ti, ts[i]? = some ti → m[i]? = some true → busy.getD (a i) 0 < ti.starting_date

/-- Tail of an assignment. -/
def shift (a : Nat → Nat) : Nat → Nat := fun i => a (i + 1)

/-- Assignment that gives worker `p` to the first task and follows `a` afterwards. -/
def consAssign (p : Nat) (a : Nat → Nat) : Nat → Nat
  | 0 => p
  | i + 1 => a i

/-- Exchange of the two workers `p` and `w`. -/
def swapWorkers (p w x : Nat) : Nat :=
  if x = p then w else if x = w then p else x

/-! ## Folding the leaves into the result -/

/-- Result after the leaves `L`, where `f` gives the profit and `g` the flags of a
leaf. -/
def fold_leaves {α : Type} (T : Nat) (f : α → Int) (g : α → List Int) (r : Result)
    (L : List α) : Result :=
  L.foldl (fun r x => leaf_result T r (f x) (g x)) r

/-! ## The driver -/

/-- Result fields at the moment `solution` calls `recursive_sol`. -/
def initial_result (heap : Heap) (pr : Problem) : Result :=
  { total_profit := 0
    opt_sol := malloc_ints heap.opt_sol pr.T
    profit_occurrence_arr := malloc_ints heap.profit_occurrence_arr (profit_sum pr.task).toNat
    hist_oob := []
    n_viable_sol := 0 }

/-! ## Counting the leaves -/

/-- Number of selections, out of all `2^T`, on which first-fit started from `P` idle
workers finds a worker for every selected task. -/
def reference_count (P : Nat) (ts : List Task) : Nat :=
  ((masks ts.length).filter (fun m => first_fit_ok P ts m (List.replicate P (-1)))).length

/-! ## Tasks that never overlap -/

/-- Every task starts strictly after every earlier task ends. -/
def NeverOverlap (ts : List Task) : Prop :=
  ts.Pairwise (fun a b => a.ending_date < b.starting_date)

/-- The `n` tasks `[0,1], [2,3], [4,5], ...`, each of profit `1`. -/
def chain (n : Nat) : List Task :=
  (List.range n).map (fun i => mk_task (2 * Int.ofNat i) (2 * Int.ofNat i + 1) 1)

/-! ## The best assignment -/

/-- Selection read off a flag array: task `i` is selected when its cell holds `1`. -/
def flagged (sol : List Int) : List Bool := sol.map (fun x => decide (x = 1))

/-- The selection that holds task `i` alone, among `n` tasks. -/
def single (n i : Nat) : List Bool := (List.replicate n false).set i true

/-- A heap whose fresh blocks hold `7` in every cell. -/
def Heap.sevens : Heap := ⟨fun _ => 7, fun _ => 7⟩

/-- Profits of the leaves of the search, in enumeration order. -/
def leaf_profits (P : Nat) (ts : List Task) : List Int :=
  (search P ts (List.replicate P (-1))).map (profit_of ts)

/-- A heap whose fresh histogram block holds `-3` in every cell. -/
def Heap.negative : Heap := ⟨fun _ => 0, fun _ => -3⟩

/-! ## The statements at a concrete instance -/

/-- The two overlapping tasks `[0,2]` (profit 5) and `[1,3]` (profit 7). -/
def overlapping_pair : List Task := [mk_task 0 2 5, mk_task 1 3 7]

/-! ## Stale state -/

/-- Result of the search on `P` workers, tasks `ts` and busy values `busy`, started
with fresh blocks holding `heap`. -/
def run_result (heap : Heap) (P : Nat) (ts : List Task) (busy : List Int) : Result :=
  fold_leaves ts.length (profit_of ts) flags
    { total_profit := 0
      opt_sol := malloc_ints heap.opt_sol ts.length
      profit_occurrence_arr := malloc_ints heap.profit_occurrence_arr (profit_sum ts).toNat
      hist_oob := []
      n_viable_sol := 0 }
    (search P ts busy)

/-! ## The order on tasks -/

/-- Lexicographic order on `(starting_date, ending_date)`. -/
def date_lt (a b : Task) : Prop :=
  a.starting_date < b.starting_date ∨
    (a.starting_date = b.starting_date ∧ a.ending_date < b.ending_date)

/-! ## Calls of the search -/

/-- State in which `solution` calls `recursive_sol(problem, 0)`. -/
def initial_state (heap : Heap) (pr : Problem) : Problem :=
  { pr with
    n_viable_sol := 0
    current_sol_profit := 0
    total_profit := 0
    profit_limit := profit_sum pr.task
    current_sol := List.replicate pr.T 0
    opt_sol := malloc_ints heap.opt_sol pr.T
    busy := reset_busy pr.busy pr.P
    profit_occurrence_arr := malloc_ints heap.profit_occurrence_arr (profit_sum pr.task).toNat
    hist_oob := [] }

/-- Calls `recursive_sol(q, u)` made during `recursive_sol(pr, t)`, the call itself
included, each with the state at its entry, in the order in which they are entered. -/
def call_entries : Nat → Problem → Nat → List (Problem × Nat)
  | 0, pr, t => [(pr, t)]
  | fuel + 1, pr, t =>
    (pr, t) ::
      (if t = pr.T then []
      else
        call_entries fuel (set_assigned pr t (-1)) (t + 1) ++
          (if first_free (recursive_sol fuel (set_assigned pr t (-1)) (t + 1)).busy
              (task_at (recursive_sol fuel (set_assigned pr t (-1)) (t + 1)) t).starting_date
              (recursive_sol fuel (set_assigned pr t (-1)) (t + 1)).P <
              (recursive_sol fuel (set_assigned pr t (-1)) (t + 1)).P then
            call_entries fuel
              (include_state (recursive_sol fuel (set_assigned pr t (-1)) (t + 1)) t
                (first_free (recursive_sol fuel (set_assigned pr t (-1)) (t + 1)).busy
                  (task_at (recursive_sol fuel (set_assigned pr t (-1)) (t + 1)) t).starting_date
                  (recursive_sol fuel (set_assigned pr t (-1)) (t + 1)).P))
              (t + 1)
          else []))

/-- What no call of `recursive_sol` changes, whatever the state at its entry: the
number of workers, the dates and profits, `profit_limit`, the tasks before `t` and
the sizes of the arrays. -/
def Static (pr pr' : Problem) (t : Nat) : Prop :=
  pr'.P = pr.P ∧ pr'.task.map Task.key = pr.task.map Task.key ∧
  pr'.profit_limit = pr.profit_limit ∧ pr'.task.take t = pr.task.take t ∧
  pr'.busy.length = pr.busy.length ∧ pr'.current_sol.length = pr.current_sol.length

/-! ## The selection rule of the include branch -/

/-- Worker `w` is idle (`busy = -1`) or free before a task that starts at `s`. -/
def WorkerFree (busy : List Int) (s : Int) (w : Nat) : Prop :=
  busy.getD w 0 = -1 ∨ busy.getD w 0 < s

instance (busy : List Int) (s : Int) (w : Nat) : Decidable (WorkerFree busy s w) := by
  unfold WorkerFree; infer_instance

/-! ## Cells read by the scan -/

/-- Indices at which the loop `while (busy[p] >= starting_date && p < P) p++;` reads
`busy`, started at `p`, with at most `n` tests of its condition: the left operand
of `&&` is evaluated at every test. -/
def scan_reads (busy : List Int) (starting_date : Int) (P : Nat) : Nat → Nat → List Nat
  | 0, _ => []
  | n + 1, p =>
    p :: (if busy.getD p 0 ≥ starting_date ∧ p < P then
            scan_reads busy starting_date P n (p + 1)
          else [])

/-- The commented-out loop
`for (; p < P; p++) if (busy[p] < starting_date) break;` started at `p`. -/
def for_scan (busy : List Int) (starting_date : Int) (P : Nat) : Nat → Nat → Nat
  | 0, p => p
  | n + 1, p =>
    if p < P then
      (if busy.getD p 0 < starting_date then p else for_scan busy starting_date P n (p + 1))
    else p

/-- Indices at which the commented-out `for` loop reads `busy`. -/
def for_reads (busy : List Int) (starting_date : Int) (P : Nat) : Nat → Nat → List Nat
  | 0, _ => []
  | n + 1, p =>
    if p < P then
      p :: (if busy.getD p 0 < starting_date then []
            else for_reads busy starting_date P n (p + 1))
    else []

/-! ## The number of leaves -/

/-- Number of leaves entered during `recursive_sol(pr, t)`: the calls
`recursive_sol(q, u)` with `u == q.T`, counted without any wrap-around. -/
def leaf_calls (fuel : Nat) (pr : Problem) (t : Nat) : Nat :=
  ((call_entries fuel pr t).filter (fun e => decide (e.2 = e.1.T))).length

/-! ## Termination -/

/-- Function `recursive_sol(problem, t)` run with an allowance of `fuel` nested
calls: `none` when the recursion goes deeper than the allowance. -/
def recursive_sol_fuel : Nat → Problem → Nat → Option Problem
  | 0, _, _ => none
  | fuel + 1, pr, t =>
    if t = pr.T then some (leaf pr)
    else
      match recursive_sol_fuel fuel (set_assigned pr t (-1)) (t + 1) with
      | none => none
      | some pr1 =>
        if first_free pr1.busy (task_at pr1 t).starting_date pr1.P < pr1.P then
          match recursive_sol_fuel fuel
              (include_state pr1 t (first_free pr1.busy (task_at pr1 t).starting_date pr1.P))
              (t + 1) with
          | none => none
          | some pr5 =>
            some (restore_state pr1 pr5 t
              (first_free pr1.busy (task_at pr1 t).starting_date pr1.P))
        else some pr1

/-- Number of calls made during `recursive_sol(pr, t)`, the call itself included. -/
def call_count (fuel : Nat) (pr : Problem) (t : Nat) : Nat := (call_entries fuel pr t).length

/-! ## Tie-break among the best assignments -/

/-- Lexicographic order on flag vectors, task `0` most significant, flag `0` before
flag `1`. -/
def mask_lt : List Bool → List Bool → Prop
  | a :: m, b :: m' => (a = false ∧ b = true) ∨ (a = b ∧ mask_lt m m')
  | _, _ => False

/-! ## More workers -/

/-- The task `[0,0]` followed by the 63 tasks `[0,1], [2,3], ...`: 64 sorted tasks of
which only the first two overlap. -/
def overlap_then_chain : List Task := mk_task 0 0 1 :: chain 63

/-! ## The invariant of the search state -/

/-- Sum of `task[i].profit` over the `i < u` with `current_sol[i] = 1`. -/
def selected_profit (q : Problem) : Nat → Int
  | 0 => 0
  | u + 1 =>
    selected_profit q u + (if q.current_sol.getD u 0 = 1 then (task_at q u).profit else 0)

/-- Ending date of the highest-indexed task `i < u` with `current_sol[i] = 1` and
`assigned_to = w`, or `-1` when worker `w` holds no such task. -/
def last_end (q : Problem) (w : Nat) : Nat → Int
  | 0 => -1
  | u + 1 =>
    if q.current_sol.getD u 0 = 1 ∧ (task_at q u).assigned_to = (w : Int) then
      (task_at q u).ending_date
    else last_end q w u

/-- Task `i` is held by worker `w` in the assignment being built. -/
def Holds (q : Problem) (w i : Nat) : Prop :=
  q.current_sol.getD i 0 = 1 ∧ (task_at q i).assigned_to = (w : Int)

/-- Invariant of the search state at the entry of `recursive_sol(q, u)`. -/
def SearchInv (q : Problem) (u : Nat) : Prop :=
  q.current_sol_profit = selected_profit q u ∧
  (∀ i, u ≤ i → i < q.T → q.current_sol.getD i 0 = 0) ∧
  (∀ w, w < q.P → q.busy.getD w 0 = last_end q w u) ∧
  (∀ w, w < q.P → ∀ i, i < u → Holds q w i →
    (task_at q i).ending_date ≤ q.busy.getD w 0)

/-! # Theorems -/

/-! ## The scan -/

theorem scan_workers_ge (busy : List Int) (s : Int) (P n p : Nat) :
    p ≤ scan_workers busy s P n p := by
  induction n generalizing p with
  | zero => simp [scan_workers]
  | succ n ih =>
    unfold scan_workers
    split
    · exact Nat.le_trans (Nat.le_succ p) (ih (p + 1))
    · exact Nat.le_refl p

theorem scan_workers_le (busy : List Int) (s : Int) (P n p : Nat) (hp : p ≤ P) :
    scan_workers busy s P n p ≤ P := by
  induction n generalizing p with
  | zero => simpa [scan_workers] using hp
  | succ n ih =>
    unfold scan_workers
    split
    · rename_i h
      exact ih (p + 1) h.2
    · exact hp

theorem scan_workers_free (busy : List Int) (s : Int) (P n p : Nat) (hn : P < n + p)
    (h : scan_workers busy s P n p < P) :
    busy.getD (scan_workers busy s P n p) 0 < s := by
  induction n generalizing p with
  | zero =>
    simp [scan_workers] at h
    omega
  | succ n ih =>
    unfold scan_workers at h ⊢
    split
    · rename_i hc
      rw [if_pos hc] at h
      exact ih (p + 1) (by omega) h
    · rename_i hc
      rw [if_neg hc] at h
      by_contra hlt
      exact hc ⟨by omega, h⟩

theorem scan_workers_busy (busy : List Int) (s : Int) (P n p k : Nat)
    (hk : p ≤ k) (h : k < scan_workers busy s P n p) :
    s ≤ busy.getD k 0 := by
  induction n generalizing p with
  | zero =>
    simp [scan_workers] at h
    omega
  | succ n ih =>
    unfold scan_workers at h
    split at h
    · rename_i hc
      rcases Nat.eq_or_lt_of_le hk with heq | hlt
      · subst heq; exact hc.1
      · exact ih (p + 1) hlt h
    · omega

theorem first_free_le (busy : List Int) (s : Int) (P : Nat) : first_free busy s P ≤ P :=
  scan_workers_le busy s P (P + 1) 0 (Nat.zero_le P)

theorem first_free_free (busy : List Int) (s : Int) (P : Nat)
    (h : first_free busy s P < P) : busy.getD (first_free busy s P) 0 < s :=
  scan_workers_free busy s P (P + 1) 0 (by omega) h

theorem first_free_busy (busy : List Int) (s : Int) (P k : Nat)
    (h : k < first_free busy s P) : s ≤ busy.getD k 0 :=
  scan_workers_busy busy s P (P + 1) 0 k (Nat.zero_le k) h

/-- A worker below `P` whose busy value is below `s` makes the scan succeed at or
before that worker. -/
theorem first_free_le_of_free (busy : List Int) (s : Int) (P w : Nat)
    (hfree : busy.getD w 0 < s) : first_free busy s P ≤ w := by
  by_contra h
  have := first_free_busy busy s P w (by omega)
  omega

/-! ## The search against its trace -/

theorem leaf_frame (pr : Problem) :
    (leaf pr).busy = pr.busy ∧ (leaf pr).current_sol = pr.current_sol ∧
    (leaf pr).current_sol_profit = pr.current_sol_profit ∧ (leaf pr).P = pr.P ∧
    (leaf pr).task = pr.task ∧ (leaf pr).profit_limit = pr.profit_limit := by
  unfold leaf hist_incr
  dsimp only
  split <;> split <;> simp

theorem leaf_eq_leaf_result (pr : Problem) :
    (leaf pr).result = leaf_result pr.T pr.result pr.current_sol_profit pr.current_sol := by
  unfold leaf hist_incr leaf_result bump Problem.result Problem.T
  dsimp only
  split <;> split <;> simp_all

theorem set_assigned_key (pr : Problem) (t : Nat) (w : Int) :
    (set_assigned pr t w).task.map Task.key = pr.task.map Task.key := by
  unfold set_assigned task_at
  apply List.ext_getElem?
  intro i
  simp only [List.getElem?_map, List.getElem?_set]
  by_cases h : t = i
  · subst h
    by_cases hl : t < pr.task.length
    · simp [hl, List.getD_eq_getElem?_getD, List.getElem?_eq_getElem hl, Task.key]
    · simp [hl, List.getElem?_eq_none (Nat.le_of_not_lt hl)]
  · simp [h]

theorem task_at_key (pr : Problem) (t : Nat) (tk : Task) (ts : List Task)
    (h : (pr.task.drop t).map Task.key = (tk :: ts).map Task.key) :
    (task_at pr t).key = tk.key := by
  unfold task_at
  have h0 := congrArg (fun l => l[0]?) h
  simp only [List.getElem?_map, List.getElem?_drop, List.map_cons, List.getElem?_cons_zero,
    Nat.add_zero] at h0
  cases hx : pr.task[t]? with
  | none => simp [hx] at h0
  | some x =>
    simp [hx] at h0
    simp [List.getD_eq_getElem?_getD, hx, h0]

theorem key_eq_iff (a b : Task) :
    a.key = b.key ↔ a.starting_date = b.starting_date ∧ a.ending_date = b.ending_date ∧
      a.profit = b.profit := by
  simp [Task.key, Prod.ext_iff]

theorem Frame.length {pr pr' : Problem} (h : Frame pr pr') : pr'.T = pr.T := by
  have := congrArg List.length h.2.2.2.2.1
  simpa [Problem.T] using this

theorem recursive_sol_succ (fuel : Nat) (pr : Problem) (t : Nat) (h : t ≠ pr.T) :
    recursive_sol (fuel + 1) pr t =
      if first_free (recursive_sol fuel (set_assigned pr t (-1)) (t + 1)).busy
          (task_at (recursive_sol fuel (set_assigned pr t (-1)) (t + 1)) t).starting_date
          (recursive_sol fuel (set_assigned pr t (-1)) (t + 1)).P <
          (recursive_sol fuel (set_assigned pr t (-1)) (t + 1)).P then
        restore_state (recursive_sol fuel (set_assigned pr t (-1)) (t + 1))
          (recursive_sol fuel
            (include_state (recursive_sol fuel (set_assigned pr t (-1)) (t + 1)) t
              (first_free (recursive_sol fuel (set_assigned pr t (-1)) (t + 1)).busy
                (task_at (recursive_sol fuel (set_assigned pr t (-1)) (t + 1)) t).starting_date
                (recursive_sol fuel (set_assigned pr t (-1)) (t + 1)).P))
            (t + 1))
          t
          (first_free (recursive_sol fuel (set_assigned pr t (-1)) (t + 1)).busy
            (task_at (recursive_sol fuel (set_assigned pr t (-1)) (t + 1)) t).starting_date
            (recursive_sol fuel (set_assigned pr t (-1)) (t + 1)).P)
      else recursive_sol fuel (set_assigned pr t (-1)) (t + 1) := by
  rw [recursive_sol]
  simp only [h, if_false]
  rfl

theorem task_at_set_assigned (q : Problem) (t : Nat) (w : Int) :
    (task_at (set_assigned q t w) t).key = (task_at q t).key := by
  unfold set_assigned task_at
  by_cases hl : t < q.task.length
  · simp [hl, List.getD_eq_getElem?_getD, List.getElem?_set, Task.key]
  · simp [hl, List.getD_eq_getElem?_getD, List.getElem?_eq_none (Nat.le_of_not_lt hl),
      List.getElem?_set, Task.key]

theorem include_state_profit (pr1 : Problem) (t p : Nat) :
    (include_state pr1 t p).current_sol_profit =
      pr1.current_sol_profit + (task_at pr1 t).profit := by
  have h1 := task_at_set_assigned
    { pr1 with busy := pr1.busy.set p (task_at pr1 t).ending_date } t p
  rw [key_eq_iff] at h1
  show pr1.current_sol_profit + _ = _
  rw [h1.2.2]
  rfl

theorem set_set_getD (l : List Int) (p : Nat) (e : Int) :
    (l.set p e).set p (l.getD p 0) = l := by
  apply List.ext_getElem?
  intro i
  simp only [List.getElem?_set]
  by_cases h : p = i
  · subst h
    by_cases hl : p < l.length
    · simp [hl, List.getD_eq_getElem?_getD, List.getElem?_eq_getElem hl]
    · simp [hl, List.getElem?_eq_none (Nat.le_of_not_lt hl)]
  · simp [h]

theorem set_append_replicate (pre : List Int) (n : Nat) (x y : Int) :
    (pre ++ x :: List.replicate n 0).set pre.length y = pre ++ y :: List.replicate n 0 := by
  induction pre with
  | nil => simp
  | cons a pre ih => simp [ih]

theorem recursive_sol_trace (ts : List Task) :
    ∀ (fuel : Nat) (pr : Problem) (t : Nat) (pre : List Int),
      (pr.task.drop t).map Task.key = ts.map Task.key →
      t + ts.length = pr.task.length → ts.length < fuel →
      pr.current_sol = pre ++ List.replicate ts.length 0 → pre.length = t →
      Frame pr (recursive_sol fuel pr t) ∧
      (recursive_sol fuel pr t).result =
        (search pr.P ts pr.busy).foldl
          (fun r m => leaf_result pr.T r (pr.current_sol_profit + profit_of ts m)
            (pre ++ flags m)) pr.result := by
  induction ts with
  | nil =>
    intro fuel pr t pre _ hlen hfuel hcur _
    obtain ⟨f, rfl⟩ : ∃ f, fuel = f + 1 := ⟨fuel - 1, by simp at hfuel; omega⟩
    have ht : t = pr.T := by simpa [Problem.T] using hlen
    rw [recursive_sol, if_pos ht]
    refine ⟨?_, ?_⟩
    · have := leaf_frame pr
      simp [Frame, this]
    · rw [leaf_eq_leaf_result]
      simp [search, profit_of, flags, hcur]
  | cons tk ts ih =>
    intro fuel pr t pre hkey hlen hfuel hcur hpre
    obtain ⟨f, rfl⟩ : ∃ f, fuel = f + 1 := ⟨fuel - 1, by simp at hfuel; omega⟩
    have hne : t ≠ pr.T := by simp [Problem.T] at hlen ⊢; omega
    have hka := set_assigned_key pr t (-1)
    have hdrop : ∀ (q : Problem), q.task.map Task.key = pr.task.map Task.key →
        (q.task.drop (t + 1)).map Task.key = ts.map Task.key := by
      intro q hq
      have h1 : (q.task.drop t).map Task.key = (tk :: ts).map Task.key := by
        rw [List.map_drop, hq, ← List.map_drop]; exact hkey
      have h2 := congrArg List.tail h1
      simpa [← List.map_drop, ← List.drop_one, List.drop_drop, Nat.add_comm] using h2
    have hlenq : ∀ (q : Problem), q.task.map Task.key = pr.task.map Task.key →
        q.task.length = pr.task.length := by
      intro q hq
      simpa using congrArg List.length hq
    -- the exclude branch
    obtain ⟨hF1, hR1⟩ := ih f (set_assigned pr t (-1)) (t + 1) (pre ++ [0]) (hdrop _ hka)
      (by rw [hlenq _ hka]; simp at hlen; omega) (by simp at hfuel; omega)
      (by simp [set_assigned, hcur, List.replicate_succ])
      (by simp [hpre])
    rw [recursive_sol_succ f pr t hne]
    generalize recursive_sol f (set_assigned pr t (-1)) (t + 1) = pr1 at hF1 hR1
    obtain ⟨hb1, hc1, hp1, hP1, hk1, hl1⟩ := hF1
    have hb1' : pr1.busy = pr.busy := hb1
    have hP1' : pr1.P = pr.P := hP1
    have hc1' : pr1.current_sol = pr.current_sol := hc1
    have hp1' : pr1.current_sol_profit = pr.current_sol_profit := hp1
    have hk1' : pr1.task.map Task.key = pr.task.map Task.key := hk1.trans hka
    have hl1' : pr1.profit_limit = pr.profit_limit := hl1
    have htk : (task_at pr1 t).key = tk.key := by
      apply task_at_key pr1 t tk ts
      rw [List.map_drop, hk1', ← List.map_drop]; exact hkey
    rw [key_eq_iff] at htk
    have hT1 : (set_assigned pr t (-1)).T = pr.T := by
      simp only [Problem.T]; exact hlenq _ hka
    have hR1' : pr1.result = (search pr.P ts pr.busy).foldl
        (fun r m => leaf_result pr.T r (pr.current_sol_profit + profit_of (tk :: ts) (false :: m))
          (pre ++ flags (false :: m))) pr.result := by
      rw [hR1, hT1]
      simp [set_assigned, profit_of, flags, Problem.result]
    rw [hb1', hP1', htk.1]
    by_cases hp : first_free pr.busy tk.starting_date pr.P < pr.P
    · rw [if_pos hp]
      have hk4 : (include_state pr1 t (first_free pr.busy tk.starting_date pr.P)).task.map
          Task.key = pr.task.map Task.key := by
        unfold include_state
        dsimp only
        rw [set_assigned_key]
        exact hk1'
      obtain ⟨hF5, hR5⟩ := ih f (include_state pr1 t (first_free pr.busy tk.starting_date pr.P))
        (t + 1) (pre ++ [1]) (hdrop _ hk4)
        (by rw [hlenq _ hk4]; simp at hlen; omega) (by simp at hfuel; omega)
        (by
          simp only [include_state, set_assigned, hc1', hcur, List.length_cons,
            List.replicate_succ, ← hpre, set_append_replicate]
          simp)
        (by simp [hpre])
      generalize recursive_sol f (include_state pr1 t (first_free pr.busy tk.starting_date pr.P))
        (t + 1) = pr5 at hF5 hR5
      obtain ⟨hb5, hc5, hp5, hP5, hk5, hl5⟩ := hF5
      refine ⟨⟨?_, ?_, ?_, ?_, ?_, ?_⟩, ?_⟩
      · show pr5.busy.set _ _ = pr.busy
        rw [hb5, hb1']
        simp only [include_state, set_assigned, hb1']
        exact set_set_getD _ _ _
      · show pr5.current_sol.set t 0 = pr.current_sol
        rw [hc5]
        simp only [include_state, set_assigned, hc1', hcur, List.length_cons,
            List.replicate_succ, ← hpre, set_append_replicate]
      · exact hp1'
      · show pr5.P = pr.P
        rw [hP5]; exact hP1'
      · show pr5.task.map Task.key = pr.task.map Task.key
        rw [hk5]; exact hk4
      · show pr5.profit_limit = pr.profit_limit
        rw [hl5]; exact hl1'
      · show pr5.result = _
        rw [hR5]
        have hT4 : (include_state pr1 t (first_free pr.busy tk.starting_date pr.P)).T = pr.T := by
          simp only [Problem.T]; exact hlenq _ hk4
        have hres4 : (include_state pr1 t (first_free pr.busy tk.starting_date pr.P)).result
            = pr1.result := rfl
        have hP4 : (include_state pr1 t (first_free pr.busy tk.starting_date pr.P)).P = pr.P :=
          hP1'
        have hb4 : (include_state pr1 t (first_free pr.busy tk.starting_date pr.P)).busy
            = pr.busy.set (first_free pr.busy tk.starting_date pr.P) tk.ending_date := by
          simp only [include_state, set_assigned, hb1', htk.2.1]
        have hp4 : (include_state pr1 t (first_free pr.busy tk.starting_date pr.P)).current_sol_profit
            = pr.current_sol_profit + tk.profit := by
          rw [include_state_profit, hp1', htk.2.2]
        rw [hT4, hres4, hP4, hb4, hp4, hR1']
        simp [search, hp, List.foldl_map, List.foldl_append, profit_of, flags, add_assoc]
    · rw [if_neg hp]
      refine ⟨⟨hb1', hc1', hp1', hP1', hk1', hl1'⟩, ?_⟩
      rw [hR1']
      simp [search, hp, List.foldl_map]

/-! ## First-fit against arbitrary assignments -/

theorem compare_tasks_le (a b : Task) (h : compare_tasks a b ≤ 0) :
    a.starting_date ≤ b.starting_date := by
  unfold compare_tasks at h
  split at h
  · split at h
    · omega
    · omega
  · rename_i heq
    simp at heq
    omega

theorem getD_set_eq (l : List Int) (p : Nat) (e : Int) (hp : p < l.length) :
    (l.set p e).getD p 0 = e := by
  simp [List.getD_eq_getElem?_getD, List.getElem?_set, hp]

theorem getD_set_ne (l : List Int) (p q : Nat) (e : Int) (hpq : p ≠ q) :
    (l.set p e).getD q 0 = l.getD q 0 := by
  simp [List.getD_eq_getElem?_getD, List.getElem?_set, hpq]

theorem swapWorkers_inj (p w x y : Nat) (h : swapWorkers p w x = swapWorkers p w y) : x = y := by
  unfold swapWorkers at h
  split at h <;> split at h <;> (try split at h) <;> (try split at h) <;> omega

/-- First-fit that succeeds yields a valid assignment respecting the busy values. -/
theorem first_fit_sound (P : Nat) (ts : List Task) :
    ∀ (m : List Bool) (busy : List Int), P ≤ busy.length →
      (∀ tk ∈ ts, tk.starting_date ≤ tk.ending_date) →
      first_fit_ok P ts m busy = true → ∃ a, Fits P ts m busy a := by
  induction ts with
  | nil =>
    intro m busy _ _ _
    exact ⟨fun _ => 0, ⟨by simp, by simp⟩, by simp⟩
  | cons tk ts ih =>
    intro m busy hlen hd hok
    have hd' : ∀ x ∈ ts, x.starting_date ≤ x.ending_date :=
      fun x hx => hd x (List.mem_cons_of_mem _ hx)
    match m, hok with
    | [], _ => exact ⟨fun _ => 0, ⟨by simp, by simp⟩, by simp⟩
    | false :: m, hok =>
      simp only [first_fit_ok] at hok
      obtain ⟨a, ⟨ha1, ha2⟩, ha3⟩ := ih m busy hlen hd' hok
      refine ⟨consAssign 0 a, ⟨?_, ?_⟩, ?_⟩
      · intro i hi hmi
        cases i with
        | zero => simp at hmi
        | succ i =>
          simp at hmi hi
          exact ha1 i hi hmi
      · intro i j ti tj hij hti htj hmi hmj haij
        cases i with
        | zero => simp at hmi
        | succ i =>
          cases j with
          | zero => omega
          | succ j =>
            simp at hti htj hmi hmj
            exact ha2 i j ti tj (by omega) hti htj hmi hmj haij
      · intro i ti hti hmi
        cases i with
        | zero => simp at hmi
        | succ i =>
          simp at hti hmi
          exact ha3 i ti hti hmi
    | true :: m, hok =>
      simp only [first_fit_ok] at hok
      split at hok
      · rename_i hp
        have hfree := first_free_free busy tk.starting_date P hp
        have hpl : first_free busy tk.starting_date P < busy.length := by omega
        obtain ⟨a, ⟨ha1, ha2⟩, ha3⟩ := ih m _ (by simpa using hlen) hd' hok
        refine ⟨consAssign (first_free busy tk.starting_date P) a, ⟨?_, ?_⟩, ?_⟩
        · intro i hi hmi
          cases i with
          | zero => exact hp
          | succ i =>
            simp at hmi hi
            exact ha1 i hi hmi
        · intro i j ti tj hij hti htj hmi hmj haij
          cases j with
          | zero => omega
          | succ j =>
            simp at htj hmj
            cases i with
            | zero =>
              simp at hti
              subst hti
              have h3 := ha3 j tj htj hmj
              simp only [consAssign] at haij
              rw [← haij, getD_set_eq _ _ _ hpl] at h3
              intro hov
              have := hov.2
              omega
            | succ i =>
              simp at hti hmi
              exact ha2 i j ti tj (by omega) hti htj hmi hmj haij
        · intro i ti hti hmi
          cases i with
          | zero =>
            simp at hti
            subst hti
            exact hfree
          | succ i =>
            simp at hti hmi
            have h3 := ha3 i ti hti hmi
            show busy.getD (a i) 0 < ti.starting_date
            by_cases hq : first_free busy tk.starting_date P = a i
            · rw [← hq, getD_set_eq _ _ _ hpl] at h3
              rw [← hq]
              have := hd tk (List.mem_cons_self _ _)
              omega
            · rwa [getD_set_ne _ _ _ _ hq] at h3
      · exact absurd hok (by simp)

/-- First-fit succeeds whenever some valid assignment respects the busy values:
the worker that first-fit picks is exchanged with the worker of the assignment. -/
theorem first_fit_complete (P : Nat) (ts : List Task) :
    ∀ (m : List Bool) (busy : List Int) (a : Nat → Nat), P ≤ busy.length →
      SortedTasks ts → (∀ tk ∈ ts, tk.starting_date ≤ tk.ending_date) →
      Fits P ts m busy a → first_fit_ok P ts m busy = true := by
  induction ts with
  | nil =>
    intro m busy a _ _ _ _
    cases m with
    | nil => rfl
    | cons b m => cases b <;> rfl
  | cons tk ts ih =>
    intro m busy a hlen hs hd hfit
    have hd' : ∀ x ∈ ts, x.starting_date ≤ x.ending_date :=
      fun x hx => hd x (List.mem_cons_of_mem _ hx)
    have hs' : SortedTasks ts := (List.pairwise_cons.1 hs).2
    have hle : ∀ x ∈ ts, tk.starting_date ≤ x.starting_date :=
      fun x hx => compare_tasks_le _ _ ((List.pairwise_cons.1 hs).1 x hx)
    obtain ⟨⟨ha1, ha2⟩, ha3⟩ := hfit
    match m with
    | [] => rfl
    | false :: m =>
      simp only [first_fit_ok]
      apply ih m busy (shift a) hlen hs' hd'
      refine ⟨⟨?_, ?_⟩, ?_⟩
      · intro i hi hmi
        exact ha1 (i + 1) (by simpa using hi) (by simpa using hmi)
      · intro i j ti tj hij hti htj hmi hmj haij
        exact ha2 (i + 1) (j + 1) ti tj (by omega) (by simpa using hti) (by simpa using htj)
          (by simpa using hmi) (by simpa using hmj) haij
      · intro i ti hti hmi
        exact ha3 (i + 1) ti (by simpa using hti) (by simpa using hmi)
    | true :: m =>
      have hw : a 0 < P := ha1 0 (by simp) (by simp)
      have hwfree : busy.getD (a 0) 0 < tk.starting_date := ha3 0 tk (by simp) (by simp)
      have hpw := first_free_le_of_free busy tk.starting_date P (a 0) hwfree
      have hp : first_free busy tk.starting_date P < P := by omega
      have hpl : first_free busy tk.starting_date P < busy.length := by omega
      simp only [first_fit_ok, if_pos hp]
      apply ih m _ (fun i => swapWorkers (first_free busy tk.starting_date P) (a 0) (a (i + 1)))
        (by simpa using hlen) hs' hd'
      refine ⟨⟨?_, ?_⟩, ?_⟩
      · intro i hi hmi
        have := ha1 (i + 1) (by simpa using hi) (by simpa using hmi)
        show swapWorkers _ _ _ < P
        unfold swapWorkers
        split
        · exact hw
        · split
          · exact hp
          · exact this
      · intro i j ti tj hij hti htj hmi hmj haij
        exact ha2 (i + 1) (j + 1) ti tj (by omega) (by simpa using hti) (by simpa using htj)
          (by simpa using hmi) (by simpa using hmj) (swapWorkers_inj _ _ _ _ haij)
      · intro i ti hti hmi
        have hti_mem : ti ∈ ts := List.getElem?_mem hti
        have h3 := ha3 (i + 1) ti (by simpa using hti) (by simpa using hmi)
        have hsi := hle ti hti_mem
        have hdi := hd' ti hti_mem
        show (busy.set _ _).getD (swapWorkers _ _ _) 0 < _
        unfold swapWorkers
        split
        · -- the task sat on the worker that first-fit picked: it moves to the worker of `a`
          rename_i hx
          by_cases hq : first_free busy tk.starting_date P = a 0
          · rw [← hq, getD_set_eq _ _ _ hpl]
            have hno := ha2 0 (i + 1) tk ti (by omega) (by simp) (by simpa using hti)
              (by simp) (by simpa using hmi) (by rw [hx, hq])
            unfold overlap at hno
            omega
          · rw [getD_set_ne _ _ _ _ hq]
            omega
        · split
          · -- the task sat on the worker of `a`: it moves to the worker first-fit picked
            rename_i hx
            rw [getD_set_eq _ _ _ hpl]
            have hno := ha2 0 (i + 1) tk ti (by omega) (by simp) (by simpa using hti)
              (by simp) (by simpa using hmi) hx.symm
            unfold overlap at hno
            omega
          · rename_i hx _
            rw [getD_set_ne _ _ _ _ (Ne.symm hx)]
            exact h3

/-! ## Idle workers -/

theorem reset_busy_succ (busy : List Int) (P : Nat) :
    reset_busy busy (P + 1) = (reset_busy busy P).set P (-1) := by
  simp [reset_busy, List.range_succ, List.foldl_append]

theorem reset_busy_length (busy : List Int) (P : Nat) :
    (reset_busy busy P).length = busy.length := by
  induction P with
  | zero => simp [reset_busy]
  | succ P ih => rw [reset_busy_succ, List.length_set, ih]

theorem reset_busy_idle (busy : List Int) (P : Nat) (hP : P ≤ busy.length) :
    ∀ w, w < P → (reset_busy busy P).getD w 0 = -1 := by
  induction P with
  | zero => intro w hw; omega
  | succ P ih =>
    intro w hw
    rw [reset_busy_succ]
    by_cases h : P = w
    · subst h
      exact getD_set_eq _ _ _ (by rw [reset_busy_length]; omega)
    · rw [getD_set_ne _ _ _ _ h]
      exact ih (by omega) w (by omega)

/-! ## The trace is the list of first-fit feasible selections -/

theorem masks_length (n : Nat) : (masks n).length = 2 ^ n := by
  induction n with
  | zero => simp [masks]
  | succ n ih => simp [masks, ih, pow_succ]; omega

theorem mem_masks (n : Nat) (m : List Bool) : m ∈ masks n ↔ m.length = n := by
  induction n generalizing m with
  | zero => simp [masks]
  | succ n ih =>
    cases m with
    | nil => simp [masks]
    | cons b m => cases b <;> simp [masks, ih]

theorem masks_nodup (n : Nat) : (masks n).Nodup := by
  induction n with
  | zero => simp [masks]
  | succ n ih =>
    simp only [masks]
    refine List.Nodup.append ?_ ?_ ?_
    · exact ih.map (fun a b h => by simpa using h)
    · exact ih.map (fun a b h => by simpa using h)
    · intro x hx hy
      simp only [List.mem_map] at hx hy
      obtain ⟨a, _, rfl⟩ := hx
      obtain ⟨b, _, hb⟩ := hy
      simp at hb

theorem search_eq_filter (P : Nat) (ts : List Task) :
    ∀ busy : List Int,
      search P ts busy = (masks ts.length).filter (fun m => first_fit_ok P ts m busy) := by
  induction ts with
  | nil => intro busy; simp [search, masks, first_fit_ok]
  | cons tk ts ih =>
    intro busy
    simp only [search, List.length_cons, masks, List.filter_append, List.filter_map]
    congr 1
    · rw [ih busy]
      congr 1
    · by_cases hp : first_free busy tk.starting_date P < P
      · rw [if_pos hp, ih]
        congr 2
        funext m
        simp [first_fit_ok, hp]
      · rw [if_neg hp]
        have : ((fun m => first_fit_ok P (tk :: ts) m busy) ∘ List.cons true)
            = fun _ => false := by
          funext m
          simp [first_fit_ok, hp]
        rw [this]
        simp

theorem mem_search (P : Nat) (ts : List Task) (busy : List Int) (m : List Bool) :
    m ∈ search P ts busy ↔ m.length = ts.length ∧ first_fit_ok P ts m busy = true := by
  rw [search_eq_filter, List.mem_filter, mem_masks]

/-! ## Folding the leaves into the result -/

theorem fold_leaves_cons {α : Type} (T : Nat) (f : α → Int) (g : α → List Int) (r : Result)
    (x : α) (L : List α) :
    fold_leaves T f g r (x :: L) = fold_leaves T f g (leaf_result T r (f x) (g x)) L := rfl

theorem fold_leaves_count {α : Type} (T : Nat) (f : α → Int) (g : α → List Int) (L : List α) :
    ∀ r : Result, r.n_viable_sol < ULONG_MOD →
      (fold_leaves T f g r L).n_viable_sol = (r.n_viable_sol + L.length) % ULONG_MOD := by
  induction L with
  | nil => intro r hr; simp [fold_leaves, Nat.mod_eq_of_lt hr]
  | cons x L ih =>
    intro r _
    rw [fold_leaves_cons, ih _ (by simp [leaf_result, ULONG_MOD]; omega)]
    simp only [leaf_result, List.length_cons, ULONG_MOD]
    omega

theorem fold_leaves_total_mono {α : Type} (T : Nat) (f : α → Int) (g : α → List Int)
    (L : List α) : ∀ r : Result, r.total_profit ≤ (fold_leaves T f g r L).total_profit := by
  induction L with
  | nil => intro r; simp [fold_leaves]
  | cons x L ih =>
    intro r
    rw [fold_leaves_cons]
    refine le_trans ?_ (ih _)
    simp only [leaf_result]
    split <;> omega

theorem fold_leaves_total_ge {α : Type} (T : Nat) (f : α → Int) (g : α → List Int)
    (L : List α) : ∀ r : Result, ∀ x ∈ L, f x ≤ (fold_leaves T f g r L).total_profit := by
  induction L with
  | nil => intro r x hx; simp at hx
  | cons y L ih =>
    intro r x hx
    rw [fold_leaves_cons]
    rcases List.mem_cons.1 hx with rfl | hx
    · refine le_trans ?_ (fold_leaves_total_mono T f g L _)
      simp only [leaf_result]
      split <;> omega
    · exact ih _ x hx

theorem fold_leaves_total_eq {α : Type} (T : Nat) (f : α → Int) (g : α → List Int)
    (L : List α) : ∀ r : Result, (fold_leaves T f g r L).total_profit =
      L.foldl (fun t x => if f x > t then f x else t) r.total_profit := by
  induction L with
  | nil => intro r; rfl
  | cons x L ih =>
    intro r
    rw [fold_leaves_cons, ih]
    rfl

/-- Either no leaf improved on the initial best profit, and `opt_sol` is the initial
block; or the final best profit is the profit of a leaf, above the initial one, and
`opt_sol` holds the flags of that leaf. -/
theorem fold_leaves_attained {α : Type} (T : Nat) (f : α → Int) (g : α → List Int)
    (L : List α) (hg : ∀ x ∈ L, (g x).length = T) :
    ∀ r : Result, r.opt_sol.length = T →
      ((fold_leaves T f g r L).total_profit = r.total_profit ∧
        (fold_leaves T f g r L).opt_sol = r.opt_sol) ∨
      ∃ x ∈ L, f x = (fold_leaves T f g r L).total_profit ∧ r.total_profit < f x ∧
        (fold_leaves T f g r L).opt_sol = g x := by
  induction L with
  | nil => intro r _; left; simp [fold_leaves]
  | cons y L ih =>
    intro r hr
    have hgy : (g y).length = T := hg y (List.mem_cons_self _ _)
    have hg' : ∀ x ∈ L, (g x).length = T := fun x hx => hg x (List.mem_cons_of_mem _ hx)
    rw [fold_leaves_cons]
    by_cases hy : f y > r.total_profit
    · have h1 : (leaf_result T r (f y) (g y)).total_profit = f y := by simp [leaf_result, hy]
      have h2 : (leaf_result T r (f y) (g y)).opt_sol = g y := by
        simp [leaf_result, hy, ← hgy, ← hr.trans hgy.symm]
      rcases ih hg' (leaf_result T r (f y) (g y)) (by rw [h2, hgy]) with ⟨e1, e2⟩ | ⟨x, hx, e1, e2, e3⟩
      · right
        exact ⟨y, List.mem_cons_self _ _, by rw [e1, h1], hy, by rw [e2, h2]⟩
      · right
        exact ⟨x, List.mem_cons_of_mem _ hx, e1, by rw [h1] at e2; omega, e3⟩
    · have h1 : (leaf_result T r (f y) (g y)).total_profit = r.total_profit := by
        simp [leaf_result, hy]
      have h2 : (leaf_result T r (f y) (g y)).opt_sol = r.opt_sol := by
        simp [leaf_result, hy]
      rcases ih hg' (leaf_result T r (f y) (g y)) (by rw [h2, hr]) with ⟨e1, e2⟩ | ⟨x, hx, e1, e2, e3⟩
      · left
        exact ⟨by rw [e1, h1], by rw [e2, h2]⟩
      · right
        exact ⟨x, List.mem_cons_of_mem _ hx, e1, by rw [h1] at e2; exact e2, e3⟩

/-! ## The driver -/

/-- The result of `solution` is the fold of the leaf update over the first-fit
feasible selections, in enumeration order. -/
theorem solution_result (heap : Heap) (pr : Problem) :
    (solution heap pr).result =
      fold_leaves pr.T (profit_of pr.task) flags (initial_result heap pr)
        (search pr.P pr.task (reset_busy pr.busy pr.P)) := by
  unfold solution
  dsimp only
  have h := recursive_sol_trace pr.task (pr.T + 1)
    { pr with
      n_viable_sol := 0
      current_sol_profit := 0
      total_profit := 0
      profit_limit := profit_sum pr.task
      current_sol := List.replicate pr.T 0
      opt_sol := malloc_ints heap.opt_sol pr.T
      busy := reset_busy pr.busy pr.P
      profit_occurrence_arr := malloc_ints heap.profit_occurrence_arr
        (profit_sum pr.task).toNat
      hist_oob := [] } 0 [] (by simp) (by simp) (by simp [Problem.T])
    (by simp [Problem.T]) rfl
  rw [h.2]
  simp [fold_leaves, initial_result, Problem.result, profit_sum, Problem.T]

theorem solution_frame (heap : Heap) (pr : Problem) :
    (solution heap pr).P = pr.P ∧ (solution heap pr).task.map Task.key = pr.task.map Task.key ∧
    (solution heap pr).profit_limit = profit_sum pr.task ∧
    (solution heap pr).busy = reset_busy pr.busy pr.P ∧
    (solution heap pr).current_sol = List.replicate pr.T 0 ∧
    (solution heap pr).current_sol_profit = 0 := by
  unfold solution
  dsimp only
  have h := (recursive_sol_trace pr.task (pr.T + 1)
    { pr with
      n_viable_sol := 0
      current_sol_profit := 0
      total_profit := 0
      profit_limit := profit_sum pr.task
      current_sol := List.replicate pr.T 0
      opt_sol := malloc_ints heap.opt_sol pr.T
      busy := reset_busy pr.busy pr.P
      profit_occurrence_arr := malloc_ints heap.profit_occurrence_arr
        (profit_sum pr.task).toNat
      hist_oob := [] } 0 [] (by simp) (by simp) (by simp [Problem.T])
    (by simp [Problem.T]) rfl).1
  obtain ⟨h1, h2, h3, h4, h5, h6⟩ := h
  exact ⟨h4, h5, h6, h1, h2, h3⟩

/-! ## Feasible selections -/

theorem fits_of_valid (P : Nat) (ts : List Task) (m : List Bool) (busy : List Int)
    (a : Nat → Nat) (hdates : DatesOk ts) (hidle : ∀ w, w < P → busy.getD w 0 = -1)
    (ha : ValidAssignment P ts m a) : Fits P ts m busy a := by
  refine ⟨ha, ?_⟩
  intro i ti hti hmi
  have hi : i < ts.length := (List.getElem?_eq_some.1 hti).1
  rw [hidle _ (ha.1 i hi hmi)]
  have := (hdates ti (List.getElem?_mem hti)).1
  omega

theorem dates_le (ts : List Task) (hdates : DatesOk ts) :
    ∀ tk ∈ ts, tk.starting_date ≤ tk.ending_date :=
  fun tk h => (hdates tk h).2

theorem first_fit_ok_iff (P : Nat) (ts : List Task) (m : List Bool) (busy : List Int)
    (hsorted : SortedTasks ts) (hdates : DatesOk ts)
    (hlen : P ≤ busy.length) (hidle : ∀ w, w < P → busy.getD w 0 = -1) :
    first_fit_ok P ts m busy = true ↔ ∃ a, ValidAssignment P ts m a := by
  constructor
  · intro h
    obtain ⟨a, ha, _⟩ := first_fit_sound P ts m busy hlen (dates_le ts hdates) h
    exact ⟨a, ha⟩
  · rintro ⟨a, ha⟩
    exact first_fit_complete P ts m busy a hlen hsorted (dates_le ts hdates)
      (fits_of_valid P ts m busy a hdates hidle ha)

theorem feasible_none (P : Nat) (ts : List Task) :
    Feasible P ts (List.replicate ts.length false) := by
  refine ⟨by simp, fun _ => 0, ?_, ?_⟩
  · intro i _ hmi
    rw [List.getElem?_replicate] at hmi
    split at hmi <;> simp at hmi
  · intro i j ti tj _ _ _ hmi
    rw [List.getElem?_replicate] at hmi
    split at hmi <;> simp at hmi

theorem profit_of_none (ts : List Task) :
    profit_of ts (List.replicate ts.length false) = 0 := by
  induction ts with
  | nil => rfl
  | cons tk ts ih => simp [List.replicate_succ, profit_of, ih]

theorem first_fit_ok_none (P : Nat) (ts : List Task) :
    ∀ busy : List Int, first_fit_ok P ts (List.replicate ts.length false) busy = true := by
  induction ts with
  | nil => intro busy; rfl
  | cons tk ts ih => intro busy; simp [List.replicate_succ, first_fit_ok, ih]

theorem mem_search_length (P : Nat) (ts : List Task) (busy : List Int) (m : List Bool)
    (h : m ∈ search P ts busy) : (flags m).length = ts.length := by
  simp [flags, ((mem_search P ts busy m).1 h).1]

theorem malloc_ints_length (mem : Nat → Int) (n : Nat) : (malloc_ints mem n).length = n := by
  simp [malloc_ints]

theorem solution_total_profit (heap : Heap) (pr : Problem) :
    (solution heap pr).total_profit =
      (fold_leaves pr.T (profit_of pr.task) flags (initial_result heap pr)
        (search pr.P pr.task (reset_busy pr.busy pr.P))).total_profit := by
  rw [← solution_result]; rfl

theorem solution_opt_sol (heap : Heap) (pr : Problem) :
    (solution heap pr).opt_sol =
      (fold_leaves pr.T (profit_of pr.task) flags (initial_result heap pr)
        (search pr.P pr.task (reset_busy pr.busy pr.P))).opt_sol := by
  rw [← solution_result]; rfl

theorem solution_n_viable_sol (heap : Heap) (pr : Problem) :
    (solution heap pr).n_viable_sol =
      (fold_leaves pr.T (profit_of pr.task) flags (initial_result heap pr)
        (search pr.P pr.task (reset_busy pr.busy pr.P))).n_viable_sol := by
  rw [← solution_result]; rfl

/-- Outcome of `solution` on the best profit and the best assignment: either no
leaf has a positive profit, the best profit is `0` and `opt_sol` is still the block
as `malloc` returned it; or the best profit is positive, it is the profit of a
first-fit feasible selection, and `opt_sol` holds the flags of that selection. -/
theorem solution_attained (heap : Heap) (pr : Problem) :
    ((solution heap pr).total_profit = 0 ∧
      (solution heap pr).opt_sol = malloc_ints heap.opt_sol pr.T) ∨
    ∃ m, m.length = pr.T ∧ first_fit_ok pr.P pr.task m (reset_busy pr.busy pr.P) = true ∧
      profit_of pr.task m = (solution heap pr).total_profit ∧
      0 < (solution heap pr).total_profit ∧ (solution heap pr).opt_sol = flags m := by
  rw [solution_total_profit, solution_opt_sol]
  rcases fold_leaves_attained pr.T (profit_of pr.task) flags
      (search pr.P pr.task (reset_busy pr.busy pr.P))
      (fun m hm => mem_search_length _ _ _ m hm) (initial_result heap pr)
      (malloc_ints_length _ _) with h | ⟨m, hm, h1, h2, h3⟩
  · left; exact h
  · right
    obtain ⟨hl, hok⟩ := (mem_search _ _ _ m).1 hm
    refine ⟨m, hl, hok, h1, ?_, h3⟩
    rw [← h1]; exact h2

theorem solution_total_ge (heap : Heap) (pr : Problem) (m : List Bool)
    (hl : m.length = pr.T)
    (hok : first_fit_ok pr.P pr.task m (reset_busy pr.busy pr.P) = true) :
    profit_of pr.task m ≤ (solution heap pr).total_profit := by
  rw [solution_total_profit]
  exact fold_leaves_total_ge _ _ _ _ _ m ((mem_search _ _ _ m).2 ⟨hl, hok⟩)

theorem solution_total_nonneg (heap : Heap) (pr : Problem) :
    0 ≤ (solution heap pr).total_profit := by
  rw [solution_total_profit]
  exact fold_leaves_total_mono _ _ _ _ (initial_result heap pr)

/-! ## Statements of the specification -/

/-- C1. Optimality: on sorted tasks with `0 <= starting_date <= ending_date` and at
most `MAX_P` programmers, the `total_profit` left by `solution` is the maximum of the
profit over the selections of tasks that admit some valid assignment to the `P`
programmers: it is the profit of such a selection, and no such selection has a
larger profit.  (The bounds `1 <= P` and `profit >= 0` of the specification are not
needed.) -/
theorem solution_optimal (heap : Heap) (pr : Problem)
    (hsorted : SortedTasks pr.task) (hdates : DatesOk pr.task)
    (hP : pr.P ≤ MAX_P) (hbusy : pr.busy.length = MAX_P) :
    (∃ m, Feasible pr.P pr.task m ∧ profit_of pr.task m = (solution heap pr).total_profit) ∧
    ∀ m, Feasible pr.P pr.task m → profit_of pr.task m ≤ (solution heap pr).total_profit := by
  have hlen : pr.P ≤ (reset_busy pr.busy pr.P).length := by
    rw [reset_busy_length, hbusy]; exact hP
  have hidle := reset_busy_idle pr.busy pr.P (by rw [hbusy]; exact hP)
  constructor
  · rcases solution_attained heap pr with ⟨h0, _⟩ | ⟨m, hl, hok, hprofit, _, _⟩
    · exact ⟨List.replicate pr.task.length false, feasible_none _ _, by rw [profit_of_none, h0]⟩
    · exact ⟨m, ⟨hl, (first_fit_ok_iff _ _ _ _ hsorted hdates hlen hidle).1 hok⟩, hprofit⟩
  · rintro m ⟨hl, ha⟩
    exact solution_total_ge heap pr m hl
      ((first_fit_ok_iff _ _ _ _ hsorted hdates hlen hidle).2 ha)

/-- C3. First-fit loses no feasible subset: on tasks sorted by
`(starting_date, ending_date)` with `0 <= starting_date <= ending_date`, started
from a busy array whose first `P` cells are idle (`-1`), the first-fit rule of
`recursive_sol` finds a worker for every selected task if and only if some
assignment of the selected tasks to the `P` workers puts no two overlapping tasks
on the same worker. -/
theorem first_fit_iff_some_assignment (P : Nat) (ts : List Task) (m : List Bool)
    (busy : List Int) (hsorted : SortedTasks ts) (hdates : DatesOk ts)
    (hlen : P ≤ busy.length) (hidle : ∀ w, w < P → busy.getD w 0 = -1) :
    first_fit_ok P ts m busy = true ↔ ∃ a, ValidAssignment P ts m a := by
  constructor
  · -- the assignment that first-fit builds is valid
    intro hok
    obtain ⟨a, ha, _⟩ := first_fit_sound P ts m busy hlen (dates_le ts hdates) hok
    exact ⟨a, ha⟩
  · -- a valid assignment is turned into the first-fit one, one exchange per task
    rintro ⟨a, ha⟩
    have hfits : Fits P ts m busy a := fits_of_valid P ts m busy a hdates hidle ha
    exact first_fit_complete P ts m busy a hlen hsorted (dates_le ts hdates) hfits

/-! ## Counting the leaves -/

theorem scan_workers_congr (b1 b2 : List Int) (s : Int) (P : Nat)
    (h : ∀ w, w < P → b1.getD w 0 = b2.getD w 0) (n p : Nat) :
    scan_workers b1 s P n p = scan_workers b2 s P n p := by
  induction n generalizing p with
  | zero => rfl
  | succ n ih =>
    unfold scan_workers
    by_cases hp : p < P
    · rw [h p hp, ih]
    · simp [hp]

theorem first_fit_ok_congr (P : Nat) (ts : List Task) :
    ∀ (m : List Bool) (b1 b2 : List Int), P ≤ b1.length → P ≤ b2.length →
      (∀ w, w < P → b1.getD w 0 = b2.getD w 0) →
      first_fit_ok P ts m b1 = first_fit_ok P ts m b2 := by
  induction ts with
  | nil => intro m b1 b2 _ _ _; cases m with
    | nil => rfl
    | cons b m => cases b <;> rfl
  | cons tk ts ih =>
    intro m b1 b2 h1 h2 h
    match m with
    | [] => rfl
    | false :: m => simp only [first_fit_ok]; exact ih m b1 b2 h1 h2 h
    | true :: m =>
      have hff : first_free b1 tk.starting_date P = first_free b2 tk.starting_date P :=
        scan_workers_congr b1 b2 _ P h _ _
      simp only [first_fit_ok, ← hff]
      split
      · rename_i hp
        apply ih m _ _ (by simpa using h1) (by simpa using h2)
        intro w hw
        by_cases hq : first_free b1 tk.starting_date P = w
        · rw [← hq, getD_set_eq _ _ _ (by omega), getD_set_eq _ _ _ (by omega)]
        · rw [getD_set_ne _ _ _ _ hq, getD_set_ne _ _ _ _ hq]
          exact h w hw
      · rfl

theorem replicate_idle (P : Nat) : ∀ w, w < P → (List.replicate P (-1 : Int)).getD w 0 = -1 := by
  intro w hw
  simp [List.getD_eq_getElem?_getD, List.getElem?_replicate, hw]

theorem search_length_eq_reference (pr : Problem) (hP : pr.P ≤ pr.busy.length) :
    (search pr.P pr.task (reset_busy pr.busy pr.P)).length = reference_count pr.P pr.task := by
  rw [search_eq_filter, reference_count]
  congr 2
  funext m
  apply first_fit_ok_congr
  · rw [reset_busy_length]; exact hP
  · simp
  · intro w hw
    rw [reset_busy_idle _ _ hP w hw, replicate_idle _ w hw]

theorem solution_count (heap : Heap) (pr : Problem) (hP : pr.P ≤ pr.busy.length) :
    (solution heap pr).n_viable_sol = reference_count pr.P pr.task % ULONG_MOD := by
  rw [solution_n_viable_sol, fold_leaves_count _ _ _ _ _ (by simp [initial_result, ULONG_MOD]),
    search_length_eq_reference pr hP]
  simp [initial_result]

theorem reference_count_le (P : Nat) (ts : List Task) : reference_count P ts ≤ 2 ^ ts.length := by
  unfold reference_count
  exact le_trans (List.length_filter_le _ _) (le_of_eq (masks_length _))

/-- C2 (amended). The leaf counter equals the reference count modulo `2^64`: after
`solution`, `n_viable_sol` is the number of selections accepted by first-fit from
idle workers, reduced modulo `ULONG_MOD`; it is that number itself whenever there
are fewer than `64` tasks.  With 1 worker and the tasks `[0,2]` (profit 5) and
`[1,3]` (profit 7), `n_viable_sol = 3` and `total_profit = 7`. -/
theorem leaf_count_eq_reference_mod (heap : Heap) (pr : Problem)
    (hP : pr.P ≤ MAX_P) (hbusy : pr.busy.length = MAX_P) :
    (solution heap pr).n_viable_sol = reference_count pr.P pr.task % ULONG_MOD ∧
    (pr.T < 64 → (solution heap pr).n_viable_sol = reference_count pr.P pr.task) ∧
    (solution heap (mk_problem 1 [mk_task 0 2 5, mk_task 1 3 7])).n_viable_sol = 3 ∧
    (solution heap (mk_problem 1 [mk_task 0 2 5, mk_task 1 3 7])).total_profit = 7 := by
  have h := solution_count heap pr (by rw [hbusy]; exact hP)
  refine ⟨h, ?_, ?_, ?_⟩
  · intro hT
    rw [h]
    apply Nat.mod_eq_of_lt
    have h1 := reference_count_le pr.P pr.task
    have h2 : 2 ^ pr.task.length < 2 ^ 64 := Nat.pow_lt_pow_right (by norm_num) hT
    simp only [ULONG_MOD]
    omega
  · rw [solution_count heap _ (show 1 ≤ (List.replicate MAX_P (0 : Int)).length by simp [MAX_P])]
    rfl
  · rw [solution_total_profit, fold_leaves_total_eq]
    rfl

/-! ## Tasks that never overlap -/

theorem disjoint_of_chain (ts : List Task) (hsorted : SortedTasks ts)
    (hchain : ts.Chain' (fun a b => a.ending_date < b.starting_date)) : NeverOverlap ts := by
  induction ts with
  | nil => exact List.Pairwise.nil
  | cons tk ts ih =>
    have hs := List.pairwise_cons.1 hsorted
    refine List.pairwise_cons.2 ⟨?_, ih hs.2 hchain.tail⟩
    intro x hx
    cases ts with
    | nil => simp at hx
    | cons y ts =>
      have h1 : tk.ending_date < y.starting_date := (List.chain'_cons.1 hchain).1
      rcases List.mem_cons.1 hx with rfl | hx
      · exact h1
      · have := compare_tasks_le _ _ ((List.pairwise_cons.1 hs.2).1 x hx)
        omega

/-- On tasks that never overlap, first-fit gives every selected task to worker `0`. -/
theorem first_fit_ok_of_disjoint (P : Nat) (hP : 1 ≤ P) (ts : List Task) :
    ∀ (m : List Bool) (busy : List Int), 0 < busy.length → NeverOverlap ts →
      (∀ tk ∈ ts, busy.getD 0 0 < tk.starting_date) → first_fit_ok P ts m busy = true := by
  induction ts with
  | nil => intro m busy _ _ _; cases m with
    | nil => rfl
    | cons b m => cases b <;> rfl
  | cons tk ts ih =>
    intro m busy hlen hdis hfree
    have hd := List.pairwise_cons.1 hdis
    have hfree' : ∀ x ∈ ts, busy.getD 0 0 < x.starting_date :=
      fun x hx => hfree x (List.mem_cons_of_mem _ hx)
    match m with
    | [] => rfl
    | false :: m => simp only [first_fit_ok]; exact ih m busy hlen hd.2 hfree'
    | true :: m =>
      have h0 : first_free busy tk.starting_date P = 0 := by
        have := first_free_le_of_free busy tk.starting_date P 0
          (hfree tk (List.mem_cons_self _ _))
        omega
      simp only [first_fit_ok, h0]
      rw [if_pos (by omega)]
      apply ih m _ (by simpa using hlen) hd.2
      intro x hx
      rw [getD_set_eq _ _ _ hlen]
      exact hd.1 x hx

theorem reference_count_of_disjoint (P : Nat) (hP : 1 ≤ P) (ts : List Task)
    (hdis : NeverOverlap ts) (hstart : ∀ tk ∈ ts, 0 ≤ tk.starting_date) :
    reference_count P ts = 2 ^ ts.length := by
  unfold reference_count
  rw [List.filter_eq_self.2, masks_length]
  intro m _
  apply first_fit_ok_of_disjoint P hP ts m _ (by simp; omega) hdis
  intro tk htk
  rw [replicate_idle P 0 (by omega)]
  have := hstart tk htk
  omega

theorem chain_length (n : Nat) : (chain n).length = n := by simp [chain]

theorem chain_disjoint (n : Nat) : NeverOverlap (chain n) := by
  unfold NeverOverlap chain
  rw [List.pairwise_map]
  refine (List.pairwise_lt_range n).imp ?_
  intro a b hab
  simp only [mk_task, Int.ofNat_eq_coe]
  omega

theorem chain_sorted (n : Nat) : SortedTasks (chain n) := by
  unfold SortedTasks chain
  rw [List.pairwise_map]
  refine (List.pairwise_lt_range n).imp ?_
  intro a b hab
  simp only [mk_task, compare_tasks, Int.ofNat_eq_coe]
  rw [if_pos (by omega), if_pos (by omega)]
  omega

theorem chain_dates (n : Nat) : DatesOk (chain n) := by
  intro tk htk
  simp only [chain, List.mem_map, List.mem_range] at htk
  obtain ⟨i, _, rfl⟩ := htk
  simp only [mk_task, Int.ofNat_eq_coe]
  omega

/-- C2, as stated, fails: on the 64 sorted, pairwise disjoint tasks `chain 64` with
one worker all `2^64` selections are accepted by first-fit, and the `unsigned long`
counter has wrapped to `0`. -/
theorem leaf_count_wraps_at_64 :
    SortedTasks (chain 64) ∧ DatesOk (chain 64) ∧ 1 ≤ (mk_problem 1 (chain 64)).P ∧
    reference_count 1 (chain 64) = 2 ^ 64 ∧
    (solution Heap.zero (mk_problem 1 (chain 64))).n_viable_sol = 0 ∧
    (solution Heap.zero (mk_problem 1 (chain 64))).n_viable_sol ≠
      reference_count 1 (chain 64) := by
  have hc : reference_count 1 (chain 64) = 2 ^ 64 := by
    have := reference_count_of_disjoint 1 (le_refl 1) (chain 64) (chain_disjoint 64)
      (fun tk h => (chain_dates 64 tk h).1)
    rwa [chain_length] at this
  have hn : (solution Heap.zero (mk_problem 1 (chain 64))).n_viable_sol = 0 := by
    have hgen : ∀ ts : List Task, (solution Heap.zero (mk_problem 1 ts)).n_viable_sol =
        reference_count 1 ts % ULONG_MOD := fun ts =>
      solution_count Heap.zero (mk_problem 1 ts)
        (show 1 ≤ (List.replicate MAX_P (0 : Int)).length by simp [MAX_P])
    rw [hgen, hc]
    simp [ULONG_MOD]
  refine ⟨chain_sorted 64, chain_dates 64, le_refl 1, hc, hn, ?_⟩
  rw [hn, hc]
  norm_num

/-! ## The best assignment -/

theorem flagged_flags (m : List Bool) : flagged (flags m) = m := by
  induction m with
  | nil => rfl
  | cons b m ih =>
    have ih' : List.map (fun x => decide (x = 1)) (flags m) = m := ih
    cases b <;> simp [flagged, flags] at ih' ⊢ <;> exact ih'

theorem profit_of_single (ts : List Task) :
    ∀ (i : Nat) (ti : Task), ts[i]? = some ti → profit_of ts (single ts.length i) = ti.profit := by
  induction ts with
  | nil => intro i ti h; simp at h
  | cons tk ts ih =>
    intro i ti h
    cases i with
    | zero =>
      simp at h
      subst h
      have := profit_of_none ts
      simp [single, List.replicate_succ, profit_of, this]
    | succ i =>
      simp at h
      have := ih i ti h
      simp only [single] at this
      simp [single, List.replicate_succ, profit_of, this]

theorem feasible_single (P : Nat) (hP : 1 ≤ P) (ts : List Task) (i : Nat) :
    Feasible P ts (single ts.length i) := by
  have hget : ∀ k, (single ts.length i)[k]? = some true → k = i := by
    intro k hk
    simp only [single, List.getElem?_set, List.getElem?_replicate] at hk
    by_contra hne
    rw [if_neg (Ne.symm hne)] at hk
    split at hk <;> simp at hk
  refine ⟨by simp [single], fun _ => 0, ?_, ?_⟩
  · intro _ _ _; show 0 < P; omega
  · intro k j _ _ hkj _ _ hk hj
    have := hget k hk
    have := hget j hj
    omega

theorem profit_of_eq_zero (ts : List Task) (h : ∀ tk ∈ ts, tk.profit = 0) :
    ∀ m : List Bool, profit_of ts m = 0 := by
  induction ts with
  | nil => intro m; cases m <;> rfl
  | cons tk ts ih =>
    intro m
    cases m with
    | nil => rfl
    | cons b m =>
      have h1 := h tk (List.mem_cons_self _ _)
      have h2 := ih (fun x hx => h x (List.mem_cons_of_mem _ hx)) m
      cases b <;> simp [profit_of, h1, h2]

theorem all_profits_zero (heap : Heap) (pr : Problem)
    (hsorted : SortedTasks pr.task) (hdates : DatesOk pr.task)
    (hP1 : 1 ≤ pr.P) (hP : pr.P ≤ MAX_P) (hbusy : pr.busy.length = MAX_P)
    (hprofit : ∀ tk ∈ pr.task, 0 ≤ tk.profit) (h0 : (solution heap pr).total_profit = 0) :
    ∀ tk ∈ pr.task, tk.profit = 0 := by
  intro tk htk
  obtain ⟨i, hi⟩ := List.mem_iff_getElem?.1 htk
  have hlen : pr.P ≤ (reset_busy pr.busy pr.P).length := by
    rw [reset_busy_length, hbusy]; exact hP
  have hidle := reset_busy_idle pr.busy pr.P (by rw [hbusy]; exact hP)
  have hf := feasible_single pr.P hP1 pr.task i
  have hle := solution_total_ge heap pr (single pr.task.length i) hf.1
    ((first_fit_ok_iff _ _ _ _ hsorted hdates hlen hidle).2 hf.2)
  rw [profit_of_single pr.task i tk hi, h0] at hle
  have := hprofit tk htk
  omega

/-- What `solution` leaves in `opt_sol` when the block has been written by a leaf
(`total_profit` is positive) or was zero-filled when `malloc` returned it: the
profits of the flagged tasks sum to `total_profit`, first-fit from idle workers finds
a worker for every flagged task, and the flagged tasks have an assignment to the `P`
workers in which no two overlapping tasks share a worker. -/
theorem opt_sol_witness_when_written (heap : Heap) (pr : Problem)
    (hdates : ∀ tk ∈ pr.task, tk.starting_date ≤ tk.ending_date)
    (hP : pr.P ≤ MAX_P) (hbusy : pr.busy.length = MAX_P)
    (hinit : 0 < (solution heap pr).total_profit ∨ ∀ i, i < pr.T → heap.opt_sol i = 0) :
    profit_of pr.task (flagged (solution heap pr).opt_sol) = (solution heap pr).total_profit ∧
    first_fit_ok pr.P pr.task (flagged (solution heap pr).opt_sol)
      (List.replicate pr.P (-1)) = true ∧
    Feasible pr.P pr.task (flagged (solution heap pr).opt_sol) := by
  have hlen : pr.P ≤ (reset_busy pr.busy pr.P).length := by
    rw [reset_busy_length, hbusy]; exact hP
  have hcongr : ∀ m, first_fit_ok pr.P pr.task m (List.replicate pr.P (-1)) =
      first_fit_ok pr.P pr.task m (reset_busy pr.busy pr.P) := by
    intro m
    apply first_fit_ok_congr
    · simp
    · exact hlen
    · intro w hw
      rw [reset_busy_idle _ _ (by rw [hbusy]; exact hP) w hw, replicate_idle _ w hw]
  rcases solution_attained heap pr with ⟨h0, hopt⟩ | ⟨m, hl, hok, hpm, _, hopt⟩
  · have hz : ∀ i, i < pr.T → heap.opt_sol i = 0 := by
      rcases hinit with hpos | hz
      · omega
      · exact hz
    have hfl : flagged (solution heap pr).opt_sol = List.replicate pr.task.length false := by
      rw [hopt]
      apply List.ext_getElem
      · simp [flagged, malloc_ints, Problem.T]
      · intro i h1 h2
        have hi : i < pr.T := by simpa [flagged, malloc_ints] using h1
        simp [flagged, malloc_ints, hz i hi]
    rw [hfl, h0]
    exact ⟨profit_of_none _, first_fit_ok_none _ _ _, feasible_none _ _⟩
  · rw [hopt, flagged_flags]
    refine ⟨hpm, by rw [hcongr]; exact hok, hl, ?_⟩
    obtain ⟨a, ha, _⟩ := first_fit_sound pr.P pr.task m _ hlen hdates hok
    exact ⟨a, ha⟩

theorem profit_of_le_sum (ts : List Task) (h : ∀ tk ∈ ts, 0 ≤ tk.profit) :
    ∀ m : List Bool, profit_of ts m ≤ (ts.map Task.profit).sum ∧ 0 ≤ (ts.map Task.profit).sum := by
  induction ts with
  | nil => intro m; cases m <;> simp [profit_of]
  | cons tk ts ih =>
    intro m
    have h1 := h tk (List.mem_cons_self _ _)
    have ih' := ih (fun x hx => h x (List.mem_cons_of_mem _ hx))
    cases m with
    | nil =>
      have := (ih' []).2
      simp [profit_of]
      omega
    | cons b m =>
      have := ih' m
      cases b <;> simp [profit_of] <;> omega

/-- C10. The best profit is bounded: when every profit is non-negative, after
`solution` one has `0 <= total_profit <= ` the sum of the profits of all tasks. -/
theorem total_profit_bounded (heap : Heap) (pr : Problem)
    (hprofit : ∀ tk ∈ pr.task, 0 ≤ tk.profit) :
    0 ≤ (solution heap pr).total_profit ∧
    (solution heap pr).total_profit ≤ (pr.task.map Task.profit).sum := by
  refine ⟨solution_total_nonneg heap pr, ?_⟩
  rcases solution_attained heap pr with ⟨h0, _⟩ | ⟨m, _, _, hpm, _, _⟩
  · rw [h0]; exact (profit_of_le_sum pr.task hprofit []).2
  · rw [← hpm]; exact (profit_of_le_sum pr.task hprofit m).1

/-! ## The histogram block -/

/-- C5, on the code: with one worker and the single task `[0,1]` of profit `5`, the
leaf that takes the task has profit `5`, the sum of all profits, but the block
allocated for the histogram has the `5` cells `0..4`: the increment of cell `5`
falls outside the block, which holds no count for that leaf.  On a block that
`malloc` did not return zero-filled, cell `0` holds `8` although exactly one leaf has
profit `0`. -/
theorem histogram_not_profit_distribution :
    (leaf_profits 1 [mk_task 0 1 5]).count 5 = 1 ∧
    (solution Heap.zero (mk_problem 1 [mk_task 0 1 5])).profit_limit = 5 ∧
    (solution Heap.zero (mk_problem 1 [mk_task 0 1 5])).profit_occurrence_arr = [1, 0, 0, 0, 0] ∧
    (solution Heap.zero (mk_problem 1 [mk_task 0 1 5])).profit_occurrence_arr[5]? = none ∧
    (solution Heap.zero (mk_problem 1 [mk_task 0 1 5])).hist_oob = [5] ∧
    (leaf_profits 1 [mk_task 0 1 5]).count 0 = 1 ∧
    (solution Heap.sevens (mk_problem 1 [mk_task 0 1 5])).profit_occurrence_arr[0]? = some 8 := by
  decide

/-- C6, on the code: with one worker and the single task `[0,1]` of profit `5` there
are two leaves, but the cells of the histogram block sum to `1`, because the leaf of
profit `5` is counted outside the block; on a block that is not zero-filled the
cells sum to `36`. -/
theorem histogram_mass_differs :
    (solution Heap.zero (mk_problem 1 [mk_task 0 1 5])).n_viable_sol = 2 ∧
    (solution Heap.zero (mk_problem 1 [mk_task 0 1 5])).profit_occurrence_arr.sum = 1 ∧
    (solution Heap.sevens (mk_problem 1 [mk_task 0 1 5])).n_viable_sol = 2 ∧
    (solution Heap.sevens (mk_problem 1 [mk_task 0 1 5])).profit_occurrence_arr.sum = 36 := by
  decide

/-- C7, on the code: with no task the counter is `1` and the best profit `0`, but
the histogram block has no cell at all (`malloc(0)`) and the increment of cell `0`
falls outside it; with one task and a block that `malloc` returned holding `-3`,
cell `0` ends at `-2`. -/
theorem all_exclude_not_in_histogram :
    (solution Heap.zero (mk_problem 1 [])).n_viable_sol = 1 ∧
    (solution Heap.zero (mk_problem 1 [])).total_profit = 0 ∧
    (solution Heap.zero (mk_problem 1 [])).profit_occurrence_arr = [] ∧
    (solution Heap.zero (mk_problem 1 [])).hist_oob = [0] ∧
    (solution Heap.negative (mk_problem 1 [mk_task 0 1 5])).profit_occurrence_arr[0]? =
      some (-2) := by
  decide

/-- C8, on the code: with one worker and the tasks `[0,1]` (profit 5) and `[2,3]`
(profit 7) the best profit is `12`, `opt_sol = [1,1]` and there are `4` leaves, but
the histogram block has the `12` cells `0..11`: it holds `{0:1, 5:1, 7:1}` and the
increment for profit `12` falls outside the block. -/
theorem disjoint_scenario_histogram :
    (solution Heap.zero (mk_problem 1 [mk_task 0 1 5, mk_task 2 3 7])).total_profit = 12 ∧
    (solution Heap.zero (mk_problem 1 [mk_task 0 1 5, mk_task 2 3 7])).opt_sol = [1, 1] ∧
    (solution Heap.zero (mk_problem 1 [mk_task 0 1 5, mk_task 2 3 7])).n_viable_sol = 4 ∧
    (solution Heap.zero (mk_problem 1 [mk_task 0 1 5, mk_task 2 3 7])).profit_occurrence_arr =
      [1, 0, 0, 0, 0, 1, 0, 1, 0, 0, 0, 0] ∧
    (solution Heap.zero (mk_problem 1 [mk_task 0 1 5, mk_task 2 3 7])).profit_occurrence_arr[12]?
      = none ∧
    (solution Heap.zero (mk_problem 1 [mk_task 0 1 5, mk_task 2 3 7])).hist_oob = [12] := by
  decide

/-- C9, on the code: a second run of `solution` on the state left by a first run
allocates fresh blocks; when the first blocks were zero-filled and the second hold
`7`, the histograms differ, and so do the two `opt_sol` when no leaf has a positive
profit. -/
theorem rerun_differs :
    (solution Heap.zero (mk_problem 1 [mk_task 0 1 5])).profit_occurrence_arr = [1, 0, 0, 0, 0] ∧
    (solution Heap.sevens (solution Heap.zero (mk_problem 1 [mk_task 0 1 5]))).profit_occurrence_arr
      = [8, 7, 7, 7, 7] ∧
    (solution Heap.zero (mk_problem 1 [mk_task 0 1 0])).opt_sol = [0] ∧
    (solution Heap.sevens (solution Heap.zero (mk_problem 1 [mk_task 0 1 0]))).opt_sol = [7] := by
  decide

/-! ## The statements at a concrete instance -/

theorem solution_optimal_witness :
    (SortedTasks overlapping_pair ∧ DatesOk overlapping_pair ∧
      (mk_problem 1 overlapping_pair).P ≤ MAX_P ∧
      (mk_problem 1 overlapping_pair).busy.length = MAX_P) ∧
    (∃ m, Feasible 1 overlapping_pair m ∧ profit_of overlapping_pair m =
        (solution Heap.zero (mk_problem 1 overlapping_pair)).total_profit) ∧
    ∀ m, Feasible 1 overlapping_pair m → profit_of overlapping_pair m ≤
        (solution Heap.zero (mk_problem 1 overlapping_pair)).total_profit :=
  ⟨⟨by simp [SortedTasks, overlapping_pair, mk_task, compare_tasks],
      by simp [DatesOk, overlapping_pair, mk_task], by decide, by decide⟩,
    solution_optimal Heap.zero (mk_problem 1 overlapping_pair)
      (by simp [SortedTasks, mk_problem, overlapping_pair, mk_task, compare_tasks])
      (by simp [DatesOk, mk_problem, overlapping_pair, mk_task]) (by decide) (by decide)⟩

theorem leaf_count_eq_reference_mod_witness :
    ((mk_problem 1 overlapping_pair).P ≤ MAX_P ∧
      (mk_problem 1 overlapping_pair).busy.length = MAX_P ∧
      (mk_problem 1 overlapping_pair).T < 64) ∧
    (solution Heap.zero (mk_problem 1 overlapping_pair)).n_viable_sol =
      reference_count 1 overlapping_pair :=
  ⟨⟨by decide, by decide, by decide⟩,
    (leaf_count_eq_reference_mod Heap.zero (mk_problem 1 overlapping_pair)
      (by decide) (by decide)).2.1 (by decide)⟩

theorem first_fit_iff_some_assignment_witness :
    (SortedTasks overlapping_pair ∧ DatesOk overlapping_pair ∧
      1 ≤ [(-1 : Int)].length ∧ ∀ w, w < 1 → [(-1 : Int)].getD w 0 = -1) ∧
    (first_fit_ok 1 overlapping_pair [true, false] [-1] = true ↔
      ∃ a, ValidAssignment 1 overlapping_pair [true, false] a) :=
  ⟨⟨by simp [SortedTasks, overlapping_pair, mk_task, compare_tasks],
      by simp [DatesOk, overlapping_pair, mk_task], by decide, by decide⟩,
    first_fit_iff_some_assignment 1 overlapping_pair [true, false] [-1]
      (by simp [SortedTasks, overlapping_pair, mk_task, compare_tasks])
      (by simp [DatesOk, overlapping_pair, mk_task]) (by decide) (by decide)⟩

theorem total_profit_bounded_witness :
    (∀ tk ∈ overlapping_pair, 0 ≤ tk.profit) ∧
    0 ≤ (solution Heap.zero (mk_problem 1 overlapping_pair)).total_profit ∧
    (solution Heap.zero (mk_problem 1 overlapping_pair)).total_profit ≤
      (overlapping_pair.map Task.profit).sum :=
  ⟨by decide, total_profit_bounded Heap.zero (mk_problem 1 overlapping_pair) (by decide)⟩

/-! ## Stale state -/

theorem profit_sum_key (ts ts' : List Task) (h : ts.map Task.key = ts'.map Task.key) :
    profit_sum ts = profit_sum ts' := by
  have : ts.map Task.profit = ts'.map Task.profit := by
    have h2 := congrArg (List.map (fun k : Int × Int × Int => k.2.2)) h
    simpa [List.map_map, Function.comp_def, Task.key] using h2
  simp [profit_sum, this]

/-- The result of `solution` depends on the task array only through the dates and
profits. -/
theorem solution_result_key (heap : Heap) (pr : Problem) (ts : List Task)
    (hkey : pr.task.map Task.key = ts.map Task.key) :
    (solution heap pr).result = run_result heap pr.P ts (reset_busy pr.busy pr.P) := by
  have hlen : pr.task.length = ts.length := by simpa using congrArg List.length hkey
  unfold solution
  dsimp only
  have h := recursive_sol_trace ts (pr.T + 1)
    { pr with
      n_viable_sol := 0
      current_sol_profit := 0
      total_profit := 0
      profit_limit := profit_sum pr.task
      current_sol := List.replicate pr.T 0
      opt_sol := malloc_ints heap.opt_sol pr.T
      busy := reset_busy pr.busy pr.P
      profit_occurrence_arr := malloc_ints heap.profit_occurrence_arr
        (profit_sum pr.task).toNat
      hist_oob := [] } 0 [] (by simpa using hkey) (by simp [hlen]) (by simp [Problem.T, hlen])
    (by simp [Problem.T, hlen]) rfl
  rw [h.2]
  have hps : profit_sum pr.task = profit_sum ts := profit_sum_key pr.task ts hkey
  simp [fold_leaves, run_result, Problem.result, hps, Problem.T, hlen]

theorem reset_busy_getElem? (busy : List Int) (P i : Nat) :
    (reset_busy busy P)[i]? = if i < P then busy[i]?.map (fun _ => -1) else busy[i]? := by
  induction P with
  | zero => simp [reset_busy]
  | succ P ih =>
    rw [reset_busy_succ, List.getElem?_set, ih, reset_busy_length]
    by_cases h : P = i
    · subst h
      by_cases hl : P < busy.length
      · simp [hl, List.getElem?_eq_getElem hl]
      · simp [hl, List.getElem?_eq_none (Nat.le_of_not_lt hl)]
    · by_cases h2 : i < P
      · simp [h, h2, Nat.lt_succ_of_lt h2]
      · have : ¬ i < P + 1 := by omega
        simp [h, h2, this]

theorem reset_busy_idem (busy : List Int) (P : Nat) :
    reset_busy (reset_busy busy P) P = reset_busy busy P := by
  apply List.ext_getElem?
  intro i
  rw [reset_busy_getElem?, reset_busy_getElem?]
  by_cases h : i < P
  · simp only [h, if_true]
    cases busy[i]? <;> rfl
  · simp [h]

/-- What a first run leaves behind has no influence on a second run: the result of
`solution` on the state left by a run is the result of `solution` on the original
state, for the same contents of the fresh blocks. -/
theorem solution_rerun (heap1 heap2 : Heap) (pr : Problem) :
    (solution heap2 (solution heap1 pr)).result = (solution heap2 pr).result := by
  obtain ⟨hP, hk, _, hb, _, _⟩ := solution_frame heap1 pr
  rw [solution_result_key heap2 (solution heap1 pr) pr.task hk,
    solution_result_key heap2 pr pr.task rfl, hP, hb, reset_busy_idem]

/-- The best profit and the leaf count of a second run are those of the first,
whatever the fresh blocks hold. -/
theorem solution_rerun_profit_count (heap1 heap2 : Heap) (pr : Problem) :
    (solution heap2 (solution heap1 pr)).total_profit = (solution heap1 pr).total_profit ∧
    (solution heap2 (solution heap1 pr)).n_viable_sol = (solution heap1 pr).n_viable_sol := by
  have h := solution_rerun heap1 heap2 pr
  have ht : (solution heap2 (solution heap1 pr)).total_profit = (solution heap2 pr).total_profit :=
    congrArg Result.total_profit h
  have hn : (solution heap2 (solution heap1 pr)).n_viable_sol = (solution heap2 pr).n_viable_sol :=
    congrArg Result.n_viable_sol h
  rw [ht, hn, solution_total_profit heap2, solution_total_profit heap1,
    solution_n_viable_sol heap2, solution_n_viable_sol heap1,
    fold_leaves_total_eq, fold_leaves_total_eq,
    fold_leaves_count _ _ _ _ _ (by simp [initial_result, ULONG_MOD]),
    fold_leaves_count _ _ _ _ _ (by simp [initial_result, ULONG_MOD])]
  exact ⟨rfl, rfl⟩

/-! ## What the histogram block holds -/

theorem bump_length (arr : List Int) (x : Int) : (bump arr x).length = arr.length := by
  unfold bump
  split <;> simp

theorem bump_getD (arr : List Int) (x : Int) (p : Nat) (hp : p < arr.length) :
    (bump arr x).getD p 0 = arr.getD p 0 + (if x = (p : Int) then 1 else 0) := by
  unfold bump
  split
  · rename_i hx
    by_cases hxp : x = (p : Int)
    · subst hxp
      simp [List.getD_eq_getElem?_getD, List.getElem?_set, hp]
    · have hne : x.toNat ≠ p := by omega
      simp [List.getD_eq_getElem?_getD, List.getElem?_set, hne, hxp]
  · rename_i hx
    have hxp : x ≠ (p : Int) := by omega
    simp [hxp]

theorem fold_leaves_hist_length {α : Type} (T : Nat) (f : α → Int) (g : α → List Int)
    (L : List α) : ∀ r : Result,
      (fold_leaves T f g r L).profit_occurrence_arr.length = r.profit_occurrence_arr.length := by
  induction L with
  | nil => intro r; rfl
  | cons x L ih =>
    intro r
    rw [fold_leaves_cons, ih]
    exact bump_length _ _

theorem fold_leaves_hist_getD {α : Type} (T : Nat) (f : α → Int) (g : α → List Int)
    (L : List α) (p : Nat) : ∀ r : Result, p < r.profit_occurrence_arr.length →
      (fold_leaves T f g r L).profit_occurrence_arr.getD p 0 =
        r.profit_occurrence_arr.getD p 0 + ((L.map f).count (p : Int) : Nat) := by
  induction L with
  | nil => intro r _; simp [fold_leaves]
  | cons x L ih =>
    intro r hp
    rw [fold_leaves_cons, ih _ (by simpa [leaf_result, bump_length] using hp)]
    show (bump r.profit_occurrence_arr (f x)).getD p 0 + _ = _
    rw [bump_getD _ _ _ hp, List.map_cons, List.count_cons]
    by_cases hx : f x = (p : Int)
    · simp [hx]; omega
    · simp [hx]

theorem fold_leaves_oob {α : Type} (T : Nat) (f : α → Int) (g : α → List Int)
    (L : List α) : ∀ r : Result,
      (fold_leaves T f g r L).hist_oob = r.hist_oob ++
        (L.map f).filter
          (fun x : Int => decide (¬ (0 ≤ x ∧ x < (r.profit_occurrence_arr.length : Int)))) := by
  induction L with
  | nil => intro r; simp [fold_leaves]
  | cons x L ih =>
    intro r
    rw [fold_leaves_cons, ih]
    have hl : (leaf_result T r (f x) (g x)).profit_occurrence_arr.length =
        r.profit_occurrence_arr.length := bump_length _ _
    rw [hl]
    by_cases hx : 0 ≤ f x ∧ f x < r.profit_occurrence_arr.length
    · simp [leaf_result, hx, List.filter_cons]
    · have hx' : f x < 0 ∨ (r.profit_occurrence_arr.length : Int) ≤ f x := by omega
      simp [leaf_result, hx, List.filter_cons, hx']

theorem search_congr (P : Nat) (ts : List Task) (b1 b2 : List Int)
    (h1 : P ≤ b1.length) (h2 : P ≤ b2.length)
    (h : ∀ w, w < P → b1.getD w 0 = b2.getD w 0) : search P ts b1 = search P ts b2 := by
  rw [search_eq_filter, search_eq_filter]
  congr 1
  funext m
  exact first_fit_ok_congr P ts m b1 b2 h1 h2 h

theorem search_reset_busy (pr : Problem) (hP : pr.P ≤ pr.busy.length) :
    search pr.P pr.task (reset_busy pr.busy pr.P) =
      search pr.P pr.task (List.replicate pr.P (-1)) := by
  apply search_congr
  · rw [reset_busy_length]; exact hP
  · simp
  · intro w hw
    rw [reset_busy_idle _ _ hP w hw, replicate_idle _ w hw]

theorem malloc_ints_getD (mem : Nat → Int) (n p : Nat) (hp : p < n) :
    (malloc_ints mem n).getD p 0 = mem p := by
  simp [malloc_ints, List.getD_eq_getElem?_getD, List.getElem?_map, List.getElem?_range hp]

/-- What `solution` leaves in the histogram block: the block has `profit_limit`
cells, `profit_limit` being the sum of all profits; each cell `p` of the block holds
what `malloc` returned in it plus the number of leaves of profit `p`; the leaves whose
profit is no index of the block are those recorded in `hist_oob`. -/
theorem solution_histogram (heap : Heap) (pr : Problem) (hP : pr.P ≤ pr.busy.length) :
    (solution heap pr).profit_occurrence_arr.length = (profit_sum pr.task).toNat ∧
    (∀ p, p < (profit_sum pr.task).toNat →
      (solution heap pr).profit_occurrence_arr.getD p 0 =
        heap.profit_occurrence_arr p + ((leaf_profits pr.P pr.task).count (p : Int) : Nat)) ∧
    (solution heap pr).hist_oob =
      (leaf_profits pr.P pr.task).filter
        (fun x : Int => decide (¬ (0 ≤ x ∧ x < ((profit_sum pr.task).toNat : Int)))) := by
  have hres := solution_result heap pr
  have h1 : (solution heap pr).profit_occurrence_arr =
      (fold_leaves pr.T (profit_of pr.task) flags (initial_result heap pr)
        (search pr.P pr.task (reset_busy pr.busy pr.P))).profit_occurrence_arr := by
    rw [← hres]; rfl
  have h2 : (solution heap pr).hist_oob =
      (fold_leaves pr.T (profit_of pr.task) flags (initial_result heap pr)
        (search pr.P pr.task (reset_busy pr.busy pr.P))).hist_oob := by
    rw [← hres]; rfl
  have hlen0 : (initial_result heap pr).profit_occurrence_arr.length =
      (profit_sum pr.task).toNat := malloc_ints_length _ _
  refine ⟨?_, ?_, ?_⟩
  · rw [h1, fold_leaves_hist_length, hlen0]
  · intro p hp
    rw [h1, fold_leaves_hist_getD _ _ _ _ p _ (by rw [hlen0]; exact hp),
      search_reset_busy pr hP]
    show (malloc_ints _ _).getD p 0 + _ = _
    rw [malloc_ints_getD _ _ _ hp]
    rfl
  · rw [h2, fold_leaves_oob, hlen0, search_reset_busy pr hP]
    simp [initial_result, leaf_profits]

/-! ## NeverOverlap tasks -/

theorem profit_of_all (ts : List Task) :
    profit_of ts (List.replicate ts.length true) = (ts.map Task.profit).sum := by
  induction ts with
  | nil => rfl
  | cons tk ts ih => simp [List.replicate_succ, profit_of, ih]

theorem all_selected_of_profit (ts : List Task) (hpos : ∀ tk ∈ ts, 0 < tk.profit) :
    ∀ m : List Bool, m.length = ts.length → profit_of ts m = (ts.map Task.profit).sum →
      m = List.replicate ts.length true := by
  induction ts with
  | nil => intro m hm _; simpa using hm
  | cons tk ts ih =>
    intro m hm hsum
    have hpos' : ∀ x ∈ ts, 0 < x.profit := fun x hx => hpos x (List.mem_cons_of_mem _ hx)
    have hnn : ∀ x ∈ ts, 0 ≤ x.profit := fun x hx => le_of_lt (hpos' x hx)
    have h0 := hpos tk (List.mem_cons_self _ _)
    match m, hm with
    | b :: m, hm =>
      have hle := (profit_of_le_sum ts hnn m).1
      cases b with
      | false =>
        simp [profit_of] at hsum
        omega
      | true =>
        simp [profit_of] at hsum
        have := ih hpos' m (by simpa using hm) hsum
        simp [List.replicate_succ, this]

/-- The part of C8 that holds on the code: on sorted tasks each of which starts
strictly after the previous one ends, with starting dates `>= 0` and positive
profits, after `solution` the leaf counter is `2^T` modulo `2^64`, the best profit
is the sum of all profits and every cell of `opt_sol` is `1`. -/
theorem disjoint_tasks_all_valid (heap : Heap) (pr : Problem)
    (hsorted : SortedTasks pr.task)
    (hchain : pr.task.Chain' (fun a b => a.ending_date < b.starting_date))
    (hstart : ∀ tk ∈ pr.task, 0 ≤ tk.starting_date) (hpos : ∀ tk ∈ pr.task, 0 < tk.profit)
    (hP1 : 1 ≤ pr.P) (hP : pr.P ≤ MAX_P) (hbusy : pr.busy.length = MAX_P) :
    (solution heap pr).n_viable_sol = 2 ^ pr.T % ULONG_MOD ∧
    (solution heap pr).total_profit = (pr.task.map Task.profit).sum ∧
    (solution heap pr).opt_sol = List.replicate pr.T 1 := by
  have hdis := disjoint_of_chain pr.task hsorted hchain
  have hPl : pr.P ≤ pr.busy.length := by rw [hbusy]; exact hP
  have hnn : ∀ x ∈ pr.task, 0 ≤ x.profit := fun x hx => le_of_lt (hpos x hx)
  have hall : first_fit_ok pr.P pr.task (List.replicate pr.task.length true)
      (reset_busy pr.busy pr.P) = true := by
    apply first_fit_ok_of_disjoint pr.P hP1 pr.task _ _ _ hdis
    · intro tk htk
      rw [reset_busy_idle _ _ hPl 0 (by omega)]
      have := hstart tk htk
      omega
    · rw [reset_busy_length]; omega
  have hge := solution_total_ge heap pr (List.replicate pr.task.length true) (by simp [Problem.T])
    hall
  rw [profit_of_all] at hge
  have htotal : (solution heap pr).total_profit = (pr.task.map Task.profit).sum := by
    rcases solution_attained heap pr with ⟨h0, _⟩ | ⟨m, _, _, hpm, _, _⟩
    · have := (profit_of_le_sum pr.task hnn []).2
      omega
    · have := (profit_of_le_sum pr.task hnn m).1
      omega
  refine ⟨?_, htotal, ?_⟩
  · rw [solution_count heap pr hPl, reference_count_of_disjoint pr.P hP1 pr.task hdis hstart]
    rfl
  · rcases solution_attained heap pr with ⟨h0, hopt⟩ | ⟨m, hl, _, hpm, _, hopt⟩
    · have hT : pr.task = [] := by
        cases hts : pr.task with
        | nil => rfl
        | cons tk ts =>
          rw [htotal, hts] at h0
          have h1 := hpos tk (by rw [hts]; exact List.mem_cons_self _ _)
          have h2 := (profit_of_le_sum ts
            (fun x hx => hnn x (by rw [hts]; exact List.mem_cons_of_mem _ hx)) []).2
          simp at h0
          omega
      rw [hopt]
      simp [Problem.T, hT, malloc_ints]
    · rw [hopt, all_selected_of_profit pr.task hpos m hl (by rw [hpm, htotal])]
      simp [flags, Problem.T]

/-! ## The order on tasks -/

theorem compare_tasks_trans (a b c : Task) (hab : compare_tasks a b ≤ 0)
    (hbc : compare_tasks b c ≤ 0) : compare_tasks a c ≤ 0 := by
  unfold compare_tasks at *
  split_ifs at hab hbc ⊢ <;> omega

/-- C18. `compare_tasks` is the lexicographic order on `(starting_date, ending_date)`:
it returns `-1` on a smaller pair of dates, `+1` on a larger one and `0` exactly when
both dates are equal, whatever `profit` and `assigned_to` hold; it is antisymmetric,
`compare_tasks a b = - compare_tasks b a`, and the relation `compare_tasks a b <= 0`
is transitive, so that a list in which every task is followed by one that does not
compare below it is sorted in the sense required by the search. -/
theorem compare_tasks_lexicographic (a b c : Task) (ts : List Task) :
    (date_lt a b → compare_tasks a b = -1) ∧
    (date_lt b a → compare_tasks a b = 1) ∧
    (compare_tasks a b = 0 ↔
      a.starting_date = b.starting_date ∧ a.ending_date = b.ending_date) ∧
    (∀ x y u v : Int, compare_tasks { a with profit := x, assigned_to := u }
      { b with profit := y, assigned_to := v } = compare_tasks a b) ∧
    compare_tasks a b = - compare_tasks b a ∧
    (compare_tasks a b ≤ 0 → compare_tasks b c ≤ 0 → compare_tasks a c ≤ 0) ∧
    (ts.Chain' (fun x y => compare_tasks x y ≤ 0) → SortedTasks ts) := by
  refine ⟨?_, ?_, ?_, ?_, ?_, ?_, ?_⟩
  · intro h
    unfold date_lt at h
    unfold compare_tasks
    split_ifs <;> omega
  · intro h
    unfold date_lt at h
    unfold compare_tasks
    split_ifs <;> omega
  · unfold compare_tasks
    by_cases h1 : a.starting_date = b.starting_date
    · by_cases h3 : a.ending_date = b.ending_date
      · simp [h1, h3]
      · have : (if a.ending_date < b.ending_date then (-1 : Int) else 1) ≠ 0 := by
          split_ifs <;> omega
        simp [h1, h3, this]
    · have : (if a.starting_date < b.starting_date then (-1 : Int) else 1) ≠ 0 := by
        split_ifs <;> omega
      simp [h1, this]
  · intro x y u v
    rfl
  · unfold compare_tasks
    split_ifs <;> omega
  · exact compare_tasks_trans a b c
  · intro h
    unfold SortedTasks
    have htrans : ∀ x y z : Task, compare_tasks x y ≤ 0 → compare_tasks y z ≤ 0 →
        compare_tasks x z ≤ 0 := compare_tasks_trans
    induction ts with
    | nil => exact List.Pairwise.nil
    | cons x ts ih =>
      have hx := List.chain'_cons'.1 h
      refine List.pairwise_cons.2 ⟨?_, ih hx.2⟩
      have hp := ih hx.2
      intro y hy
      cases ts with
      | nil => simp at hy
      | cons z ts =>
        have hxz : compare_tasks x z ≤ 0 := hx.1 z (by simp)
        rcases List.mem_cons.1 hy with rfl | hy
        · exact hxz
        · exact htrans x z y hxz ((List.pairwise_cons.1 hp).1 y hy)

theorem compare_tasks_lexicographic_witness :
    (date_lt (mk_task 0 2 5) (mk_task 1 3 7) ∧
      compare_tasks (mk_task 0 2 5) (mk_task 1 3 7) ≤ 0 ∧
      compare_tasks (mk_task 1 3 7) (mk_task 1 4 1) ≤ 0 ∧
      [mk_task 0 2 5, mk_task 1 3 7, mk_task 1 4 1].Chain'
        (fun x y => compare_tasks x y ≤ 0)) ∧
    compare_tasks (mk_task 0 2 5) (mk_task 1 3 7) = -1 ∧
    compare_tasks (mk_task 0 2 5) (mk_task 1 4 1) ≤ 0 ∧
    SortedTasks [mk_task 0 2 5, mk_task 1 3 7, mk_task 1 4 1] :=
  have h := compare_tasks_lexicographic (mk_task 0 2 5) (mk_task 1 3 7) (mk_task 1 4 1)
    [mk_task 0 2 5, mk_task 1 3 7, mk_task 1 4 1]
  ⟨⟨by simp [date_lt, mk_task], by decide, by decide, by simp [compare_tasks, mk_task]⟩,
    h.1 (by simp [date_lt, mk_task]), h.2.2.2.2.2.1 (by decide) (by decide),
    h.2.2.2.2.2.2 (by simp [compare_tasks, mk_task])⟩

/-! ## Calls of the search -/

theorem solution_eq (heap : Heap) (pr : Problem) :
    solution heap pr = recursive_sol (pr.T + 1) (initial_state heap pr) 0 := rfl

theorem take_set_self {α : Type} (l : List α) (t : Nat) (a : α) :
    (l.set t a).take t = l.take t := by
  rw [List.set_take]
  apply List.set_eq_of_length_le
  simp

theorem set_assigned_static (pr : Problem) (t : Nat) (w : Int) :
    Static pr (set_assigned pr t w) t :=
  ⟨rfl, set_assigned_key pr t w, rfl, take_set_self _ _ _, rfl, rfl⟩

theorem Static.trans_succ {pr pr1 pr2 : Problem} {t : Nat} (h1 : Static pr pr1 t)
    (h2 : Static pr1 pr2 (t + 1)) : Static pr pr2 t := by
  obtain ⟨a1, a2, a3, a4, a5, a6⟩ := h1
  obtain ⟨b1, b2, b3, b4, b5, b6⟩ := h2
  refine ⟨b1.trans a1, b2.trans a2, b3.trans a3, ?_, b5.trans a5, b6.trans a6⟩
  have := congrArg (List.take t) b4
  simp only [List.take_take, Nat.min_eq_left (Nat.le_succ t)] at this
  rw [this, a4]

theorem include_state_static (pr1 : Problem) (t p : Nat) :
    Static pr1 (include_state pr1 t p) t := by
  refine ⟨rfl, ?_, rfl, ?_, ?_, ?_⟩
  · exact set_assigned_key _ _ _
  · exact take_set_self _ _ _
  · simp [include_state, set_assigned]
  · simp [include_state, set_assigned]

theorem recursive_sol_static (fuel : Nat) :
    ∀ (pr : Problem) (t : Nat), Static pr (recursive_sol fuel pr t) t := by
  induction fuel with
  | zero => intro pr t; exact ⟨rfl, rfl, rfl, rfl, rfl, rfl⟩
  | succ fuel ih =>
    intro pr t
    by_cases ht : t = pr.T
    · rw [recursive_sol, if_pos ht]
      obtain ⟨h1, h2, _, h4, h5, h6⟩ := leaf_frame pr
      exact ⟨h4, by rw [h5], h6, by rw [h5], by rw [h1], by rw [h2]⟩
    · rw [recursive_sol_succ fuel pr t ht]
      have h1 : Static pr (recursive_sol fuel (set_assigned pr t (-1)) (t + 1)) t :=
        (set_assigned_static pr t (-1)).trans_succ (ih _ _)
      split
      · have h2 := (include_state_static (recursive_sol fuel (set_assigned pr t (-1)) (t + 1)) t
          (first_free (recursive_sol fuel (set_assigned pr t (-1)) (t + 1)).busy
            (task_at (recursive_sol fuel (set_assigned pr t (-1)) (t + 1)) t).starting_date
            (recursive_sol fuel (set_assigned pr t (-1)) (t + 1)).P)).trans_succ (ih _ _)
        obtain ⟨a1, a2, a3, a4, a5, a6⟩ := h1
        obtain ⟨b1, b2, b3, b4, b5, b6⟩ := h2
        refine ⟨b1.trans a1, b2.trans a2, b3.trans a3, b4.trans a4, ?_, ?_⟩
        · show (List.set _ _ _).length = _
          rw [List.length_set]; exact b5.trans a5
        · show (List.set _ _ _).length = _
          rw [List.length_set]; exact b6.trans a6
      · exact h1

theorem Static.T_eq {pr pr' : Problem} {t : Nat} (h : Static pr pr' t) : pr'.T = pr.T := by
  have := congrArg List.length h.2.1
  simpa [Problem.T] using this

theorem task_at_key_of_map (pr pr' : Problem) (t : Nat)
    (h : pr'.task.map Task.key = pr.task.map Task.key) :
    (task_at pr' t).key = (task_at pr t).key := by
  have h0 := congrArg (fun l => l[t]?) h
  simp only [List.getElem?_map] at h0
  unfold task_at
  rw [List.getD_eq_getElem?_getD, List.getD_eq_getElem?_getD]
  cases h1 : pr'.task[t]? <;> cases h2 : pr.task[t]? <;> simp [h1, h2] at h0 ⊢
  exact h0

/-! ## The selection rule of the include branch -/

theorem first_free_eq_of_lowest (busy : List Int) (s : Int) (P w : Nat) (hw : w < P)
    (hfree : busy.getD w 0 < s) (hmin : ∀ v, v < w → s ≤ busy.getD v 0) :
    first_free busy s P = w := by
  have h1 := first_free_le_of_free busy s P w hfree
  rcases Nat.eq_or_lt_of_le h1 with h | h
  · exact h
  · have h2 := first_free_free busy s P (by omega)
    have h3 := hmin _ h
    omega

theorem workerFree_iff (busy : List Int) (s : Int) (w : Nat) (hs : 0 ≤ s) :
    WorkerFree busy s w ↔ busy.getD w 0 < s := by
  unfold WorkerFree
  constructor
  · rintro (h | h) <;> omega
  · intro h; exact Or.inr h

/-- C14 (amended). First-fit selection rule with the idle sentinel, for a task whose
starting date is `>= 0`: after the exclude branch has returned in state `pr1`, the
include branch of `recursive_sol(pr, t)` runs with the lowest-indexed worker below
`P` that is idle (`busy = -1`) or has `busy < starting_date`, and it is skipped,
leaving `pr1`, if and only if no worker below `P` is idle or free before the task
starts. -/
theorem include_branch_rule (fuel : Nat) (pr pr1 : Problem) (t : Nat) (ht : t ≠ pr.T)
    (hs : 0 ≤ (task_at pr t).starting_date)
    (h1 : pr1 = recursive_sol fuel (set_assigned pr t (-1)) (t + 1)) :
    (∀ w, w < pr.P → WorkerFree pr1.busy (task_at pr t).starting_date w →
      (∀ v, v < w → ¬ WorkerFree pr1.busy (task_at pr t).starting_date v) →
      first_free pr1.busy (task_at pr1 t).starting_date pr1.P = w ∧
      recursive_sol (fuel + 1) pr t =
        restore_state pr1 (recursive_sol fuel (include_state pr1 t w) (t + 1)) t w) ∧
    ((∀ w, w < pr.P → ¬ WorkerFree pr1.busy (task_at pr t).starting_date w) ↔
      ¬ first_free pr1.busy (task_at pr1 t).starting_date pr1.P < pr1.P) ∧
    (¬ first_free pr1.busy (task_at pr1 t).starting_date pr1.P < pr1.P →
      recursive_sol (fuel + 1) pr t = pr1) := by
  have hst : Static pr pr1 t := by
    rw [h1]
    exact (set_assigned_static pr t (-1)).trans_succ (recursive_sol_static fuel _ _)
  have hP : pr1.P = pr.P := hst.1
  have hkey := task_at_key_of_map pr pr1 t hst.2.1
  rw [key_eq_iff] at hkey
  have hstart : (task_at pr1 t).starting_date = (task_at pr t).starting_date := hkey.1
  have hsucc := recursive_sol_succ fuel pr t ht
  rw [← h1] at hsucc
  rw [hstart, hP] at hsucc ⊢
  refine ⟨?_, ?_, ?_⟩
  · intro w hw hfree hmin
    rw [workerFree_iff _ _ _ hs] at hfree
    have hff : first_free pr1.busy (task_at pr t).starting_date pr.P = w := by
      apply first_free_eq_of_lowest _ _ _ _ hw hfree
      intro v hv
      have := hmin v hv
      rw [workerFree_iff _ _ _ hs] at this
      omega
    refine ⟨hff, ?_⟩
    rw [hsucc, hff, if_pos hw]
  · constructor
    · intro hall hlt
      have := first_free_free pr1.busy (task_at pr t).starting_date pr.P hlt
      exact hall _ hlt ((workerFree_iff _ _ _ hs).2 this)
    · intro hnot w hw hfree
      rw [workerFree_iff _ _ _ hs] at hfree
      have := first_free_le_of_free pr1.busy (task_at pr t).starting_date pr.P w hfree
      omega
  · intro hnot
    rw [hsucc, if_neg hnot]

/-- C14, as stated, fails for a negative starting date: with one worker and the
single task `[-5,-3]` the worker is idle (`busy = -1`) when the task is considered,
yet the scan passes it (`-1 >= -5`) and the include branch is skipped: the search
has the all-exclude leaf only. -/
theorem idle_worker_passed_over :
    (task_at (initial_state Heap.zero (mk_problem 1 [mk_task (-5) (-3) 10])) 0).starting_date
      = -5 ∧
    WorkerFree (initial_state Heap.zero (mk_problem 1 [mk_task (-5) (-3) 10])).busy (-5) 0 ∧
    first_free (initial_state Heap.zero (mk_problem 1 [mk_task (-5) (-3) 10])).busy (-5) 1 = 1 ∧
    recursive_sol 2 (initial_state Heap.zero (mk_problem 1 [mk_task (-5) (-3) 10])) 0 =
      recursive_sol 1
        (set_assigned (initial_state Heap.zero (mk_problem 1 [mk_task (-5) (-3) 10])) 0 (-1)) 1 ∧
    (solution Heap.zero (mk_problem 1 [mk_task (-5) (-3) 10])).n_viable_sol = 1 := by
  decide

theorem include_branch_rule_witness :
    ((0 : Nat) ≠ (initial_state Heap.zero (mk_problem 1 overlapping_pair)).T ∧
      0 ≤ (task_at (initial_state Heap.zero (mk_problem 1 overlapping_pair)) 0).starting_date ∧
      WorkerFree
        (recursive_sol 2
          (set_assigned (initial_state Heap.zero (mk_problem 1 overlapping_pair)) 0 (-1)) 1).busy
        (task_at (initial_state Heap.zero (mk_problem 1 overlapping_pair)) 0).starting_date 0) ∧
    recursive_sol 3 (initial_state Heap.zero (mk_problem 1 overlapping_pair)) 0 =
      restore_state
        (recursive_sol 2
          (set_assigned (initial_state Heap.zero (mk_problem 1 overlapping_pair)) 0 (-1)) 1)
        (recursive_sol 2
          (include_state
            (recursive_sol 2
              (set_assigned (initial_state Heap.zero (mk_problem 1 overlapping_pair)) 0 (-1)) 1)
            0 0) 1)
        0 0 :=
  ⟨⟨by decide, by decide, by decide⟩,
    ((include_branch_rule 2 (initial_state Heap.zero (mk_problem 1 overlapping_pair))
      (recursive_sol 2
        (set_assigned (initial_state Heap.zero (mk_problem 1 overlapping_pair)) 0 (-1)) 1)
      0 (by decide) (by decide) rfl).1 0 (by decide) (by decide)
      (fun v hv => absurd hv (Nat.not_lt_zero v))).2⟩

/-! ## Cells read by the scan -/

/-- The `while` loop and the `for` loop leave the same `p`. -/
theorem for_scan_eq_scan_workers (busy : List Int) (s : Int) (P n p : Nat) :
    for_scan busy s P n p = scan_workers busy s P n p := by
  induction n generalizing p with
  | zero => rfl
  | succ n ih =>
    unfold for_scan scan_workers
    by_cases hp : p < P
    · by_cases hb : busy.getD p 0 < s
      · have : ¬ (busy.getD p 0 ≥ s ∧ p < P) := by omega
        rw [if_pos hp, if_pos hb, if_neg this]
      · have : busy.getD p 0 ≥ s ∧ p < P := ⟨by omega, hp⟩
        rw [if_pos hp, if_neg hb, if_pos this, ih]
    · have : ¬ (busy.getD p 0 ≥ s ∧ p < P) := fun h => hp h.2
      rw [if_neg hp, if_neg this]

/-- The `for` loop reads worker cells only. -/
theorem for_reads_lt (busy : List Int) (s : Int) (P n p : Nat) :
    ∀ i ∈ for_reads busy s P n p, i < P := by
  induction n generalizing p with
  | zero => intro i hi; simp [for_reads] at hi
  | succ n ih =>
    intro i hi
    unfold for_reads at hi
    split at hi
    · rename_i hp
      rcases List.mem_cons.1 hi with rfl | hi
      · exact hp
      · split at hi
        · simp at hi
        · exact ih _ i hi
    · simp at hi

/-- When no worker is free the `while` loop reads the cell of index `P`. -/
theorem scan_reads_full (busy : List Int) (s : Int) (P n p : Nat) (hp : p ≤ P)
    (hn : P < n + p) (hfull : scan_workers busy s P n p = P) :
    P ∈ scan_reads busy s P n p := by
  induction n generalizing p with
  | zero => omega
  | succ n ih =>
    unfold scan_workers at hfull
    unfold scan_reads
    split at hfull
    · rename_i hc
      rw [if_pos hc]
      exact List.mem_cons_of_mem _ (ih (p + 1) hc.2 (by omega) hfull)
    · subst hfull
      exact List.mem_cons_self _ _

/-- C17, on the code: the `while` loop tests `busy[p] >= starting_date` before
`p < P`.  With one worker busy until `2` and a task starting at `1` (the include
branch of the second of the tasks `[0,2]`, `[1,3]` under the first) it reads the
cells `0` and `1`, the `for` loop the cell `0` only, both leaving `p = 1`; with
`MAX_P` workers all busy it reads the cell of index `MAX_P`, past the array. -/
theorem while_scan_reads_cell_P :
    (include_state
        (recursive_sol 2
          (set_assigned (initial_state Heap.zero (mk_problem 1 overlapping_pair)) 0 (-1)) 1)
        0 0, 1) ∈
      call_entries 3 (initial_state Heap.zero (mk_problem 1 overlapping_pair)) 0 ∧
    (include_state
        (recursive_sol 2
          (set_assigned (initial_state Heap.zero (mk_problem 1 overlapping_pair)) 0 (-1)) 1)
        0 0).busy = [2, 0, 0, 0, 0, 0, 0, 0, 0, 0] ∧
    scan_reads [2, 0, 0, 0, 0, 0, 0, 0, 0, 0] 1 1 2 0 = [0, 1] ∧
    for_reads [2, 0, 0, 0, 0, 0, 0, 0, 0, 0] 1 1 2 0 = [0] ∧
    scan_workers [2, 0, 0, 0, 0, 0, 0, 0, 0, 0] 1 1 2 0 = 1 ∧
    for_scan [2, 0, 0, 0, 0, 0, 0, 0, 0, 0] 1 1 2 0 = 1 ∧
    (List.replicate MAX_P (0 : Int)).length = MAX_P ∧
    scan_reads (List.replicate MAX_P 0) 0 MAX_P (MAX_P + 1) 0 =
      [0, 1, 2, 3, 4, 5, 6, 7, 8, 9, 10] ∧
    for_reads (List.replicate MAX_P 0) 0 MAX_P (MAX_P + 1) 0 =
      [0, 1, 2, 3, 4, 5, 6, 7, 8, 9] := by
  decide

/-! ## The histogram index at a leaf -/

/-- Whenever first-fit accepts the selection of all tasks and no profit is negative,
the leaf that takes every task uses the index `profit_limit`, one past the last cell
of the histogram block. -/
theorem full_selection_index_outside (heap : Heap) (pr : Problem)
    (hP : pr.P ≤ pr.busy.length) (hprofit : ∀ tk ∈ pr.task, 0 ≤ tk.profit)
    (hall : first_fit_ok pr.P pr.task (List.replicate pr.task.length true)
      (List.replicate pr.P (-1)) = true) :
    (solution heap pr).profit_occurrence_arr.length = (profit_sum pr.task).toNat ∧
    profit_sum pr.task ∈ (solution heap pr).hist_oob := by
  obtain ⟨hlen, _, hoob⟩ := solution_histogram heap pr hP
  refine ⟨hlen, ?_⟩
  have hsum : profit_sum pr.task = (pr.task.map Task.profit).sum := by
    unfold profit_sum
    have : ∀ (l : List Int) (acc : Int), l.foldl (fun s x => s + x) acc = acc + l.sum := by
      intro l
      induction l with
      | nil => intro acc; simp
      | cons x l ih => intro acc; simp [ih, add_assoc]
    simpa using this (pr.task.map Task.profit) 0
  have hnn : 0 ≤ profit_sum pr.task := by
    rw [hsum]; exact (profit_of_le_sum pr.task hprofit []).2
  rw [hoob, List.mem_filter]
  constructor
  · unfold leaf_profits
    rw [List.mem_map]
    refine ⟨List.replicate pr.task.length true, ?_, ?_⟩
    · rw [mem_search]
      exact ⟨by simp, hall⟩
    · rw [profit_of_all, hsum]
  · simp only [decide_eq_true_eq]
    intro h
    have := h.2
    omega

/-- C16, on the code: with one worker and the single task `[0,1]` of profit `5`,
`solution` allocates a histogram block of `profit_limit = 5` cells, and the leaf
reached through the include branch is entered with `current_sol_profit = 5`: the
index it uses is no index of the block. -/
theorem leaf_index_outside_block :
    (initial_state Heap.zero (mk_problem 1 [mk_task 0 1 5])).profit_occurrence_arr.length = 5 ∧
    (include_state
        (recursive_sol 1
          (set_assigned (initial_state Heap.zero (mk_problem 1 [mk_task 0 1 5])) 0 (-1)) 1)
        0 0, 1) ∈
      call_entries 2 (initial_state Heap.zero (mk_problem 1 [mk_task 0 1 5])) 0 ∧
    (include_state
        (recursive_sol 1
          (set_assigned (initial_state Heap.zero (mk_problem 1 [mk_task 0 1 5])) 0 (-1)) 1)
        0 0).T = 1 ∧
    (include_state
        (recursive_sol 1
          (set_assigned (initial_state Heap.zero (mk_problem 1 [mk_task 0 1 5])) 0 (-1)) 1)
        0 0).current_sol_profit = 5 ∧
    (include_state
        (recursive_sol 1
          (set_assigned (initial_state Heap.zero (mk_problem 1 [mk_task 0 1 5])) 0 (-1)) 1)
        0 0).profit_occurrence_arr.length = 5 ∧
    (solution Heap.zero (mk_problem 1 [mk_task 0 1 5])).hist_oob = [5] := by
  decide

/-! ## The number of leaves -/

theorem recursive_sol_busy (fuel : Nat) :
    ∀ (pr : Problem) (t : Nat), (recursive_sol fuel pr t).busy = pr.busy ∧
      (recursive_sol fuel pr t).current_sol_profit = pr.current_sol_profit := by
  induction fuel with
  | zero => intro pr t; exact ⟨rfl, rfl⟩
  | succ fuel ih =>
    intro pr t
    by_cases ht : t = pr.T
    · rw [recursive_sol, if_pos ht]
      obtain ⟨h1, _, h3, _⟩ := leaf_frame pr
      exact ⟨h1, h3⟩
    · rw [recursive_sol_succ fuel pr t ht]
      have h1 := ih (set_assigned pr t (-1)) (t + 1)
      split
      · constructor
        · show List.set _ _ _ = _
          rw [(ih _ _).1]
          show List.set (List.set _ _ _) _ _ = _
          rw [set_set_getD]
          exact h1.1
        · exact h1.2
      · exact h1

theorem call_entries_succ (fuel : Nat) (pr : Problem) (t : Nat) (ht : t ≠ pr.T) :
    call_entries (fuel + 1) pr t =
      (pr, t) ::
        (call_entries fuel (set_assigned pr t (-1)) (t + 1) ++
          (if first_free (recursive_sol fuel (set_assigned pr t (-1)) (t + 1)).busy
              (task_at (recursive_sol fuel (set_assigned pr t (-1)) (t + 1)) t).starting_date
              (recursive_sol fuel (set_assigned pr t (-1)) (t + 1)).P <
              (recursive_sol fuel (set_assigned pr t (-1)) (t + 1)).P then
            call_entries fuel
              (include_state (recursive_sol fuel (set_assigned pr t (-1)) (t + 1)) t
                (first_free (recursive_sol fuel (set_assigned pr t (-1)) (t + 1)).busy
                  (task_at (recursive_sol fuel (set_assigned pr t (-1)) (t + 1)) t).starting_date
                  (recursive_sol fuel (set_assigned pr t (-1)) (t + 1)).P))
              (t + 1)
          else [])) := by
  rw [call_entries, if_neg ht]

theorem call_entries_leaf (fuel : Nat) (pr : Problem) (t : Nat) (ht : t = pr.T) :
    call_entries (fuel + 1) pr t = [(pr, t)] := by
  rw [call_entries, if_pos ht]

/-- The leaves entered by the search are the leaves of its trace. -/
theorem leaf_calls_eq_search (ts : List Task) :
    ∀ (fuel : Nat) (pr : Problem) (t : Nat),
      (pr.task.drop t).map Task.key = ts.map Task.key →
      t + ts.length = pr.task.length → ts.length < fuel →
      leaf_calls fuel pr t = (search pr.P ts pr.busy).length := by
  induction ts with
  | nil =>
    intro fuel pr t _ hlen hfuel
    obtain ⟨f, rfl⟩ : ∃ f, fuel = f + 1 := ⟨fuel - 1, by simp at hfuel; omega⟩
    have ht : t = pr.T := by simpa [Problem.T] using hlen
    subst ht
    rw [leaf_calls, call_entries_leaf f pr pr.T rfl]
    simp [search]
  | cons tk ts ih =>
    intro fuel pr t hkey hlen hfuel
    obtain ⟨f, rfl⟩ : ∃ f, fuel = f + 1 := ⟨fuel - 1, by simp at hfuel; omega⟩
    have hne : t ≠ pr.T := by simp [Problem.T] at hlen ⊢; omega
    have hdrop : ∀ (q : Problem), q.task.map Task.key = pr.task.map Task.key →
        (q.task.drop (t + 1)).map Task.key = ts.map Task.key := by
      intro q hq
      have h1 : (q.task.drop t).map Task.key = (tk :: ts).map Task.key := by
        rw [List.map_drop, hq, ← List.map_drop]; exact hkey
      have h2 := congrArg List.tail h1
      simpa [← List.map_drop, ← List.drop_one, List.drop_drop, Nat.add_comm] using h2
    have hlenq : ∀ (q : Problem), q.task.map Task.key = pr.task.map Task.key →
        q.task.length = pr.task.length := by
      intro q hq
      simpa using congrArg List.length hq
    have hsa := set_assigned_static pr t (-1)
    have hst := hsa.trans_succ (recursive_sol_static f (set_assigned pr t (-1)) (t + 1))
    have hb1 : (recursive_sol f (set_assigned pr t (-1)) (t + 1)).busy = pr.busy :=
      (recursive_sol_busy f _ _).1
    have hk := task_at_key_of_map pr _ t hst.2.1
    rw [key_eq_iff] at hk
    have hk0 := task_at_key pr t tk ts hkey
    rw [key_eq_iff] at hk0
    have e1 := ih f (set_assigned pr t (-1)) (t + 1) (hdrop _ hsa.2.1)
      (by rw [hlenq _ hsa.2.1]; simp at hlen; omega) (by simp at hfuel; omega)
    have hnot : ∀ (q : Problem), q.task.map Task.key = pr.task.map Task.key →
        ¬ t = q.T := by
      intro q hq
      simp only [Problem.T, hlenq q hq]
      exact hne
    unfold leaf_calls at e1 ⊢
    rw [call_entries_succ f pr t hne, hb1, hst.1, hk.1, hk0.1]
    simp only [List.filter_cons, hne, decide_False, List.filter_append, List.length_append,
      search, List.length_map, Bool.false_eq_true, if_false]
    rw [e1]
    show (search pr.P ts pr.busy).length + _ = _
    by_cases hp : first_free pr.busy tk.starting_date pr.P < pr.P
    · simp only [if_pos hp, List.length_map]
      have hinc := include_state_static (recursive_sol f (set_assigned pr t (-1)) (t + 1)) t
        (first_free pr.busy tk.starting_date pr.P)
      have hkey2 := hinc.2.1.trans hst.2.1
      have e2 := ih f _ (t + 1) (hdrop _ hkey2)
        (by rw [hlenq _ hkey2]; simp at hlen; omega) (by simp at hfuel; omega)
      unfold leaf_calls at e2
      rw [e2]
      have hbi : (include_state (recursive_sol f (set_assigned pr t (-1)) (t + 1)) t
          (first_free pr.busy tk.starting_date pr.P)).busy =
          pr.busy.set (first_free pr.busy tk.starting_date pr.P) tk.ending_date := by
        show List.set _ _ _ = _
        rw [hb1, hk.2.1, hk0.2.1]
      have hPi : (include_state (recursive_sol f (set_assigned pr t (-1)) (t + 1)) t
          (first_free pr.busy tk.starting_date pr.P)).P = pr.P := hst.1
      rw [hbi, hPi]
    · simp [if_neg hp]

theorem solution_leaf_calls (heap : Heap) (pr : Problem) :
    leaf_calls (pr.T + 1) (initial_state heap pr) 0 =
      (search pr.P pr.task (reset_busy pr.busy pr.P)).length :=
  leaf_calls_eq_search pr.task (pr.T + 1) (initial_state heap pr) 0 (by simp [initial_state])
    (by simp [initial_state]) (by simp [Problem.T])

theorem search_length_le (P : Nat) (ts : List Task) (busy : List Int) :
    (search P ts busy).length ≤ 2 ^ ts.length := by
  rw [search_eq_filter]
  exact le_trans (List.length_filter_le _ _) (le_of_eq (masks_length _))

/-- C11 (amended). The leaf counter holds the number of leaves modulo `2^64`: after
`solution`, `n_viable_sol` is the number of leaves entered during the search reduced
modulo `ULONG_MOD`; there are at most `2^T` leaves, so that the counter is the number
of leaves itself, without wrap-around, whenever `T <= 63`. -/
theorem counter_is_leaves_mod (heap : Heap) (pr : Problem) :
    (solution heap pr).n_viable_sol =
      leaf_calls (pr.T + 1) (initial_state heap pr) 0 % ULONG_MOD ∧
    leaf_calls (pr.T + 1) (initial_state heap pr) 0 ≤ 2 ^ pr.T ∧
    (pr.T ≤ 63 → (solution heap pr).n_viable_sol =
      leaf_calls (pr.T + 1) (initial_state heap pr) 0) := by
  have hn : (solution heap pr).n_viable_sol =
      leaf_calls (pr.T + 1) (initial_state heap pr) 0 % ULONG_MOD := by
    rw [solution_n_viable_sol,
      fold_leaves_count _ _ _ _ _ (by simp [initial_result, ULONG_MOD]), solution_leaf_calls]
    simp [initial_result]
  have hle : leaf_calls (pr.T + 1) (initial_state heap pr) 0 ≤ 2 ^ pr.T := by
    rw [solution_leaf_calls]
    exact search_length_le _ _ _
  refine ⟨hn, hle, ?_⟩
  intro hT
  rw [hn]
  apply Nat.mod_eq_of_lt
  have h2 : 2 ^ pr.T < 2 ^ 64 := Nat.pow_lt_pow_right (by norm_num) (by omega)
  simp only [ULONG_MOD]
  omega

theorem counter_is_leaves_mod_witness :
    (mk_problem 1 overlapping_pair).T ≤ 63 ∧
    (solution Heap.zero (mk_problem 1 overlapping_pair)).n_viable_sol =
      leaf_calls ((mk_problem 1 overlapping_pair).T + 1)
        (initial_state Heap.zero (mk_problem 1 overlapping_pair)) 0 :=
  ⟨by decide, (counter_is_leaves_mod Heap.zero (mk_problem 1 overlapping_pair)).2.2 (by decide)⟩

/-- C11, as stated, fails at `T = MAX_T`: on the 64 pairwise disjoint tasks `chain 64`
with `MAX_P` workers the search enters `2^64` leaves and the counter is back at `0`. -/
theorem counter_wraps_at_max_T :
    (mk_problem MAX_P (chain 64)).T ≤ MAX_T ∧
    leaf_calls ((mk_problem MAX_P (chain 64)).T + 1)
      (initial_state Heap.zero (mk_problem MAX_P (chain 64))) 0 = 2 ^ 64 ∧
    (solution Heap.zero (mk_problem MAX_P (chain 64))).n_viable_sol = 0 ∧
    (solution Heap.zero (mk_problem MAX_P (chain 64))).n_viable_sol ≠
      leaf_calls ((mk_problem MAX_P (chain 64)).T + 1)
        (initial_state Heap.zero (mk_problem MAX_P (chain 64))) 0 := by
  have hgen : ∀ ts : List Task,
      leaf_calls ((mk_problem MAX_P ts).T + 1) (initial_state Heap.zero (mk_problem MAX_P ts)) 0
        = reference_count MAX_P ts := fun ts => by
    rw [solution_leaf_calls]
    exact search_length_eq_reference (mk_problem MAX_P ts)
      (show MAX_P ≤ (List.replicate MAX_P (0 : Int)).length by simp)
  have hc : reference_count MAX_P (chain 64) = 2 ^ 64 := by
    have := reference_count_of_disjoint MAX_P (by decide) (chain 64) (chain_disjoint 64)
      (fun tk h => (chain_dates 64 tk h).1)
    rwa [chain_length] at this
  have hT : (mk_problem MAX_P (chain 64)).T = 64 := chain_length 64
  have hl := hgen (chain 64)
  rw [hc] at hl
  have hn : (solution Heap.zero (mk_problem MAX_P (chain 64))).n_viable_sol = 0 := by
    have hgen2 : ∀ ts : List Task, (solution Heap.zero (mk_problem MAX_P ts)).n_viable_sol =
        reference_count MAX_P ts % ULONG_MOD := fun ts =>
      solution_count Heap.zero (mk_problem MAX_P ts)
        (show MAX_P ≤ (List.replicate MAX_P (0 : Int)).length by simp)
    rw [hgen2, hc]
    simp [ULONG_MOD]
  refine ⟨by rw [hT]; decide, hl, hn, ?_⟩
  rw [hn, hl]
  norm_num

/-! ## Termination -/

theorem recursive_sol_fuel_spec (fuel : Nat) :
    ∀ (pr : Problem) (t : Nat), t ≤ pr.T →
      (pr.T - t < fuel → recursive_sol_fuel fuel pr t = some (recursive_sol fuel pr t)) ∧
      (fuel ≤ pr.T - t → recursive_sol_fuel fuel pr t = none) := by
  induction fuel with
  | zero =>
    intro pr t _
    exact ⟨fun h => absurd h (Nat.not_lt_zero _), fun _ => rfl⟩
  | succ fuel ih =>
    intro pr t ht
    by_cases hT : t = pr.T
    · constructor
      · intro _
        rw [recursive_sol_fuel, if_pos hT, recursive_sol, if_pos hT]
      · intro h; omega
    · have hTa : (set_assigned pr t (-1)).T = pr.T :=
        (set_assigned_static pr t (-1)).T_eq
      have h1 := ih (set_assigned pr t (-1)) (t + 1) (by rw [hTa]; omega)
      rw [hTa] at h1
      constructor
      · intro hf
        have e1 := h1.1 (by omega)
        have hT1 : (recursive_sol fuel (set_assigned pr t (-1)) (t + 1)).T = pr.T :=
          ((set_assigned_static pr t (-1)).trans_succ (recursive_sol_static fuel _ _)).T_eq
        rw [recursive_sol_fuel, if_neg hT, e1, recursive_sol_succ fuel pr t hT]
        dsimp only
        split
        · have hTi : (include_state (recursive_sol fuel (set_assigned pr t (-1)) (t + 1)) t
              (first_free (recursive_sol fuel (set_assigned pr t (-1)) (t + 1)).busy
                (task_at (recursive_sol fuel (set_assigned pr t (-1)) (t + 1)) t).starting_date
                (recursive_sol fuel (set_assigned pr t (-1)) (t + 1)).P)).T = pr.T :=
            ((include_state_static _ _ _).T_eq).trans hT1
          have h2 := ih (include_state (recursive_sol fuel (set_assigned pr t (-1)) (t + 1)) t
              (first_free (recursive_sol fuel (set_assigned pr t (-1)) (t + 1)).busy
                (task_at (recursive_sol fuel (set_assigned pr t (-1)) (t + 1)) t).starting_date
                (recursive_sol fuel (set_assigned pr t (-1)) (t + 1)).P)) (t + 1)
              (by rw [hTi]; omega)
          rw [hTi] at h2
          rw [h2.1 (by omega)]
        · rfl
      · intro hf
        rw [recursive_sol_fuel, if_neg hT, h1.2 (by omega)]

/-- Beyond the depth of the recursion the allowance has no influence on the result. -/
theorem recursive_sol_fuel_indep (fuel fuel' : Nat) (pr : Problem) (t : Nat) (ht : t ≤ pr.T)
    (h : pr.T - t < fuel) (h' : pr.T - t < fuel') :
    recursive_sol fuel pr t = recursive_sol fuel' pr t := by
  have e1 := (recursive_sol_fuel_spec fuel pr t ht).1 h
  have e2 := (recursive_sol_fuel_spec fuel' pr t ht).1 h'
  have key : ∀ (f1 f2 : Nat) (q : Problem) (u : Nat), u ≤ q.T → q.T - u < f1 → q.T - u < f2 →
      recursive_sol_fuel f1 q u = recursive_sol_fuel f2 q u := by
    intro f1
    induction f1 with
    | zero => intro f2 q u _ h1; omega
    | succ f1 ih =>
      intro f2 q u hu h1 h2
      obtain ⟨g, rfl⟩ : ∃ g, f2 = g + 1 := ⟨f2 - 1, by omega⟩
      by_cases hT : u = q.T
      · rw [recursive_sol_fuel, if_pos hT, recursive_sol_fuel, if_pos hT]
      · have hTa : (set_assigned q u (-1)).T = q.T := (set_assigned_static q u (-1)).T_eq
        have ea := ih g (set_assigned q u (-1)) (u + 1) (by rw [hTa]; omega)
          (by rw [hTa]; omega) (by rw [hTa]; omega)
        rw [recursive_sol_fuel, if_neg hT, recursive_sol_fuel, if_neg hT, ea]
        cases hx : recursive_sol_fuel g (set_assigned q u (-1)) (u + 1) with
        | none => rfl
        | some pr1 =>
          dsimp only
          have hs := (recursive_sol_fuel_spec g (set_assigned q u (-1)) (u + 1)
            (by rw [hTa]; omega)).1 (by rw [hTa]; omega)
          rw [hx] at hs
          have hpr1 : pr1 = recursive_sol g (set_assigned q u (-1)) (u + 1) :=
            Option.some.inj hs
          have hT1 : pr1.T = q.T := by
            rw [hpr1]
            exact ((set_assigned_static q u (-1)).trans_succ (recursive_sol_static g _ _)).T_eq
          split
          · have hTi : (include_state pr1 u
                (first_free pr1.busy (task_at pr1 u).starting_date pr1.P)).T = q.T :=
              ((include_state_static _ _ _).T_eq).trans hT1
            rw [ih g _ (u + 1) (by rw [hTi]; omega) (by rw [hTi]; omega) (by rw [hTi]; omega)]
          · rfl
  have := key fuel fuel' pr t ht h h'
  rw [e1, e2] at this
  exact Option.some.inj this

theorem scan_workers_fuel_indep (busy : List Int) (s : Int) (P : Nat) :
    ∀ (n n' p : Nat), p ≤ P → P < n + p → P < n' + p →
      scan_workers busy s P n p = scan_workers busy s P n' p := by
  intro n
  induction n with
  | zero => intro n' p hp h; omega
  | succ n ih =>
    intro n' p hp h h'
    obtain ⟨m, rfl⟩ : ∃ m, n' = m + 1 := ⟨n' - 1, by omega⟩
    unfold scan_workers
    split
    · rename_i hc
      exact ih m (p + 1) hc.2 (by omega) (by omega)
    · rfl

theorem call_count_le (fuel : Nat) :
    ∀ (pr : Problem) (t : Nat), t ≤ pr.T → pr.T - t < fuel →
      call_count fuel pr t + 1 ≤ 2 ^ (pr.T - t + 1) := by
  induction fuel with
  | zero => intro pr t _ h; omega
  | succ fuel ih =>
    intro pr t ht hf
    by_cases hT : t = pr.T
    · rw [call_count, call_entries_leaf fuel pr t hT]
      have : 1 ≤ 2 ^ (pr.T - t) := Nat.one_le_two_pow
      simp [pow_succ]
      omega
    · have hTa : (set_assigned pr t (-1)).T = pr.T := (set_assigned_static pr t (-1)).T_eq
      have h1 := ih (set_assigned pr t (-1)) (t + 1) (by rw [hTa]; omega) (by rw [hTa]; omega)
      rw [hTa] at h1
      have hT1 : (recursive_sol fuel (set_assigned pr t (-1)) (t + 1)).T = pr.T :=
        ((set_assigned_static pr t (-1)).trans_succ (recursive_sol_static fuel _ _)).T_eq
      have hpow : 2 ^ (pr.T - t + 1) = 2 * 2 ^ (pr.T - (t + 1) + 1) := by
        have : pr.T - t = pr.T - (t + 1) + 1 := by omega
        rw [this, pow_succ, Nat.mul_comm]
      rw [call_count, call_entries_succ fuel pr t hT, hpow]
      simp only [List.length_cons, List.length_append]
      unfold call_count at h1
      split
      · have hTi : (include_state (recursive_sol fuel (set_assigned pr t (-1)) (t + 1)) t
            (first_free (recursive_sol fuel (set_assigned pr t (-1)) (t + 1)).busy
              (task_at (recursive_sol fuel (set_assigned pr t (-1)) (t + 1)) t).starting_date
              (recursive_sol fuel (set_assigned pr t (-1)) (t + 1)).P)).T = pr.T :=
          ((include_state_static _ _ _).T_eq).trans hT1
        have h2 := ih (include_state (recursive_sol fuel (set_assigned pr t (-1)) (t + 1)) t
            (first_free (recursive_sol fuel (set_assigned pr t (-1)) (t + 1)).busy
              (task_at (recursive_sol fuel (set_assigned pr t (-1)) (t + 1)) t).starting_date
              (recursive_sol fuel (set_assigned pr t (-1)) (t + 1)).P)) (t + 1)
            (by rw [hTi]; omega) (by rw [hTi]; omega)
        rw [hTi] at h2
        unfold call_count at h2
        omega
      · simp only [List.length_nil]
        omega

/-- C12. The search is total: for `t <= T`, `recursive_sol(pr, t)` returns as soon as
`T - t + 1` nested calls are allowed, with a result that does not depend on the
allowance, and does not return within `T - t` nested calls, so that its recursion
depth is exactly `T - t`; it makes fewer than `2^(T-t+1)` calls; the scan of the
workers leaves its loop within `P + 1` tests of its condition; and `solution`
returns, with recursion depth exactly `T`. -/
theorem search_is_total (heap : Heap) (pr : Problem) (t : Nat) (ht : t ≤ pr.T) :
    (∀ fuel, pr.T - t < fuel →
      recursive_sol_fuel fuel pr t = some (recursive_sol (pr.T - t + 1) pr t)) ∧
    (∀ fuel, fuel ≤ pr.T - t → recursive_sol_fuel fuel pr t = none) ∧
    call_count (pr.T - t + 1) pr t < 2 ^ (pr.T - t + 1) ∧
    (∀ (busy : List Int) (s : Int) (n : Nat), pr.P < n →
      scan_workers busy s pr.P n 0 = first_free busy s pr.P ∧
      ¬ (busy.getD (first_free busy s pr.P) 0 ≥ s ∧ first_free busy s pr.P < pr.P)) ∧
    recursive_sol_fuel (pr.T + 1) (initial_state heap pr) 0 = some (solution heap pr) ∧
    recursive_sol_fuel pr.T (initial_state heap pr) 0 = none := by
  refine ⟨?_, ?_, ?_, ?_, ?_, ?_⟩
  · intro fuel hf
    rw [(recursive_sol_fuel_spec fuel pr t ht).1 hf,
      recursive_sol_fuel_indep fuel (pr.T - t + 1) pr t ht hf (by omega)]
  · intro fuel hf
    exact (recursive_sol_fuel_spec fuel pr t ht).2 hf
  · have := call_count_le (pr.T - t + 1) pr t ht (by omega)
    omega
  · intro busy s n hn
    constructor
    · exact scan_workers_fuel_indep busy s pr.P n (pr.P + 1) 0 (Nat.zero_le _) (by omega)
        (by omega)
    · intro hc
      have := first_free_free busy s pr.P hc.2
      omega
  · have hT0 : (initial_state heap pr).T = pr.T := rfl
    have := (recursive_sol_fuel_spec (pr.T + 1) (initial_state heap pr) 0 (Nat.zero_le _)).1
      (by rw [hT0]; omega)
    rw [this, solution_eq]
  · have hT0 : (initial_state heap pr).T = pr.T := rfl
    exact (recursive_sol_fuel_spec pr.T (initial_state heap pr) 0 (Nat.zero_le _)).2
      (by rw [hT0]; omega)

theorem search_is_total_witness :
    (1 ≤ (mk_problem 1 overlapping_pair).T ∧ (2 - 1 : Nat) < 2 ∧ (1 : Nat) < 2) ∧
    recursive_sol_fuel 2 (mk_problem 1 overlapping_pair) 1 =
      some (recursive_sol ((mk_problem 1 overlapping_pair).T - 1 + 1)
        (mk_problem 1 overlapping_pair) 1) ∧
    recursive_sol_fuel 1 (mk_problem 1 overlapping_pair) 1 = none ∧
    scan_workers [5] 3 (mk_problem 1 overlapping_pair).P 2 0 =
      first_free [5] 3 (mk_problem 1 overlapping_pair).P :=
  have h := search_is_total Heap.zero (mk_problem 1 overlapping_pair) 1 (by decide)
  ⟨⟨by decide, by decide, by decide⟩, h.1 2 (by decide), h.2.1 1 (by decide),
    (h.2.2.2.1 [5] 3 2 (by decide)).1⟩

/-! ## Backtracking -/

theorem eq_take_append_zeros (l : List Int) (t T : Nat) (hlen : l.length = T)
    (hzero : ∀ i, t ≤ i → i < T → l.getD i 0 = 0) :
    l = l.take t ++ List.replicate (T - t) 0 := by
  have hd : l.drop t = List.replicate (T - t) 0 := by
    rw [List.eq_replicate_iff]
    refine ⟨by simp [hlen], ?_⟩
    intro b hb
    obtain ⟨i, hi⟩ := List.mem_iff_getElem?.1 hb
    rw [List.getElem?_drop] at hi
    have hlt : t + i < l.length := (List.getElem?_eq_some.1 hi).1
    have := hzero (t + i) (by omega) (by omega)
    rw [List.getD_eq_getElem?_getD, hi] at this
    simpa using this
  conv_lhs => rw [← List.take_append_drop t l, hd]

/-- What a call `recursive_sol(pr, t)` restores, for a state whose cells
`current_sol[t .. T-1]` hold `0`. -/
theorem recursive_sol_restores (fuel : Nat) (pr : Problem) (t : Nat) (ht : t ≤ pr.T)
    (hfuel : pr.T - t < fuel) (hlen : pr.current_sol.length = pr.T)
    (hzero : ∀ i, t ≤ i → i < pr.T → pr.current_sol.getD i 0 = 0) :
    Frame pr (recursive_sol fuel pr t) ∧ Static pr (recursive_sol fuel pr t) t := by
  refine ⟨?_, recursive_sol_static fuel pr t⟩
  have hT : pr.T = pr.task.length := rfl
  exact (recursive_sol_trace (pr.task.drop t) fuel pr t (pr.current_sol.take t) rfl
    (by simp; omega) (by simp; omega)
    (by
      have := eq_take_append_zeros pr.current_sol t pr.T hlen hzero
      simpa [hT] using this)
    (by simp; omega)).1

/-- C13. Backtracking restores the search state: for `t <= T` and a state in which
`current_sol[i] = 0` for every `i >= t`, when `recursive_sol(pr, t)` returns, `busy`,
`current_sol_profit` and `current_sol` are exactly what they were when the call was
entered, and so are `P`, `profit_limit`, the dates and profits of all tasks and the
whole of `task[i]` for `i < t`: only the result fields and `task[i].assigned_to` for
`i >= t` may differ. -/
theorem backtracking_restores (pr : Problem) (t : Nat) (ht : t ≤ pr.T)
    (hlen : pr.current_sol.length = pr.T)
    (hzero : ∀ i, t ≤ i → i < pr.T → pr.current_sol.getD i 0 = 0) :
    (recursive_sol (pr.T - t + 1) pr t).busy = pr.busy ∧
    (recursive_sol (pr.T - t + 1) pr t).current_sol_profit = pr.current_sol_profit ∧
    (recursive_sol (pr.T - t + 1) pr t).current_sol = pr.current_sol ∧
    (recursive_sol (pr.T - t + 1) pr t).P = pr.P ∧
    (recursive_sol (pr.T - t + 1) pr t).profit_limit = pr.profit_limit ∧
    (recursive_sol (pr.T - t + 1) pr t).task.length = pr.task.length ∧
    (∀ i, i < t → (recursive_sol (pr.T - t + 1) pr t).task[i]? = pr.task[i]?) ∧
    (∀ i, (task_at (recursive_sol (pr.T - t + 1) pr t) i).starting_date =
        (task_at pr i).starting_date ∧
      (task_at (recursive_sol (pr.T - t + 1) pr t) i).ending_date = (task_at pr i).ending_date ∧
      (task_at (recursive_sol (pr.T - t + 1) pr t) i).profit = (task_at pr i).profit) := by
  obtain ⟨⟨hb, hc, hp, hP, hk, hl⟩, hst⟩ :=
    recursive_sol_restores (pr.T - t + 1) pr t ht (by omega) hlen hzero
  refine ⟨hb, hp, hc, hP, hl, ?_, ?_, ?_⟩
  · simpa using congrArg List.length hk
  · intro i hi
    have := congrArg (fun l => l[i]?) hst.2.2.2.1
    simpa [List.getElem?_take, hi] using this
  · intro i
    have := task_at_key_of_map pr _ i hk
    rwa [key_eq_iff] at this

theorem backtracking_restores_witness :
    ((1 : Nat) ≤ (initial_state Heap.zero (mk_problem 1 overlapping_pair)).T ∧
      (initial_state Heap.zero (mk_problem 1 overlapping_pair)).current_sol.length =
        (initial_state Heap.zero (mk_problem 1 overlapping_pair)).T) ∧
    (recursive_sol 2 (initial_state Heap.zero (mk_problem 1 overlapping_pair)) 1).busy =
      (initial_state Heap.zero (mk_problem 1 overlapping_pair)).busy ∧
    (recursive_sol 2 (initial_state Heap.zero (mk_problem 1 overlapping_pair)) 1).current_sol =
      (initial_state Heap.zero (mk_problem 1 overlapping_pair)).current_sol :=
  have h := backtracking_restores (initial_state Heap.zero (mk_problem 1 overlapping_pair)) 1
    (by decide) (by decide) (by decide)
  ⟨⟨by decide, by decide⟩, h.1, h.2.2.1⟩

/-! ## Tie-break among the best assignments -/

theorem masks_sorted (n : Nat) : (masks n).Pairwise mask_lt := by
  induction n with
  | zero => simp [masks]
  | succ n ih =>
    simp only [masks]
    rw [List.pairwise_append]
    refine ⟨?_, ?_, ?_⟩
    · rw [List.pairwise_map]
      exact ih.imp (fun h => Or.inr ⟨rfl, h⟩)
    · rw [List.pairwise_map]
      exact ih.imp (fun h => Or.inr ⟨rfl, h⟩)
    · intro x hx y hy
      simp only [List.mem_map] at hx hy
      obtain ⟨a, _, rfl⟩ := hx
      obtain ⟨b, _, rfl⟩ := hy
      exact Or.inl ⟨rfl, rfl⟩

theorem search_sorted (P : Nat) (ts : List Task) (busy : List Int) :
    (search P ts busy).Pairwise mask_lt := by
  rw [search_eq_filter]
  exact (masks_sorted _).sublist (List.filter_sublist _)

/-- The best assignment is the first leaf that reaches the final best profit: either
no leaf improved on the initial best profit, or the leaves split as `l1 ++ x :: l2`
where `x` has the final best profit, every leaf of `l1` has a smaller profit, and
`opt_sol` holds the flags of `x`. -/
theorem fold_leaves_first {α : Type} (T : Nat) (f : α → Int) (g : α → List Int)
    (L : List α) (hg : ∀ x ∈ L, (g x).length = T) :
    ∀ r : Result, r.opt_sol.length = T →
      ((fold_leaves T f g r L).total_profit = r.total_profit ∧
        (fold_leaves T f g r L).opt_sol = r.opt_sol) ∨
      ∃ l1 x l2, L = l1 ++ x :: l2 ∧ f x = (fold_leaves T f g r L).total_profit ∧
        r.total_profit < f x ∧ (fold_leaves T f g r L).opt_sol = g x ∧
        ∀ y ∈ l1, f y < f x := by
  induction L with
  | nil => intro r _; left; simp [fold_leaves]
  | cons y L ih =>
    intro r hr
    have hgy : (g y).length = T := hg y (List.mem_cons_self _ _)
    have hg' : ∀ x ∈ L, (g x).length = T := fun x hx => hg x (List.mem_cons_of_mem _ hx)
    rw [fold_leaves_cons]
    by_cases hy : f y > r.total_profit
    · have h1 : (leaf_result T r (f y) (g y)).total_profit = f y := by simp [leaf_result, hy]
      have h2 : (leaf_result T r (f y) (g y)).opt_sol = g y := by
        simp [leaf_result, hy, ← hgy, ← hr.trans hgy.symm]
      rcases ih hg' (leaf_result T r (f y) (g y)) (by rw [h2, hgy]) with
        ⟨e1, e2⟩ | ⟨l1, x, l2, hL, e1, e2, e3, e4⟩
      · right
        exact ⟨[], y, L, rfl, by rw [e1, h1], hy, by rw [e2, h2], by simp⟩
      · right
        rw [h1] at e2
        refine ⟨y :: l1, x, l2, by rw [hL]; rfl, e1, by omega, e3, ?_⟩
        intro z hz
        rcases List.mem_cons.1 hz with rfl | hz
        · exact e2
        · exact e4 z hz
    · have h1 : (leaf_result T r (f y) (g y)).total_profit = r.total_profit := by
        simp [leaf_result, hy]
      have h2 : (leaf_result T r (f y) (g y)).opt_sol = r.opt_sol := by
        simp [leaf_result, hy]
      rcases ih hg' (leaf_result T r (f y) (g y)) (by rw [h2, hr]) with
        ⟨e1, e2⟩ | ⟨l1, x, l2, hL, e1, e2, e3, e4⟩
      · left
        exact ⟨by rw [e1, h1], by rw [e2, h2]⟩
      · right
        rw [h1] at e2
        refine ⟨y :: l1, x, l2, by rw [hL]; rfl, e1, e2, e3, ?_⟩
        intro z hz
        rcases List.mem_cons.1 hz with rfl | hz
        · omega
        · exact e4 z hz

/-- C19. Tie-break among optimal assignments: when `total_profit` is positive after
`solution`, `opt_sol` holds the flags of the first leaf, in enumeration order, whose
profit is `total_profit` (every leaf entered before it has a smaller profit), and
that leaf is the lexicographically smallest flag vector among the selections that
first-fit accepts from idle workers and whose profit is `total_profit`. -/
theorem opt_sol_is_first_best (heap : Heap) (pr : Problem)
    (hP : pr.P ≤ MAX_P) (hbusy : pr.busy.length = MAX_P)
    (hpos : 0 < (solution heap pr).total_profit) :
    ∃ m, (solution heap pr).opt_sol = flags m ∧ m.length = pr.T ∧
      first_fit_ok pr.P pr.task m (List.replicate pr.P (-1)) = true ∧
      profit_of pr.task m = (solution heap pr).total_profit ∧
      (∃ l1 l2, search pr.P pr.task (List.replicate pr.P (-1)) = l1 ++ m :: l2 ∧
        ∀ y ∈ l1, profit_of pr.task y < (solution heap pr).total_profit) ∧
      ∀ m', m'.length = pr.T →
        first_fit_ok pr.P pr.task m' (List.replicate pr.P (-1)) = true →
        profit_of pr.task m' = (solution heap pr).total_profit → m' = m ∨ mask_lt m m' := by
  have hPl : pr.P ≤ pr.busy.length := by rw [hbusy]; exact hP
  have hs := search_reset_busy pr hPl
  rw [solution_total_profit, hs] at hpos
  rw [solution_total_profit, solution_opt_sol, hs]
  rcases fold_leaves_first pr.T (profit_of pr.task) flags
      (search pr.P pr.task (List.replicate pr.P (-1)))
      (fun m hm => mem_search_length _ _ _ m hm) (initial_result heap pr)
      (malloc_ints_length _ _) with ⟨h0, _⟩ | ⟨l1, m, l2, hL, h1, _, h3, h4⟩
  · rw [h0] at hpos
    exact absurd hpos (lt_irrefl _)
  · have hm : m ∈ search pr.P pr.task (List.replicate pr.P (-1)) := by
      rw [hL]; simp
    obtain ⟨hl, hok⟩ := (mem_search _ _ _ m).1 hm
    refine ⟨m, h3, hl, hok, h1, ⟨l1, l2, hL, fun y hy => by rw [← h1]; exact h4 y hy⟩, ?_⟩
    intro m' hl' hok' hp'
    have hm' : m' ∈ search pr.P pr.task (List.replicate pr.P (-1)) :=
      (mem_search _ _ _ m').2 ⟨hl', hok'⟩
    have hsorted := search_sorted pr.P pr.task (List.replicate pr.P (-1))
    rw [hL] at hm' hsorted
    rcases List.mem_append.1 hm' with hin | hin
    · have := h4 m' hin
      rw [hp', h1] at this
      exact absurd this (lt_irrefl _)
    · rcases List.mem_cons.1 hin with rfl | hin
      · exact Or.inl rfl
      · right
        have h5 := (List.pairwise_append.1 hsorted).2.1
        exact (List.pairwise_cons.1 h5).1 m' hin

theorem opt_sol_is_first_best_witness :
    ((mk_problem 1 overlapping_pair).P ≤ MAX_P ∧
      (mk_problem 1 overlapping_pair).busy.length = MAX_P ∧
      0 < (solution Heap.zero (mk_problem 1 overlapping_pair)).total_profit) ∧
    ∃ m, (solution Heap.zero (mk_problem 1 overlapping_pair)).opt_sol = flags m ∧
      m.length = (mk_problem 1 overlapping_pair).T ∧
      first_fit_ok 1 overlapping_pair m (List.replicate 1 (-1)) = true ∧
      profit_of overlapping_pair m =
        (solution Heap.zero (mk_problem 1 overlapping_pair)).total_profit ∧
      (∃ l1 l2, search 1 overlapping_pair (List.replicate 1 (-1)) = l1 ++ m :: l2 ∧
        ∀ y ∈ l1, profit_of overlapping_pair y <
          (solution Heap.zero (mk_problem 1 overlapping_pair)).total_profit) ∧
      ∀ m', m'.length = (mk_problem 1 overlapping_pair).T →
        first_fit_ok 1 overlapping_pair m' (List.replicate 1 (-1)) = true →
        profit_of overlapping_pair m' =
          (solution Heap.zero (mk_problem 1 overlapping_pair)).total_profit →
        m' = m ∨ mask_lt m m' :=
  ⟨⟨by decide, by decide, by decide⟩,
    opt_sol_is_first_best Heap.zero (mk_problem 1 overlapping_pair) (by decide) (by decide)
      (by decide)⟩

/-! ## More workers -/

theorem validAssignment_mono (P P' : Nat) (hPP' : P ≤ P') (ts : List Task) (m : List Bool)
    (a : Nat → Nat) (h : ValidAssignment P ts m a) : ValidAssignment P' ts m a :=
  ⟨fun i hi hm => lt_of_lt_of_le (h.1 i hi hm) hPP', h.2⟩

/-- Every selection that first-fit accepts with `P` idle workers is accepted with
`P' >= P` idle workers. -/
theorem first_fit_ok_mono (P P' : Nat) (hPP' : P ≤ P') (ts : List Task)
    (hsorted : SortedTasks ts) (hdates : DatesOk ts) (m : List Bool)
    (h : first_fit_ok P ts m (List.replicate P (-1)) = true) :
    first_fit_ok P' ts m (List.replicate P' (-1)) = true := by
  obtain ⟨a, ha⟩ := (first_fit_ok_iff P ts m _ hsorted hdates (by simp) (replicate_idle P)).1 h
  exact (first_fit_ok_iff P' ts m _ hsorted hdates (by simp) (replicate_idle P')).2
    ⟨a, validAssignment_mono P P' hPP' ts m a ha⟩

theorem reference_count_mono (P P' : Nat) (hPP' : P ≤ P') (ts : List Task)
    (hsorted : SortedTasks ts) (hdates : DatesOk ts) :
    reference_count P ts ≤ reference_count P' ts := by
  unfold reference_count
  apply List.Sublist.length_le
  apply List.monotone_filter_right
  intro m hm
  exact first_fit_ok_mono P P' hPP' ts hsorted hdates m hm

theorem first_fit_ok_reset_busy (pr : Problem) (hP : pr.P ≤ pr.busy.length) (m : List Bool) :
    first_fit_ok pr.P pr.task m (reset_busy pr.busy pr.P) =
      first_fit_ok pr.P pr.task m (List.replicate pr.P (-1)) := by
  apply first_fit_ok_congr
  · rw [reset_busy_length]; exact hP
  · simp
  · intro w hw
    rw [reset_busy_idle _ _ hP w hw, replicate_idle _ w hw]

/-- C20 (amended). Monotonicity in the number of workers: on sorted tasks with
`0 <= starting_date <= ending_date` and `P <= P' <= MAX_P`, every selection accepted
by first-fit with `P` workers is accepted with `P'` workers, so that the number of
accepted selections and the `total_profit` left by `solution` with `P'` workers are
at least those with `P` workers; the same holds of `n_viable_sol`, which is the
number of accepted selections modulo `2^64`, whenever `T <= 63`. -/
theorem more_workers_monotone (heap heap' : Heap) (pr pr' : Problem)
    (hsorted : SortedTasks pr.task) (hdates : DatesOk pr.task)
    (htask : pr'.task = pr.task) (hPP' : pr.P ≤ pr'.P) (hP' : pr'.P ≤ MAX_P)
    (hbusy : pr.busy.length = MAX_P) (hbusy' : pr'.busy.length = MAX_P) :
    (∀ m, first_fit_ok pr.P pr.task m (List.replicate pr.P (-1)) = true →
      first_fit_ok pr'.P pr.task m (List.replicate pr'.P (-1)) = true) ∧
    reference_count pr.P pr.task ≤ reference_count pr'.P pr.task ∧
    (solution heap pr).total_profit ≤ (solution heap' pr').total_profit ∧
    (pr.T ≤ 63 → (solution heap pr).n_viable_sol ≤ (solution heap' pr').n_viable_sol) := by
  have hPl : pr.P ≤ pr.busy.length := by rw [hbusy]; omega
  have hPl' : pr'.P ≤ pr'.busy.length := by rw [hbusy']; exact hP'
  have hmono := reference_count_mono pr.P pr'.P hPP' pr.task hsorted hdates
  refine ⟨fun m hm => first_fit_ok_mono pr.P pr'.P hPP' pr.task hsorted hdates m hm,
    hmono, ?_, ?_⟩
  · rcases solution_attained heap pr with ⟨h0, _⟩ | ⟨m, hl, hok, hpm, _, _⟩
    · rw [h0]; exact solution_total_nonneg heap' pr'
    · rw [← hpm, ← htask]
      apply solution_total_ge heap' pr' m (by rw [hl]; simp [Problem.T, htask])
      rw [first_fit_ok_reset_busy pr' hPl', htask]
      rw [first_fit_ok_reset_busy pr hPl] at hok
      exact first_fit_ok_mono pr.P pr'.P hPP' pr.task hsorted hdates m hok
  · intro hT
    have hlt : ∀ P, reference_count P pr.task < ULONG_MOD := by
      intro P
      have h1 := reference_count_le P pr.task
      have h2 : 2 ^ pr.task.length < 2 ^ 64 :=
        Nat.pow_lt_pow_right (by norm_num) (by simp only [Problem.T] at hT; omega)
      simp only [ULONG_MOD]
      omega
    rw [solution_count heap pr hPl, solution_count heap' pr' hPl', htask,
      Nat.mod_eq_of_lt (hlt _), Nat.mod_eq_of_lt (hlt _)]
    exact hmono

theorem more_workers_monotone_witness :
    (SortedTasks (mk_problem 1 overlapping_pair).task ∧
      DatesOk (mk_problem 1 overlapping_pair).task ∧
      (mk_problem 1 overlapping_pair).P ≤ (mk_problem 2 overlapping_pair).P ∧
      (mk_problem 2 overlapping_pair).P ≤ MAX_P ∧
      (mk_problem 1 overlapping_pair).T ≤ 63) ∧
    (solution Heap.zero (mk_problem 1 overlapping_pair)).total_profit ≤
      (solution Heap.zero (mk_problem 2 overlapping_pair)).total_profit ∧
    (solution Heap.zero (mk_problem 1 overlapping_pair)).n_viable_sol ≤
      (solution Heap.zero (mk_problem 2 overlapping_pair)).n_viable_sol :=
  have h := more_workers_monotone Heap.zero Heap.zero (mk_problem 1 overlapping_pair)
    (mk_problem 2 overlapping_pair)
    (by simp [SortedTasks, mk_problem, overlapping_pair, mk_task, compare_tasks])
    (by simp [DatesOk, mk_problem, overlapping_pair, mk_task]) rfl (by decide) (by decide)
    (by decide) (by decide)
  ⟨⟨by simp [SortedTasks, mk_problem, overlapping_pair, mk_task, compare_tasks],
      by simp [DatesOk, mk_problem, overlapping_pair, mk_task], by decide, by decide,
      by decide⟩,
    h.2.2.1, h.2.2.2 (by decide)⟩

theorem reference_count_pos (P : Nat) (ts : List Task) : 0 < reference_count P ts := by
  unfold reference_count
  apply List.length_pos_of_mem (a := List.replicate ts.length false)
  rw [List.mem_filter]
  exact ⟨(mem_masks _ _).2 (by simp), first_fit_ok_none P ts _⟩

theorem overlap_then_chain_sorted : SortedTasks overlap_then_chain := by
  unfold SortedTasks overlap_then_chain
  refine List.pairwise_cons.2 ⟨?_, chain_sorted 63⟩
  intro x hx
  simp only [chain, List.mem_map, List.mem_range] at hx
  obtain ⟨i, _, rfl⟩ := hx
  simp only [mk_task, compare_tasks, Int.ofNat_eq_coe]
  split_ifs <;> omega

theorem overlap_then_chain_dates : DatesOk overlap_then_chain := by
  intro tk htk
  rcases List.mem_cons.1 htk with rfl | h
  · simp [mk_task]
  · exact chain_dates 63 tk h

theorem overlap_then_chain_two_workers (m : List Bool) :
    first_fit_ok 2 overlap_then_chain m (List.replicate 2 (-1)) = true := by
  apply (first_fit_ok_iff 2 overlap_then_chain m _ overlap_then_chain_sorted
    overlap_then_chain_dates (by simp) (replicate_idle 2)).2
  refine ⟨fun i => if i = 0 then 0 else 1, ?_, ?_⟩
  · intro i _ _
    show (if i = 0 then 0 else 1) < 2
    split <;> omega
  · intro i j ti tj hij hti htj _ _ ha
    have ha' : (if i = 0 then 0 else 1) = (if j = 0 then 0 else 1) := ha
    have hj : j ≠ 0 := by omega
    have hi : i ≠ 0 := by
      intro h
      rw [if_pos h, if_neg hj] at ha'
      omega
    obtain ⟨i', rfl⟩ : ∃ i', i = i' + 1 := ⟨i - 1, by omega⟩
    obtain ⟨j', rfl⟩ : ∃ j', j = j' + 1 := ⟨j - 1, by omega⟩
    simp only [overlap_then_chain, List.getElem?_cons_succ] at hti htj
    obtain ⟨hi1, hi2⟩ := List.getElem?_eq_some.1 hti
    obtain ⟨hj1, hj2⟩ := List.getElem?_eq_some.1 htj
    have := List.pairwise_iff_getElem.1 (chain_disjoint 63) i' j' hi1 hj1 (by omega)
    rw [hi2, hj2] at this
    intro hov
    have := hov.2
    omega

/-- C20, as stated, fails at `T = MAX_T`: on the 64 sorted tasks `[0,0], [0,1], [2,3],
...` two workers make first-fit accept all `2^64` selections, and the counter is back
at `0`, while one worker leaves a counter that is positive. -/
theorem more_workers_counter_drops :
    SortedTasks overlap_then_chain ∧ DatesOk overlap_then_chain ∧
    (∀ tk ∈ overlap_then_chain, 0 ≤ tk.profit) ∧
    (1 ≤ (mk_problem 1 overlap_then_chain).P ∧
      (mk_problem 1 overlap_then_chain).P ≤ (mk_problem 2 overlap_then_chain).P ∧
      (mk_problem 2 overlap_then_chain).P ≤ MAX_P) ∧
    (solution Heap.zero (mk_problem 2 overlap_then_chain)).n_viable_sol = 0 ∧
    0 < (solution Heap.zero (mk_problem 1 overlap_then_chain)).n_viable_sol ∧
    ¬ ((solution Heap.zero (mk_problem 1 overlap_then_chain)).n_viable_sol ≤
      (solution Heap.zero (mk_problem 2 overlap_then_chain)).n_viable_sol) := by
  have hlen : overlap_then_chain.length = 64 := by simp [overlap_then_chain, chain_length]
  have hgen : ∀ (P : Nat) (_ : P ≤ MAX_P),
      (solution Heap.zero (mk_problem P overlap_then_chain)).n_viable_sol =
        reference_count P overlap_then_chain % ULONG_MOD := fun P hP =>
    solution_count Heap.zero (mk_problem P overlap_then_chain)
      (show P ≤ (List.replicate MAX_P (0 : Int)).length by simpa using hP)
  have h2 : reference_count 2 overlap_then_chain = 2 ^ 64 := by
    unfold reference_count
    rw [List.filter_eq_self.2 (fun m _ => overlap_then_chain_two_workers m), masks_length, hlen]
  have hrej : first_fit_ok 1 overlap_then_chain
      (true :: true :: List.replicate 62 false) (List.replicate 1 (-1)) = false := by
    rw [Bool.eq_false_iff]
    intro hok
    obtain ⟨a, ha1, ha2⟩ := (first_fit_ok_iff 1 overlap_then_chain _ _ overlap_then_chain_sorted
      overlap_then_chain_dates (by simp) (replicate_idle 1)).1 hok
    have h0 := ha1 0 (by rw [hlen]; omega) rfl
    have h1 := ha1 1 (by rw [hlen]; omega) rfl
    have hno := ha2 0 1 (mk_task 0 0 1) (mk_task 0 1 1) (by omega) rfl (by decide) rfl rfl
      (by omega)
    exact hno (by decide)
  have h1lt : reference_count 1 overlap_then_chain < 2 ^ 64 := by
    unfold reference_count
    have : ((masks overlap_then_chain.length).filter
        (fun m => first_fit_ok 1 overlap_then_chain m (List.replicate 1 (-1)))).length <
        (masks overlap_then_chain.length).length := by
      rw [List.length_filter_lt_length_iff_exists]
      refine ⟨true :: true :: List.replicate 62 false, (mem_masks _ _).2 (by simp [hlen]), ?_⟩
      rw [hrej]; simp
    rwa [masks_length, hlen] at this
  have hn2 : (solution Heap.zero (mk_problem 2 overlap_then_chain)).n_viable_sol = 0 := by
    rw [hgen 2 (by decide), h2]; simp [ULONG_MOD]
  have hn1 : 0 < (solution Heap.zero (mk_problem 1 overlap_then_chain)).n_viable_sol := by
    rw [hgen 1 (by decide), Nat.mod_eq_of_lt (by simpa [ULONG_MOD] using h1lt)]
    exact reference_count_pos 1 overlap_then_chain
  refine ⟨overlap_then_chain_sorted, overlap_then_chain_dates, ?_,
    ⟨le_refl 1, by decide, by decide⟩, hn2, hn1, ?_⟩
  · intro tk htk
    rcases List.mem_cons.1 htk with rfl | h
    · simp [mk_task]
    · simp only [chain, List.mem_map, List.mem_range] at h
      obtain ⟨i, _, rfl⟩ := h
      simp [mk_task]
  · rw [hn2]; omega

/-! ## The invariant of the search state -/

theorem last_end_spec (q : Problem) (w : Nat) (u : Nat) :
    (∃ i, i < u ∧ Holds q w i ∧ (∀ j, i < j → j < u → ¬ Holds q w j) ∧
      last_end q w u = (task_at q i).ending_date) ∨
    ((∀ i, i < u → ¬ Holds q w i) ∧ last_end q w u = -1) := by
  induction u with
  | zero => right; exact ⟨fun i hi => absurd hi (Nat.not_lt_zero i), rfl⟩
  | succ u ih =>
    by_cases h : Holds q w u
    · left
      refine ⟨u, Nat.lt_succ_self u, h, fun j h1 h2 => by omega, ?_⟩
      unfold Holds at h
      rw [last_end, if_pos h]
    · have hl : last_end q w (u + 1) = last_end q w u := by
        unfold Holds at h
        rw [last_end, if_neg h]
      rcases ih with ⟨i, hi, hh, hmax, he⟩ | ⟨hnone, he⟩
      · left
        refine ⟨i, by omega, hh, ?_, by rw [hl, he]⟩
        intro j h1 h2
        rcases Nat.eq_or_lt_of_le (Nat.le_of_lt_succ h2) with rfl | h3
        · exact h
        · exact hmax j h1 h3
      · right
        refine ⟨?_, by rw [hl, he]⟩
        intro i hi
        rcases Nat.eq_or_lt_of_le (Nat.le_of_lt_succ hi) with rfl | h3
        · exact h
        · exact hnone i h3

theorem selected_profit_congr (q q' : Problem) (u : Nat)
    (h : ∀ i, i < u → q'.current_sol.getD i 0 = q.current_sol.getD i 0 ∧
      task_at q' i = task_at q i) :
    selected_profit q' u = selected_profit q u := by
  induction u with
  | zero => rfl
  | succ u ih =>
    have hu := h u (Nat.lt_succ_self u)
    simp only [selected_profit, hu.1, hu.2, ih (fun i hi => h i (Nat.lt_succ_of_lt hi))]

theorem last_end_congr (q q' : Problem) (w u : Nat)
    (h : ∀ i, i < u → q'.current_sol.getD i 0 = q.current_sol.getD i 0 ∧
      task_at q' i = task_at q i) :
    last_end q' w u = last_end q w u := by
  induction u with
  | zero => rfl
  | succ u ih =>
    have hu := h u (Nat.lt_succ_self u)
    simp only [last_end, hu.1, hu.2, ih (fun i hi => h i (Nat.lt_succ_of_lt hi))]

theorem task_at_of_take (q q' : Problem) (u i : Nat)
    (h : q'.task.take u = q.task.take u) (hi : i < u) : task_at q' i = task_at q i := by
  have := congrArg (fun l => l[i]?) h
  simp only [List.getElem?_take, hi, if_true] at this
  unfold task_at
  rw [List.getD_eq_getElem?_getD, List.getD_eq_getElem?_getD, this]

theorem task_at_set_assigned_ne (q : Problem) (t i : Nat) (w : Int) (h : i ≠ t) :
    task_at (set_assigned q t w) i = task_at q i := by
  unfold task_at set_assigned
  simp [List.getD_eq_getElem?_getD, List.getElem?_set, Ne.symm h]

theorem task_at_set_assigned_eq (q : Problem) (t : Nat) (w : Int) (ht : t < q.task.length) :
    task_at (set_assigned q t w) t = { task_at q t with assigned_to := w } := by
  unfold set_assigned
  show List.getD (List.set _ _ _) _ _ = _
  simp [List.getD_eq_getElem?_getD, List.getElem?_set, ht]

theorem searchInv_exclude (pr : Problem) (t : Nat) (ht : t < pr.T)
    (hinv : SearchInv pr t) : SearchInv (set_assigned pr t (-1)) (t + 1) := by
  obtain ⟨h1, h2, h3, h4⟩ := hinv
  have hzero : pr.current_sol.getD t 0 = 0 := h2 t (le_refl t) ht
  have hagree : ∀ i, i < t →
      (set_assigned pr t (-1)).current_sol.getD i 0 = pr.current_sol.getD i 0 ∧
      task_at (set_assigned pr t (-1)) i = task_at pr i :=
    fun i hi => ⟨rfl, task_at_set_assigned_ne pr t i (-1) (by omega)⟩
  have hcur : (set_assigned pr t (-1)).current_sol = pr.current_sol := rfl
  refine ⟨?_, ?_, ?_, ?_⟩
  · show pr.current_sol_profit = _
    simp only [selected_profit, hcur, hzero]
    rw [selected_profit_congr pr _ t hagree, h1]
    simp
  · intro i hi hiT
    have hT : (set_assigned pr t (-1)).T = pr.T := (set_assigned_static pr t (-1)).T_eq
    rw [hT] at hiT
    exact h2 i (by omega) hiT
  · intro w hw
    show pr.busy.getD w 0 = _
    simp only [last_end, hcur, hzero]
    rw [last_end_congr pr _ w t hagree]
    simpa using h3 w hw
  · intro w hw i hi hh
    have hne : i ≠ t := by
      intro h
      subst h
      have := hh.1
      rw [hcur, hzero] at this
      omega
    have hlt : i < t := by omega
    have hh' : Holds pr w i := by
      unfold Holds at hh ⊢
      rw [(hagree i hlt).2] at hh
      exact hh
    have := h4 w hw i hlt hh'
    rw [(hagree i hlt).2]
    exact this

theorem searchInv_include (pr pr1 : Problem) (t : Nat) (ht : t < pr.T)
    (hlen : pr.current_sol.length = pr.T) (hPl : pr.P ≤ pr.busy.length)
    (hdate : (task_at pr t).starting_date ≤ (task_at pr t).ending_date)
    (hinv : SearchInv pr t) (hb : pr1.busy = pr.busy) (hc : pr1.current_sol = pr.current_sol)
    (hp : pr1.current_sol_profit = pr.current_sol_profit) (hP : pr1.P = pr.P)
    (htake : pr1.task.take t = pr.task.take t)
    (hkeys : pr1.task.map Task.key = pr.task.map Task.key)
    (hfree : first_free pr1.busy (task_at pr1 t).starting_date pr1.P < pr1.P) :
    SearchInv
      (include_state pr1 t (first_free pr1.busy (task_at pr1 t).starting_date pr1.P))
      (t + 1) := by
  obtain ⟨h1, h2, h3, h4⟩ := hinv
  have hk := task_at_key_of_map pr pr1 t hkeys
  rw [key_eq_iff] at hk
  have hlen1 : pr1.task.length = pr.task.length := by simpa using congrArg List.length hkeys
  have ht1 : t < pr1.task.length := by rw [hlen1]; exact ht
  have htc : t < pr.current_sol.length := by rw [hlen]; exact ht
  generalize hpdef : first_free pr1.busy (task_at pr1 t).starting_date pr1.P = p at hfree ⊢
  have hpfree : pr.busy.getD p 0 < (task_at pr t).starting_date := by
    have := first_free_free pr1.busy (task_at pr1 t).starting_date pr1.P (by rw [hpdef]; exact hfree)
    rw [hpdef, hb, hk.1] at this
    exact this
  have hpl : p < pr.busy.length := by rw [hP] at hfree; omega
  -- the state in which the include branch recurses
  have ibusy : (include_state pr1 t p).busy = pr.busy.set p (task_at pr t).ending_date := by
    show pr1.busy.set p (task_at pr1 t).ending_date = _
    rw [hb, hk.2.1]
  have icur : (include_state pr1 t p).current_sol = pr.current_sol.set t 1 := by
    show pr1.current_sol.set t 1 = _
    rw [hc]
  have iprofit : (include_state pr1 t p).current_sol_profit =
      pr.current_sol_profit + (task_at pr t).profit := by
    rw [include_state_profit, hp, hk.2.2]
  have itask_ne : ∀ i, i ≠ t → task_at (include_state pr1 t p) i = task_at pr1 i := by
    intro i hi
    exact task_at_set_assigned_ne
      { pr1 with busy := pr1.busy.set p (task_at pr1 t).ending_date } t i p hi
  have itask_eq : task_at (include_state pr1 t p) t =
      { task_at pr1 t with assigned_to := (p : Int) } :=
    task_at_set_assigned_eq
      { pr1 with busy := pr1.busy.set p (task_at pr1 t).ending_date } t p ht1
  have icur_t : (include_state pr1 t p).current_sol.getD t 0 = 1 := by
    rw [icur]; exact getD_set_eq _ _ _ htc
  have icur_ne : ∀ i, i ≠ t →
      (include_state pr1 t p).current_sol.getD i 0 = pr.current_sol.getD i 0 := by
    intro i hi
    rw [icur]; exact getD_set_ne _ _ _ _ (Ne.symm hi)
  have hagree : ∀ i, i < t →
      (include_state pr1 t p).current_sol.getD i 0 = pr.current_sol.getD i 0 ∧
      task_at (include_state pr1 t p) i = task_at pr i := by
    intro i hi
    refine ⟨icur_ne i (by omega), ?_⟩
    rw [itask_ne i (by omega)]
    exact task_at_of_take pr pr1 t i htake hi
  have iP : (include_state pr1 t p).P = pr.P := hP
  have iT : (include_state pr1 t p).T = pr.T := by
    have := (include_state_static pr1 t p).T_eq
    rw [this]
    exact hlen1
  refine ⟨?_, ?_, ?_, ?_⟩
  · rw [iprofit]
    simp only [selected_profit, icur_t, if_true]
    rw [selected_profit_congr pr _ t hagree, h1, itask_eq, hk.2.2]
  · intro i hi hiT
    rw [iT] at hiT
    rw [icur_ne i (by omega)]
    exact h2 i (by omega) hiT
  · intro w hw
    rw [iP] at hw
    rw [ibusy]
    simp only [last_end, icur_t, true_and]
    rw [last_end_congr pr _ w t hagree, itask_eq]
    by_cases hwp : p = w
    · subst hwp
      rw [getD_set_eq _ _ _ hpl]
      simp [hk.2.1]
    · rw [getD_set_ne _ _ _ _ hwp]
      have : ¬ ((p : Int) = (w : Int)) := by omega
      simp only [this, if_false]
      exact h3 w hw
  · intro w hw i hi hh
    rw [iP] at hw
    rw [ibusy]
    rcases Nat.eq_or_lt_of_le (Nat.le_of_lt_succ hi) with rfl | hlt
    · have hasg := hh.2
      rw [itask_eq] at hasg ⊢
      have hwp : p = w := by
        have : (p : Int) = (w : Int) := hasg
        omega
      subst hwp
      rw [getD_set_eq _ _ _ hpl]
      simp [hk.2.1]
    · have hh' : Holds pr w i := by
        unfold Holds at hh ⊢
        rw [(hagree i hlt).1, (hagree i hlt).2] at hh
        exact hh
      have hold := h4 w hw i hlt hh'
      rw [(hagree i hlt).2]
      by_cases hwp : p = w
      · subst hwp
        rw [getD_set_eq _ _ _ hpl]
        omega
      · rw [getD_set_ne _ _ _ _ hwp]
        exact hold

theorem dates_of_keys (q q' : Problem) (h : q'.task.map Task.key = q.task.map Task.key)
    (hd : ∀ i, (task_at q i).starting_date ≤ (task_at q i).ending_date) :
    ∀ i, (task_at q' i).starting_date ≤ (task_at q' i).ending_date := by
  intro i
  have := task_at_key_of_map q q' i h
  rw [key_eq_iff] at this
  rw [this.1, this.2.1]
  exact hd i

/-- The invariant holds at the entry of every call made during a call at whose entry
it holds. -/
theorem call_entries_inv (fuel : Nat) :
    ∀ (pr : Problem) (t : Nat), t ≤ pr.T → pr.T - t < fuel →
      pr.current_sol.length = pr.T → pr.P ≤ pr.busy.length →
      (∀ i, (task_at pr i).starting_date ≤ (task_at pr i).ending_date) →
      SearchInv pr t → ∀ e ∈ call_entries fuel pr t, SearchInv e.1 e.2 := by
  induction fuel with
  | zero => intro pr t _ h; omega
  | succ fuel ih =>
    intro pr t ht hfuel hlen hPl hdates hinv e he
    by_cases hT : t = pr.T
    · rw [call_entries_leaf fuel pr t hT] at he
      rw [List.mem_singleton.1 he]
      exact hinv
    · have htlt : t < pr.T := by omega
      rw [call_entries_succ fuel pr t hT] at he
      have hsa := set_assigned_static pr t (-1)
      have hTa : (set_assigned pr t (-1)).T = pr.T := hsa.T_eq
      have hinva := searchInv_exclude pr t htlt hinv
      have hdatesa := dates_of_keys pr _ hsa.2.1 hdates
      have hlena : (set_assigned pr t (-1)).current_sol.length = (set_assigned pr t (-1)).T := by
        rw [hTa]; exact hlen
      rcases List.mem_cons.1 he with rfl | he
      · exact hinv
      · rcases List.mem_append.1 he with he | he
        · exact ih (set_assigned pr t (-1)) (t + 1) (by rw [hTa]; omega) (by rw [hTa]; omega)
            hlena hPl hdatesa hinva e he
        · split at he
          · rename_i hfree
            obtain ⟨⟨hb, hc, hp, hP, hk, _⟩, hst⟩ :=
              recursive_sol_restores fuel (set_assigned pr t (-1)) (t + 1)
                (by rw [hTa]; omega) (by rw [hTa]; omega) hlena hinva.2.1
            have hst' := hsa.trans_succ hst
            have hinvi := searchInv_include pr
              (recursive_sol fuel (set_assigned pr t (-1)) (t + 1)) t htlt hlen hPl (hdates t)
              hinv hb hc hp hP hst'.2.2.2.1 hst'.2.1 hfree
            have hsi := include_state_static
              (recursive_sol fuel (set_assigned pr t (-1)) (t + 1)) t
              (first_free (recursive_sol fuel (set_assigned pr t (-1)) (t + 1)).busy
                (task_at (recursive_sol fuel (set_assigned pr t (-1)) (t + 1)) t).starting_date
                (recursive_sol fuel (set_assigned pr t (-1)) (t + 1)).P)
            have hTi := hsi.T_eq.trans hst'.T_eq
            refine ih _ (t + 1) (by rw [hTi]; omega) (by rw [hTi]; omega) ?_ ?_ ?_ hinvi e he
            · have e5 := hsi.2.2.2.2.2
              have e6 := hst'.2.2.2.2.2
              omega
            · have e1 := hsi.1
              have e2 := hst'.1
              have e3 := hsi.2.2.2.2.1
              have e4 := hst'.2.2.2.2.1
              omega
            · exact dates_of_keys pr _ (hsi.2.1.trans hst'.2.1) hdates
          · simp at he

theorem initial_state_inv (heap : Heap) (pr : Problem) (hP : pr.P ≤ pr.busy.length) :
    SearchInv (initial_state heap pr) 0 := by
  refine ⟨rfl, ?_, ?_, ?_⟩
  · intro i _ hi
    have hi' : i < pr.T := hi
    show (List.replicate pr.T (0 : Int)).getD i 0 = 0
    simp [List.getD_eq_getElem?_getD, List.getElem?_replicate, hi']
  · intro w hw
    exact reset_busy_idle pr.busy pr.P hP w hw
  · intro w _ i hi
    omega

/-- C15. Search-state invariant: with `starting_date <= ending_date` for every task
and `P <= MAX_P`, at the entry of every call `recursive_sol(q, u)` made during
`solution`, leaves included, `current_sol_profit` is the sum of the profits of the
tasks `i < u` with `current_sol[i] = 1`, `current_sol[i] = 0` for every `i >= u`, and
for every worker `w < P`, `busy[w]` is the ending date of the highest-indexed task
`i < u` with `current_sol[i] = 1` and `assigned_to = w`, or `-1` if `w` holds no
task, and no task held by `w` ends after `busy[w]`. -/
theorem search_state_invariant (heap : Heap) (pr : Problem)
    (hP : pr.P ≤ MAX_P) (hbusy : pr.busy.length = MAX_P)
    (hdates : ∀ tk ∈ pr.task, tk.starting_date ≤ tk.ending_date)
    (q : Problem) (u : Nat)
    (hcall : (q, u) ∈ call_entries (pr.T + 1) (initial_state heap pr) 0) :
    q.current_sol_profit = selected_profit q u ∧
    (∀ i, u ≤ i → i < q.T → q.current_sol.getD i 0 = 0) ∧
    ∀ w, w < q.P →
      ((∃ i, i < u ∧ Holds q w i ∧ (∀ j, i < j → j < u → ¬ Holds q w j) ∧
          q.busy.getD w 0 = (task_at q i).ending_date) ∨
        ((∀ i, i < u → ¬ Holds q w i) ∧ q.busy.getD w 0 = -1)) ∧
      ∀ i, i < u → Holds q w i → (task_at q i).ending_date ≤ q.busy.getD w 0 := by
  have hPl : pr.P ≤ pr.busy.length := by rw [hbusy]; exact hP
  have hd : ∀ i, (task_at (initial_state heap pr) i).starting_date ≤
      (task_at (initial_state heap pr) i).ending_date := by
    intro i
    show (pr.task.getD i ⟨0, 0, 0, -1⟩).starting_date ≤ (pr.task.getD i ⟨0, 0, 0, -1⟩).ending_date
    rw [List.getD_eq_getElem?_getD]
    cases h : pr.task[i]? with
    | none => simp
    | some tk => simpa using hdates tk (List.getElem?_mem h)
  have hinv := call_entries_inv (pr.T + 1) (initial_state heap pr) 0 (Nat.zero_le _)
    (by show pr.T - 0 < pr.T + 1; omega)
    (by show (List.replicate pr.T (0 : Int)).length = pr.T; simp)
    (by show pr.P ≤ (reset_busy pr.busy pr.P).length; rw [reset_busy_length]; exact hPl)
    hd (initial_state_inv heap pr hPl) (q, u) hcall
  obtain ⟨h1, h2, h3, h4⟩ := hinv
  refine ⟨h1, h2, ?_⟩
  intro w hw
  refine ⟨?_, h4 w hw⟩
  have hb := h3 w hw
  simp only at hb
  rcases last_end_spec q w u with ⟨i, hi, hh, hmax, he⟩ | ⟨hnone, he⟩
  · left
    exact ⟨i, hi, hh, hmax, by rw [hb, he]⟩
  · right
    exact ⟨hnone, by rw [hb, he]⟩

theorem search_state_invariant_witness :
    ((mk_problem 1 overlapping_pair).P ≤ MAX_P ∧
      (mk_problem 1 overlapping_pair).busy.length = MAX_P ∧
      (∀ tk ∈ (mk_problem 1 overlapping_pair).task, tk.starting_date ≤ tk.ending_date) ∧
      (include_state
          (recursive_sol 2
            (set_assigned (initial_state Heap.zero (mk_problem 1 overlapping_pair)) 0 (-1)) 1)
          0 0, 1) ∈
        call_entries ((mk_problem 1 overlapping_pair).T + 1)
          (initial_state Heap.zero (mk_problem 1 overlapping_pair)) 0) ∧
    (include_state
        (recursive_sol 2
          (set_assigned (initial_state Heap.zero (mk_problem 1 overlapping_pair)) 0 (-1)) 1)
        0 0).current_sol_profit =
      selected_profit
        (include_state
          (recursive_sol 2
            (set_assigned (initial_state Heap.zero (mk_problem 1 overlapping_pair)) 0 (-1)) 1)
          0 0) 1 :=
  ⟨⟨by decide, by decide, by decide, by decide⟩,
    (search_state_invariant Heap.zero (mk_problem 1 overlapping_pair) (by decide) (by decide)
      (by decide) _ 1 (by decide)).1⟩

end JobSelection
